import Mathlib

/-! # auditd-listen.c : the TCP listener of the audit daemon

A shallow embedding of `src/src/auditd-listen.c`: the per-connection receive
buffer and its framer (`auditd_tcp_client_handler`, `client_message`), the
acknowledgement writer (`ar_write`), the client chain (`close_client`), the
acceptor (`auditd_tcp_listen_handler`), the idle monitor
(`auditd_tcp_listen_check_idle`) and the listener lifecycle
(`auditd_tcp_listen_init`, `auditd_tcp_listen_uninit`).

Conventions of the embedding.

* C `int` values (`bufptr`, `r`, `i`, `total_this_call`) are `Int`; a value
  converted to `unsigned int` or `size_t` is reduced modulo `2^32` / `2^64`.
* The receive buffer is the byte map `Nat → Nat` of the memory starting at
  `io->buffer`; the array proper is the indices below `cap`. Every access the
  code makes to it is recorded in the event trace, so that bounds are
  statements about the trace.
* System calls are scripted: a list of `ReadRes` answers the successive
  `read` calls and a list of `WriteRes` the successive `write` calls. An
  exhausted read script answers `EAGAIN` (nothing pending on the non-blocking
  socket); an exhausted write script accepts the whole slice.
* The two `goto` loops of the handler are the functions `more_messages`
  (bounded by a fuel argument, one unit per pass) and `read_more` (one script
  entry per iteration).
-/

namespace AuditdListen

/-! ## System-call results -/

/-- The `errno` values the code tells apart. -/
inductive Errno
  | EAGAIN
  | EINTR
  | other (n : Nat)
  deriving DecidableEq, Repr

/-- Outcome of one `read` call: bytes made available by the peer (an empty list
is end of stream) or `-1` with an `errno`. -/
inductive ReadRes
  | data (bytes : List Nat)
  | err (e : Errno)
  deriving DecidableEq, Repr

/-- Outcome of one `write` call: the count returned, or `-1` with an `errno`. -/
inductive WriteRes
  | ok (n : Nat)
  | err (e : Errno)
  deriving DecidableEq, Repr

/-! ## Wire-format parameters (`private.h`, `libaudit.h`) -/

/-- Fields that `AUDIT_RMW_UNPACK_HEADER` assigns. -/
structure Hdr where
  hver : Nat
  mver : Nat
  type : Nat
  len : Nat
  seq : Nat
  deriving DecidableEq, Repr

/-- Parameters standing for the constants and header macros of `private.h` and
`libaudit.h`, which `auditd-listen.c` includes but which are not under `src/`:
the maximum message length, the fixed header size, the heartbeat and ack type
codes, the magic marker probed at the start of the buffered bytes, the
decoder of a header (a function of its `AUDIT_RMW_HEADER_SIZE` bytes) and the
encoder `AUDIT_RMW_PACK_HEADER (header, mver, type, len, seq)` giving the
bytes it stores in `header`. -/
structure Proto where
  MAX_AUDIT_MESSAGE_LENGTH : Nat
  AUDIT_RMW_HEADER_SIZE : Nat
  AUDIT_RMW_TYPE_HEARTBEAT : Nat
  AUDIT_RMW_TYPE_ACK : Nat
  AUDIT_RMW_MAGIC : List Nat
  AUDIT_RMW_UNPACK_HEADER : List Nat → Hdr
  AUDIT_RMW_PACK_HEADER : Nat → Nat → Nat → Nat → List Nat

/-- Size of `buffer` in `struct ev_tcp`: `MAX_AUDIT_MESSAGE_LENGTH + 17`. -/
def cap (p : Proto) : Nat := p.MAX_AUDIT_MESSAGE_LENGTH + 17

/-- Little-endian bytes of a 16-bit field. -/
def putn16 (v : Nat) : List Nat := [v % 256, v / 256 % 256]

/-- Little-endian bytes of a 32-bit field. -/
def putn32 (v : Nat) : List Nat :=
  [v % 256, v / 256 % 256, v / 65536 % 256, v / 16777216 % 256]

/-- Little-endian 16-bit field at offset `i`. -/
def getn16 (h : List Nat) (i : Nat) : Nat :=
  h.getD i 0 % 256 + 256 * (h.getD (i + 1) 0 % 256)

/-- Little-endian 32-bit field at offset `i`. -/
def getn32 (h : List Nat) (i : Nat) : Nat :=
  h.getD i 0 % 256 + 256 * (h.getD (i + 1) 0 % 256)
    + 65536 * (h.getD (i + 2) 0 % 256) + 16777216 * (h.getD (i + 3) 0 % 256)

/-- Modelled from the spec: one instance of the wire format of section 6 (a
fixed 16-byte header holding format version, message version, message type,
payload length and sequence number behind a 4-byte magic value), with the
maximum message length of the audit library. It is the instance on which the
theorems below are exercised. -/
def rmw : Proto where
  MAX_AUDIT_MESSAGE_LENGTH := 8970
  AUDIT_RMW_HEADER_SIZE := 16
  AUDIT_RMW_TYPE_HEARTBEAT := 1
  AUDIT_RMW_TYPE_ACK := 0x40000000
  AUDIT_RMW_MAGIC := [0xfe, 0x00, 0x00, 0xff]
  AUDIT_RMW_UNPACK_HEADER := fun h =>
    { hver := h.getD 4 0, mver := h.getD 5 0, type := getn32 h 8,
      len := getn16 h 12, seq := getn16 h 14 }
  AUDIT_RMW_PACK_HEADER := fun mver type len seq =>
    [0xfe, 0x00, 0x00, 0xff] ++ [0, mver] ++ putn16 16 ++ putn32 type
      ++ putn16 len ++ putn16 seq

/-! ## Buffer memory -/

/-- The `n` bytes at `buf + off`. -/
def bytes_at (buf : Nat → Nat) (off n : Nat) : List Nat :=
  (List.range n).map (fun k => buf (off + k))

/-- Store of one byte: `buf[i] = v`. -/
def bset (buf : Nat → Nat) (i v : Nat) : Nat → Nat :=
  fun k => if k = i then v else buf k

/-- Bytes stored by a `read` at `buf + off`. -/
def bwrite (buf : Nat → Nat) (off : Nat) (bytes : List Nat) : Nat → Nat :=
  fun k => if off ≤ k ∧ k < off + bytes.length then bytes.getD (k - off) 0 else buf k

/-- The call `memmove (buf, buf + src, n)`. -/
def memmove (buf : Nat → Nat) (src n : Nat) : Nat → Nat :=
  fun k => if k < n then buf (src + k) else buf k

/-- The C string at `buf + off`: the bytes before the first NUL. The search
stops at the end of the array. -/
def cstr (p : Proto) (buf : Nat → Nat) (off : Nat) : List Nat :=
  ((List.range' off (cap p - off)).map buf).takeWhile (fun b => b != 0)

/-- Conversion of a 32-bit pattern to `int`. -/
def int32 (n : Nat) : Int :=
  if n % 2 ^ 32 < 2 ^ 31 then ((n % 2 ^ 32 : Nat) : Int) else ((n % 2 ^ 32 : Nat) : Int) - 2 ^ 32

/-- Conversion of an `int` to `unsigned int`. -/
def uint32 (i : Int) : Nat := (i % 2 ^ 32).toNat

/-- Conversion of an `int` to `size_t`. -/
def size_t (i : Int) : Nat := (i % 2 ^ 64).toNat

/-- Modelled from the spec: the macro `AUDIT_RMW_IS_MAGIC (buf, len)` of
`private.h` (not under `src/`), the magic-value probe on the buffered bytes:
at least the marker's length is buffered and the buffer starts with it. -/
def AUDIT_RMW_IS_MAGIC (p : Proto) (buf : Nat → Nat) (len : Int) : Bool :=
  decide ((p.AUDIT_RMW_MAGIC.length : Int) ≤ len)
    && (bytes_at buf 0 p.AUDIT_RMW_MAGIC.length == p.AUDIT_RMW_MAGIC)

/-! ## Connections, the client chain and the event trace -/

/-- The record `struct ev_tcp`: `io.fd`, the peer address and port, the chain
links, `bufptr`, `client_active` and the memory at `buffer`. -/
structure ev_tcp where
  fd : Int
  addr : Nat
  port : Nat
  next : Option Nat
  prev : Option Nat
  bufptr : Int
  client_active : Int
  buffer : Nat → Nat

/-- Observable actions, in program order. -/
inductive Ev
  /-- The call `read (fd, buffer + off, count)`, which stored `got` bytes. -/
  | read (fd : Int) (off : Int) (count : Nat) (got : Nat)
  /-- A store `header[idx] = ...` by `client_message`. -/
  | store (idx : Nat)
  /-- The call `memmove (buffer, buffer + src, n)`. -/
  | memmove (src : Int) (n : Int)
  /-- The call `write (sock, buf, len)` with the slice offered. -/
  | write (sock : Int) (bytes : List Nat)
  /-- The call `enqueue_formatted_event (msg, sock, seq)`. -/
  | enqueue (msg : List Nat) (sock : Int) (seq : Nat)
  /-- The warning `client ... socket closed unexpectedly`. -/
  | audit_msg (addr port : Nat)
  /-- The call `ev_io_stop (loop, _io)`. -/
  | ev_io_stop (fd : Int)
  /-- The call `send_audit_event (AUDIT_DAEMON_CLOSE, ...)`, `res=success`. -/
  | send_audit_event_close (addr port : Nat)
  /-- The call `close (fd)`. -/
  | close (fd : Int)
  /-- The call `free (client)`. -/
  | free (client : Nat)
  deriving DecidableEq, Repr

/-- Global state: `client_chain` and the allocated `struct ev_tcp` records. -/
structure World where
  client_chain : Option Nat
  heap : Nat → Option ev_tcp

/-- Update of one heap cell. -/
def hset (heap : Nat → Option ev_tcp) (a : Nat) (v : Option ev_tcp) : Nat → Option ev_tcp :=
  fun k => if k = a then v else heap k

/-- The function `close_client`. -/
def close_client (w : World) (client : Nat) : World × List Ev :=
  match w.heap client with
  | none => (w, [])
  | some c =>
    let chain := if w.client_chain = some client then c.next else w.client_chain
    let h1 := match c.next with
      | some n => (match w.heap n with
        | some cn => hset w.heap n (some { cn with prev := c.prev })
        | none => w.heap)
      | none => w.heap
    let h2 := match c.prev with
      | some q => (match h1 q with
        | some cp => hset h1 q (some { cp with next := c.next })
        | none => h1)
      | none => h1
    ({ client_chain := chain, heap := hset h2 client none },
      [Ev.send_audit_event_close c.addr c.port, Ev.close c.fd, Ev.free client])

/-! ## `ar_write` -/

/-- The loop of `ar_write`, with `rc` the running count. -/
def ar_write_loop : List WriteRes → Int → List Nat → Int → Int → Int × List Ev × List WriteRes
  | [], sock, buf, len, rc =>
    if len > 0 then (rc + len, [Ev.write sock (buf.take len.toNat)], []) else (rc, [], [])
  | w :: ws, sock, buf, len, rc =>
    if len > 0 then
      match w with
      | WriteRes.err Errno.EINTR =>
        let t := ar_write_loop ws sock buf len rc
        (t.1, Ev.write sock (buf.take len.toNat) :: t.2.1, t.2.2)
      | WriteRes.err _ => (-1, [Ev.write sock (buf.take len.toNat)], ws)
      | WriteRes.ok n =>
        if n = 0 then (rc, [Ev.write sock (buf.take len.toNat)], ws)
        else
          let t := ar_write_loop ws sock (buf.drop n) (len - n) (rc + n)
          (t.1, Ev.write sock (buf.take len.toNat) :: t.2.1, t.2.2)
    else (rc, [], w :: ws)

/-- The function `ar_write (sock, buf, len)`. -/
def ar_write (ws : List WriteRes) (sock : Int) (buf : List Nat) (len : Int) :
    Int × List Ev × List WriteRes :=
  ar_write_loop ws sock buf len 0

/-! ## `client_message` -/

/-- The function `client_message (io, length, header)` with `header` the
connection's buffer, as at both call sites. Returns the connection, the
events and the rest of the write script. -/
def client_message (p : Proto) (io : ev_tcp) (length : Nat) (ws : List WriteRes) :
    ev_tcp × List Ev × List WriteRes :=
  let header := io.buffer
  if AUDIT_RMW_IS_MAGIC p header length then
    let h := p.AUDIT_RMW_UNPACK_HEADER (bytes_at header 0 p.AUDIT_RMW_HEADER_SIZE)
    let type := h.type % 2 ^ 32
    let seq := h.seq % 2 ^ 32
    let ch := header length
    let header1 := bset header length 0
    let strip := decide (length > 1) && (header1 (length - 1) == 10)
    let header2 := if strip then bset header1 (length - 1) 0 else header1
    let stores := if strip then [Ev.store length, Ev.store (length - 1)] else [Ev.store length]
    if type = p.AUDIT_RMW_TYPE_HEARTBEAT then
      let ack := p.AUDIT_RMW_PACK_HEADER 0 p.AUDIT_RMW_TYPE_ACK 0 seq
      let t := ar_write ws io.fd ack p.AUDIT_RMW_HEADER_SIZE
      ({ io with buffer := bset header2 length ch }, stores ++ t.2.1 ++ [Ev.store length], t.2.2)
    else
      ({ io with buffer := bset header2 length ch },
        stores ++ [Ev.enqueue (cstr p header2 p.AUDIT_RMW_HEADER_SIZE) io.fd seq, Ev.store length],
        ws)
  else
    let header1 := bset header length 0
    let strip := decide (length > 1) && (header1 (length - 1) == 10)
    let header2 := if strip then bset header1 (length - 1) 0 else header1
    let stores := if strip then [Ev.store length, Ev.store (length - 1)] else [Ev.store length]
    ({ io with buffer := header2 }, stores ++ [Ev.enqueue (cstr p header2 0) 0 0], ws)

/-! ## `auditd_tcp_client_handler` -/

/-- The scan `for (i = bufptr; i < bufptr + r; i++) if (buffer[i] == LF) break;`
started at `i` with `n` indices left: the value of `i` after the loop. -/
def scan_lf (buf : Nat → Nat) : Nat → Nat → Nat
  | i, 0 => i
  | i, n + 1 => if buf i = 10 then i else scan_lf buf (i + 1) n

/-- Boundary detection, lines 203 to 238, on the buffer holding `bufptr + r`
bytes: `none` when the handler returns to await more data, `some i` when an
`i`-byte message is in the buffer. -/
def boundary (p : Proto) (io : ev_tcp) (r : Int) : Option Int :=
  if AUDIT_RMW_IS_MAGIC p io.buffer (io.bufptr + r) then
    if io.bufptr + r < p.AUDIT_RMW_HEADER_SIZE then none
    else
      let h := p.AUDIT_RMW_UNPACK_HEADER (bytes_at io.buffer 0 p.AUDIT_RMW_HEADER_SIZE)
      let i := int32 (h.len % 2 ^ 32 + p.AUDIT_RMW_HEADER_SIZE)
      if io.bufptr + r < i then none else some i
  else
    let i : Int := scan_lf io.buffer io.bufptr.toNat r.toNat
    if i = io.bufptr + r then none else some (i + 1)

/-- Outcome of the `more_messages` loop: the connection, the events, the rest
of the write script, and whether control reached `goto read_more` (`again`)
or the handler returned. -/
structure Pass where
  io : ev_tcp
  evs : List Ev
  ws : List WriteRes
  again : Bool

/-- The loop at label `more_messages`, entered with `r` fresh bytes after the
`bufptr` buffered ones. One unit of fuel per pass; `none` when it runs out. -/
def more_messages (p : Proto) : Nat → ev_tcp → Int → List WriteRes → Option Pass
  | 0, _, _, _ => none
  | fuel + 1, io, r, ws =>
    let io1 : ev_tcp := { io with bufptr := io.bufptr + r }
    match boundary p io r with
    | none => some { io := io1, evs := [], ws := ws, again := false }
    | some i =>
      let m := client_message p io1 (uint32 i) ws
      let io2 : ev_tcp :=
        { m.1 with buffer := memmove m.1.buffer i.toNat (size_t io1.bufptr),
                   bufptr := io1.bufptr - i }
      let evs := m.2.1 ++ [Ev.memmove i io1.bufptr]
      if io2.bufptr > 0 then
        match more_messages p fuel { io2 with bufptr := 0 } io2.bufptr m.2.2 with
        | none => none
        | some t => some { t with evs := evs ++ t.evs }
      else some { io := io2, evs := evs, ws := m.2.2, again := true }

/-- Outcome of one callback on a connection: the connection, whether the
close path was taken, the events, and the unused parts of both scripts. -/
structure Result where
  io : ev_tcp
  closed : Bool
  evs : List Ev
  reads : List ReadRes
  ws : List WriteRes

/-- Lines 189 to 193: the final message without a line-feed. The calls
`ev_io_stop` and `close_client` that follow are made by
`auditd_tcp_client_handler` below. -/
def close_path (p : Proto) (io : ev_tcp) (evs : List Ev) (reads : List ReadRes)
    (ws : List WriteRes) : Result :=
  if io.bufptr ≠ 0 then
    let m := client_message p io (uint32 io.bufptr) ws
    { io := m.1, closed := true, evs := evs ++ m.2.1, reads := reads, ws := m.2.2 }
  else { io := io, closed := true, evs := evs, reads := reads, ws := ws }

/-- The loop at label `read_more`, with `total` the value of
`total_this_call`. A `read` stores at most `count` of the bytes offered. -/
def read_more (p : Proto) (fuel : Nat) : List ReadRes → ev_tcp → Int → List WriteRes → Option Result
  | [], io, total, ws =>
    let count := size_t (p.MAX_AUDIT_MESSAGE_LENGTH - io.bufptr)
    let ev := Ev.read io.fd io.bufptr count 0
    if total > 0 then some { io := io, closed := false, evs := [ev], reads := [], ws := ws }
    else some (close_path p io [ev] [] ws)
  | ReadRes.err e :: rest, io, total, ws =>
    let count := size_t (p.MAX_AUDIT_MESSAGE_LENGTH - io.bufptr)
    let ev := Ev.read io.fd io.bufptr count 0
    let r : Int := if e = Errno.EAGAIN then 0 else -1
    if r = 0 ∧ total > 0 then
      some { io := io, closed := false, evs := [ev], reads := rest, ws := ws }
    else if r < 0 then some (close_path p io [ev, Ev.audit_msg io.addr io.port] rest ws)
    else some (close_path p io [ev] rest ws)
  | ReadRes.data bytes :: rest, io, total, ws =>
    let count := size_t (p.MAX_AUDIT_MESSAGE_LENGTH - io.bufptr)
    let got := bytes.take count
    let r : Int := got.length
    let ev := Ev.read io.fd io.bufptr count got.length
    let io1 : ev_tcp := { io with buffer := bwrite io.buffer io.bufptr.toNat got }
    if r = 0 ∧ total > 0 then
      some { io := io1, closed := false, evs := [ev], reads := rest, ws := ws }
    else if r ≤ 0 then some (close_path p io1 [ev] rest ws)
    else
      match more_messages p fuel io1 r ws with
      | none => none
      | some t =>
        if t.again then
          match read_more p fuel rest t.io (total + r) t.ws with
          | none => none
          | some res => some { res with evs := ev :: t.evs ++ res.evs }
        else some { io := t.io, closed := false, evs := ev :: t.evs, reads := rest, ws := t.ws }

/-- One callback on the connection record: `client_active = 1`, then the
`read_more` loop with `total_this_call = 0`. -/
def client_handler (p : Proto) (fuel : Nat) (io : ev_tcp) (reads : List ReadRes)
    (ws : List WriteRes) : Option Result :=
  read_more p fuel reads { io with client_active := 1 } 0 ws

/-- The function `auditd_tcp_client_handler` on the global state, for the
connection at address `a`: the callback on its record, followed on the close
path by `ev_io_stop` and `close_client`. -/
def auditd_tcp_client_handler (p : Proto) (fuel : Nat) (w : World) (a : Nat)
    (reads : List ReadRes) (ws : List WriteRes) :
    Option (World × List Ev × List ReadRes × List WriteRes) :=
  match w.heap a with
  | none => none
  | some io =>
    match client_handler p fuel io reads ws with
    | none => none
    | some res =>
      let w1 : World := { w with heap := hset w.heap a (some res.io) }
      if res.closed then
        let c := close_client w1 a
        some (c.1, res.evs ++ [Ev.ev_io_stop res.io.fd] ++ c.2, res.reads, res.ws)
      else some (w1, res.evs, res.reads, res.ws)

/-- Successive callbacks on one connection: the event loop invokes the handler
as long as the read script has entries left and the connection is open; at
most `n` callbacks. The events of the callbacks are concatenated. -/
def callbacks (p : Proto) (fuel : Nat) : Nat → ev_tcp → List ReadRes → List WriteRes → Option Result
  | 0, _, _, _ => none
  | n + 1, io, reads, ws =>
    if reads.isEmpty then some { io := io, closed := false, evs := [], reads := [], ws := ws }
    else
      match client_handler p fuel io reads ws with
      | none => none
      | some res =>
        if res.closed then some res
        else
          match callbacks p fuel n res.io res.reads res.ws with
          | none => none
          | some t => some { t with evs := res.evs ++ t.evs }

/-- The record set up by `auditd_tcp_listen_handler` for an accepted socket
(lines 336 to 343): zeroed by `memset`, `client_active = 1`, the descriptor
and the peer address filled in. -/
def new_client (fd : Int) (addr port : Nat) : ev_tcp :=
  { fd := fd, addr := addr, port := port, next := none, prev := none,
    bufptr := 0, client_active := 1, buffer := fun _ => 0 }

/-- The deliveries to the downstream consumer in a trace, in order: payload,
socket and sequence number of each `enqueue_formatted_event` call. -/
def deliveries : List Ev → List (List Nat × Int × Nat)
  | [] => []
  | Ev.enqueue m s q :: es => (m, s, q) :: deliveries es
  | _ :: es => deliveries es

/-- The `write` calls in a trace, in order. -/
def writes : List Ev → List Ev
  | [] => []
  | Ev.write s b :: es => Ev.write s b :: writes es
  | _ :: es => writes es

/-! ## Notions used by the statements -/

/-- Size conditions on the wire-format parameters: the header is not empty and
holds the magic marker, and the buffer size fits in an `int`. -/
def Sane (p : Proto) : Prop :=
  0 < p.AUDIT_RMW_HEADER_SIZE ∧ p.AUDIT_RMW_MAGIC.length ≤ p.AUDIT_RMW_HEADER_SIZE
    ∧ p.MAX_AUDIT_MESSAGE_LENGTH + 17 < 2 ^ 31

/-- The length field of a header is narrow enough for `len + header size` to
fit in an `int` (line 215 and 216). -/
def LenFits (p : Proto) : Prop :=
  ∀ h : List Nat, (p.AUDIT_RMW_UNPACK_HEADER h).len % 2 ^ 32 + p.AUDIT_RMW_HEADER_SIZE < 2 ^ 31

/-- A binary envelope on the wire: header bytes and payload bytes. -/
structure Envelope where
  hdr : List Nat
  payload : List Nat
  deriving DecidableEq, Repr

/-- The bytes of an envelope in stream order. -/
def Envelope.bytes (e : Envelope) : List Nat := e.hdr ++ e.payload

/-- Message type the decoder reads from the envelope's header. -/
def Envelope.type (p : Proto) (e : Envelope) : Nat :=
  (p.AUDIT_RMW_UNPACK_HEADER e.hdr).type % 2 ^ 32

/-- Sequence number the decoder reads from the envelope's header. -/
def Envelope.seq (p : Proto) (e : Envelope) : Nat :=
  (p.AUDIT_RMW_UNPACK_HEADER e.hdr).seq % 2 ^ 32

/-- A complete envelope: a header of the fixed size that starts with the magic
marker and declares the length of the payload that follows. -/
def Envelope.Complete (p : Proto) (e : Envelope) : Prop :=
  e.hdr.length = p.AUDIT_RMW_HEADER_SIZE
    ∧ e.hdr.take p.AUDIT_RMW_MAGIC.length = p.AUDIT_RMW_MAGIC
    ∧ (p.AUDIT_RMW_UNPACK_HEADER e.hdr).len % 2 ^ 32 = e.payload.length

/-- A payload that is delivered whole as a C string: no NUL byte and no
line-feed as last byte. -/
def Envelope.Text (e : Envelope) : Prop :=
  0 ∉ e.payload ∧ e.payload.getLast? ≠ some 10

/-- The byte stream of envelopes sent back-to-back. -/
def stream : List Envelope → List Nat
  | [] => []
  | e :: es => e.bytes ++ stream es

/-- The bytes of successive read chunks, in stream order. -/
def joined : List (List Nat) → List Nat
  | [] => []
  | c :: cs => c ++ joined cs

/-- Bounds kept by every buffer access of the handler: a `read` is requested at
an offset `0 ≤ off` for `MAX_AUDIT_MESSAGE_LENGTH - off` bytes and stores no
more than requested; a store by `client_message` and the destination of a
`memmove` stay at or below index `MAX_AUDIT_MESSAGE_LENGTH`. -/
def EvOK (p : Proto) : Ev → Prop
  | Ev.read _ off count got =>
    0 ≤ off ∧ (count : Int) = p.MAX_AUDIT_MESSAGE_LENGTH - off ∧ got ≤ count
  | Ev.store idx => idx ≤ p.MAX_AUDIT_MESSAGE_LENGTH
  | Ev.memmove _ n => 0 ≤ n ∧ n ≤ p.MAX_AUDIT_MESSAGE_LENGTH
  | _ => True

/-- Every byte the event writes into the buffer has an index below the
capacity. A `read` writes `[off, off + got)`, a store writes `idx`, a
`memmove` writes `[0, n)`. -/
def WritesBelowCap (p : Proto) : Ev → Prop
  | Ev.read _ off _ got => got = 0 ∨ (0 ≤ off ∧ off + got ≤ cap p)
  | Ev.store idx => idx < cap p
  | Ev.memmove _ n => 0 ≤ n ∧ n ≤ cap p
  | _ => True

/-- Connection records reachable from a freshly accepted connection by
callbacks that returned without closing it, whatever the scripts. -/
inductive Reachable (p : Proto) (fuel : Nat) : ev_tcp → Prop
  | fresh (fd : Int) (addr port : Nat) : Reachable p fuel (new_client fd addr port)
  | step (io : ev_tcp) (reads : List ReadRes) (ws : List WriteRes) (res : Result) :
      Reachable p fuel io → client_handler p fuel io reads ws = some res →
      res.closed = false → Reachable p fuel res.io

/-! ## Sample inputs -/

/-- A message envelope of the instance `rmw`: sequence 3, payload `hello`. -/
def env_a : Envelope :=
  { hdr := rmw.AUDIT_RMW_PACK_HEADER 0 0 5 3, payload := [104, 101, 108, 108, 111] }

/-- A message envelope of the instance `rmw`: sequence 4, payload `x`. -/
def env_b : Envelope :=
  { hdr := rmw.AUDIT_RMW_PACK_HEADER 0 0 1 4, payload := [120] }

/-- A heartbeat envelope of the instance `rmw` with sequence 7. -/
def env_hb : Envelope :=
  { hdr := rmw.AUDIT_RMW_PACK_HEADER 0 1 0 7, payload := [] }

/-- A header of the instance `rmw` (message type, sequence 1) that declares a
payload of 65535 bytes. -/
def hdr_big : List Nat := rmw.AUDIT_RMW_PACK_HEADER 0 0 65535 1

/-- A connection on socket 5 with the given bytes buffered. -/
def conn_with (bytes : List Nat) : ev_tcp :=
  { new_client 5 1 2 with bufptr := bytes.length, buffer := bwrite (fun _ => 0) 0 bytes }

/-- A registry whose only connection, at address 7, has the given bytes
buffered. -/
def world_with (bytes : List Nat) : World :=
  { client_chain := some 7, heap := fun k => if k = 7 then some (conn_with bytes) else none }

/-- A fresh connection on socket 5 into whose buffer a read has stored the
heartbeat `env_hb`, before `bufptr` is advanced. -/
def conn_hb : ev_tcp :=
  { new_client 5 1 2 with buffer := bwrite (fun _ => 0) 0 env_hb.bytes }

/-! ## The acceptor, the idle monitor and the listener lifecycle -/

/-- Messages logged by `audit_msg` and `fprintf (stderr, ...)` outside the
client handler. The idle report carries the address of the record it is
about, next to the peer address it prints. -/
inductive Log
  | unable_to_accept
  | rejected (addr port : Nat)
  | alloc_failed
  | cannot_create
  | cannot_bind (port : Int)
  | listening (port : Int)
  | idle (client addr port : Nat)
  deriving DecidableEq, Repr

/-- The socket options the listener sets. -/
inductive SockOpt
  | SO_REUSEADDR
  | SO_KEEPALIVE
  | TCP_NODELAY
  deriving DecidableEq, Repr

/-- Observable actions of the acceptor, the idle monitor and the listener
lifecycle, in program order; `conn` embeds the actions shared with the client
handler (`close`, `ev_io_stop` and those of `close_client`). -/
inductive LEv
  | conn (e : Ev)
  | log (m : Log)
  /-- The call `send_audit_event (AUDIT_DAEMON_ACCEPT, ...)` with `res=success`
  (`true`) or `res=no` (`false`). -/
  | send_audit_event_accept (addr port : Nat) (res : Bool)
  | accept (ret : Int)
  | socket (ret : Int)
  | setsockopt (fd : Int) (opt : SockOpt)
  | fcntl_nonblock (fd : Int)
  | set_close_on_exec (fd : Int)
  | bind (fd : Int) (port : Int) (ret : Int)
  | listen (fd : Int) (backlog : Int)
  | ev_io_start (fd : Int)
  | ev_io_stop_listen (fd : Option Int)
  | malloc (ret : Option Nat)
  deriving DecidableEq, Repr

/-- The static variables `listen_socket`, `min_port`, `max_port` and the
descriptor watched by `tcp_listen_watcher` once it is started. -/
structure Listener where
  listen_socket : Int
  min_port : Int
  max_port : Int
  watcher : Option Int
  deriving DecidableEq, Repr

/-- The fields of `struct daemon_conf` the listener reads (printed with `%ld`
at lines 384 and 393). -/
structure daemon_conf where
  tcp_listen_port : Int
  tcp_listen_queue : Int
  tcp_client_min_port : Int
  tcp_client_max_port : Int
  deriving DecidableEq, Repr

/-- What the system answers during `auditd_tcp_listen_init`: the value of
`socket ()` and the value of `bind ()`. -/
structure InitEnv where
  socket_ret : Int
  bind_ret : Int
  deriving DecidableEq, Repr

/-- The function `auditd_tcp_listen_init`: return value, statics and actions.
The port given to `bind` is the 16-bit argument of `htons` (line 377), the
backlog of `listen` is an `int` (line 391), and so are the statics `min_port`
and `max_port` (lines 399 and 400). -/
def auditd_tcp_listen_init (ls : Listener) (config : daemon_conf) (env : InitEnv) :
    Int × Listener × List LEv :=
  if config.tcp_listen_port = 0 then (0, ls, [])
  else
    let ls1 : Listener := { ls with listen_socket := env.socket_ret }
    if ls1.listen_socket = 0 then
      (1, ls1, [LEv.socket env.socket_ret, LEv.log Log.cannot_create])
    else
      let pre := [LEv.socket env.socket_ret, LEv.set_close_on_exec ls1.listen_socket,
        LEv.setsockopt ls1.listen_socket SockOpt.SO_REUSEADDR,
        LEv.setsockopt ls1.listen_socket SockOpt.SO_REUSEADDR,
        LEv.bind ls1.listen_socket (config.tcp_listen_port % 2 ^ 16) env.bind_ret]
      if env.bind_ret ≠ 0 then
        (1, ls1, pre ++ [LEv.log (Log.cannot_bind config.tcp_listen_port),
          LEv.conn (Ev.close ls1.listen_socket)])
      else
        (0, { ls1 with watcher := some ls1.listen_socket,
                       min_port := int32 (uint32 config.tcp_client_min_port),
                       max_port := int32 (uint32 config.tcp_client_max_port) },
          pre ++ [LEv.listen ls1.listen_socket (int32 (uint32 config.tcp_listen_queue)),
            LEv.log (Log.listening config.tcp_listen_port), LEv.ev_io_start ls1.listen_socket])

/-- What the system answers during one `auditd_tcp_listen_handler` call: the
value of `accept ()` with the peer address and source port (host byte order)
it fills in, the value of `auditd_tcpd_check` (non-zero denies; the macro of
line 260 gives 0), and the pointer returned by `malloc`. -/
structure AcceptEnv where
  afd : Int
  addr : Nat
  port : Nat
  tcpd_check : Int
  malloc : Option Nat
  deriving DecidableEq, Repr

/-- The function `auditd_tcp_listen_handler`. -/
def auditd_tcp_listen_handler (ls : Listener) (w : World) (env : AcceptEnv) : World × List LEv :=
  if env.afd = -1 then (w, [LEv.accept env.afd, LEv.log Log.unable_to_accept])
  else if env.tcpd_check ≠ 0 then
    (w, [LEv.accept env.afd, LEv.conn (Ev.close env.afd), LEv.log (Log.rejected env.addr env.port),
      LEv.send_audit_event_accept env.addr env.port false])
  else if ls.min_port > env.port ∨ (env.port : Int) > ls.max_port then
    (w, [LEv.accept env.afd, LEv.log (Log.rejected env.addr env.port),
      LEv.send_audit_event_accept env.addr env.port false, LEv.conn (Ev.close env.afd)])
  else
    let setup := [LEv.accept env.afd, LEv.setsockopt env.afd SockOpt.SO_REUSEADDR,
      LEv.setsockopt env.afd SockOpt.SO_KEEPALIVE, LEv.setsockopt env.afd SockOpt.TCP_NODELAY,
      LEv.fcntl_nonblock env.afd, LEv.set_close_on_exec env.afd, LEv.malloc env.malloc]
    match env.malloc with
    | none =>
      (w, setup ++ [LEv.log Log.alloc_failed,
        LEv.send_audit_event_accept env.addr env.port false, LEv.conn (Ev.close env.afd)])
    | some client =>
      let c : ev_tcp := { new_client env.afd env.addr env.port with next := w.client_chain }
      let heap1 := hset w.heap client (some c)
      let heap2 := match c.next with
        | some n => (match heap1 n with
          | some cn => hset heap1 n (some { cn with prev := some client })
          | none => heap1)
        | none => heap1
      ({ client_chain := some client, heap := heap2 },
        setup ++ [LEv.ev_io_start env.afd, LEv.send_audit_event_accept env.addr env.port true])

/-- The loop `while (client_chain) close_client (client_chain);`, one unit of
fuel per iteration; `none` when it runs out. -/
def close_all : Nat → World → Option (World × List Ev)
  | 0, w => if w.client_chain.isNone then some (w, []) else none
  | fuel + 1, w =>
    match w.client_chain with
    | none => some (w, [])
    | some c =>
      let r := close_client w c
      match close_all fuel r.1 with
      | none => none
      | some t => some (t.1, r.2 ++ t.2)

/-- The function `auditd_tcp_listen_uninit`. -/
def auditd_tcp_listen_uninit (ls : Listener) (fuel : Nat) (w : World) : Option (World × List LEv) :=
  match close_all fuel w with
  | none => none
  | some t =>
    some (t.1, [LEv.ev_io_stop_listen ls.watcher, LEv.conn (Ev.close ls.listen_socket)]
      ++ t.2.map LEv.conn)

/-- The loop of `auditd_tcp_listen_check_idle` from the record `ev` on, one
unit of fuel per record visited. -/
def check_idle_loop : Nat → (Nat → Option ev_tcp) → Option Nat → Option ((Nat → Option ev_tcp) × List LEv)
  | _, heap, none => some (heap, [])
  | 0, _, some _ => none
  | fuel + 1, heap, some a =>
    match heap a with
    | none => none
    | some c =>
      let active := c.client_active
      let heap1 := hset heap a (some { c with client_active := 0 })
      match check_idle_loop fuel heap1 c.next with
      | none => none
      | some t =>
        if active ≠ 0 then some t
        else some (t.1, LEv.log (Log.idle a c.addr c.port) :: t.2)

/-- The function `auditd_tcp_listen_check_idle`. -/
def auditd_tcp_listen_check_idle (fuel : Nat) (w : World) : Option (World × List LEv) :=
  match check_idle_loop fuel w.heap w.client_chain with
  | none => none
  | some t => some ({ w with heap := t.1 }, t.2)

/-- Lines 241 to 246: dispatch of the `i`-byte message at the start of the
buffer, then compaction. -/
def consume (p : Proto) (io : ev_tcp) (i : Int) (ws : List WriteRes) :
    ev_tcp × List Ev × List WriteRes :=
  let m := client_message p io (uint32 i) ws
  ({ m.1 with buffer := memmove m.1.buffer i.toNat (size_t io.bufptr), bufptr := io.bufptr - i },
    m.2.1 ++ [Ev.memmove i io.bufptr], m.2.2)

/-! ## The registry as a list -/

/-- The chain of the registry is the list `l` of record addresses, head
first: no address occurs twice, `client_chain` is the first one, and the
record at position `i` links to its neighbours in `l` (no predecessor at the
head, no successor at the end). -/
def WF (w : World) (l : List Nat) : Prop :=
  l.Nodup ∧ w.client_chain = l.head? ∧
    ∀ (i a : Nat), l[i]? = some a →
      ∃ c, w.heap a = some c ∧ c.next = l[i + 1]? ∧ c.prev = (if i = 0 then none else l[i - 1]?)

/-- A forward traversal `for (ev = start; ev; ev = ev->next)`: the addresses
visited, at most `fuel` of them. -/
def traverse (heap : Nat → Option ev_tcp) : Nat → Option Nat → List Nat
  | 0, _ => []
  | _ + 1, none => []
  | fuel + 1, some a =>
    match heap a with
    | none => [a]
    | some c => a :: traverse heap fuel c.next

/-- The value of `client_active` of the record at `a` (0 when there is none). -/
def flag (w : World) (a : Nat) : Int :=
  match w.heap a with
  | some c => c.client_active
  | none => 0

/-- The idle reports of a scan for the records of `l` that are inactive in `w`. -/
def idle_reports (w : World) : List Nat → List LEv
  | [] => []
  | a :: l =>
    match w.heap a with
    | some c =>
      if c.client_active ≠ 0 then idle_reports w l
      else LEv.log (Log.idle a c.addr c.port) :: idle_reports w l
    | none => idle_reports w l

/-- What happens between two idle scans: callbacks of the client handler on
registered connections, and calls of the acceptor. -/
inductive Op
  | callback (a : Nat) (reads : List ReadRes) (ws : List WriteRes)
  | accept (env : AcceptEnv)

/-- The number of bytes the `read` calls of a trace stored. -/
def bytes_read : List Ev → Nat
  | [] => 0
  | Ev.read _ _ _ got :: es => got + bytes_read es
  | _ :: es => bytes_read es

/-- A run of operations on the global state. For every callback the run
records the connection, whether the callback closed it, and its trace. The
run has no result when a callback has none, or when `malloc` is scripted to
return an address that is still allocated. -/
def run (p : Proto) (fuel : Nat) (ls : Listener) :
    World → List Op → Option (World × List (Nat × Bool × List Ev))
  | w, [] => some (w, [])
  | w, Op.callback a reads ws :: ops =>
    match auditd_tcp_client_handler p fuel w a reads ws with
    | none => none
    | some r =>
      match run p fuel ls r.1 ops with
      | none => none
      | some t => some (t.1, (a, (r.1.heap a).isNone, r.2.1) :: t.2)
  | w, Op.accept env :: ops =>
    match env.malloc with
    | some a => if (w.heap a).isSome then none
                else run p fuel ls (auditd_tcp_listen_handler ls w env).1 ops
    | none => run p fuel ls (auditd_tcp_listen_handler ls w env).1 ops

/-- The bytes received on connection `a` during a run. -/
def received (a : Nat) : List (Nat × Bool × List Ev) → Nat
  | [] => 0
  | (b, _, evs) :: t => (if b = a then bytes_read evs else 0) + received a t

/-! ## Partial writes -/

/-- Every scripted `write` result consumed while `remaining` bytes are left
is a positive count no larger than what is left. -/
def GoodWrites : List WriteRes → Nat → Prop
  | [], _ => True
  | _ :: _, 0 => True
  | WriteRes.ok n :: ws, remaining + 1 =>
    0 < n ∧ n ≤ remaining + 1 ∧ GoodWrites ws (remaining + 1 - n)
  | WriteRes.err _ :: _, _ + 1 => False

/-- The `write` calls that send the consecutive parts `parts` of a buffer: each
call is offered its own part followed by everything after it. -/
def slices (sock : Int) : List (List Nat) → List Ev
  | [] => []
  | part :: rest => Ev.write sock (part ++ joined rest) :: slices sock rest

/-! ## Further notions and sample inputs -/

/-- The accept audit records of a trace: peer address, port and result. -/
def accept_records : List LEv → List (Nat × Nat × Bool)
  | [] => []
  | LEv.send_audit_event_accept a q r :: es => (a, q, r) :: accept_records es
  | _ :: es => accept_records es

/-- The descriptors closed in a trace, in order. -/
def closes : List LEv → List Int
  | [] => []
  | LEv.conn (Ev.close fd) :: es => fd :: closes es
  | _ :: es => closes es

/-- A message envelope of the instance `rmw` with a payload of 4500 bytes `A`. -/
def env_long : Envelope :=
  { hdr := rmw.AUDIT_RMW_PACK_HEADER 0 0 4500 1, payload := List.replicate 4500 65 }

/-- The first 18 bytes of an envelope of the instance `rmw` that declares a
payload of 5 bytes: the header (message type, sequence 1) and the payload
bytes `AB`. -/
def truncated_envelope : List Nat := rmw.AUDIT_RMW_PACK_HEADER 0 0 5 1 ++ [65, 66]

/-- The bytes accepted by the successful `write` results of a script. -/
def accepted_count : List WriteRes → Nat
  | [] => 0
  | WriteRes.ok n :: ws => n + accepted_count ws
  | WriteRes.err _ :: ws => accepted_count ws

/-- Every result of the script is an interrupted call or a positive count. -/
def Progress : List WriteRes → Prop
  | [] => True
  | WriteRes.ok n :: ws => 0 < n ∧ Progress ws
  | WriteRes.err e :: ws => e = Errno.EINTR ∧ Progress ws

/-- Two states of one connection record: everything but the buffer and
`bufptr` agrees. -/
def same_record (a b : ev_tcp) : Prop :=
  a.fd = b.fd ∧ a.addr = b.addr ∧ a.port = b.port ∧ a.next = b.next ∧ a.prev = b.prev
    ∧ a.client_active = b.client_active

/-- The peer address and port of the record at `a` (zero when there is none). -/
def peer (w : World) (a : Nat) : Nat × Nat :=
  match w.heap a with
  | some c => (c.addr, c.port)
  | none => (0, 0)

/-- The descriptor of the record at `a` (`-1` when there is none). -/
def sock (w : World) (a : Nat) : Int :=
  match w.heap a with
  | some c => c.fd
  | none => -1

/-- The actions of `close_client` on the records of `l` in turn, with the
peers and descriptors they have in `w`. -/
def close_events (w : World) : List Nat → List Ev
  | [] => []
  | a :: l =>
    Ev.send_audit_event_close (peer w a).1 (peer w a).2 :: Ev.close (sock w a) :: Ev.free a
      :: close_events w l

/-- The close audit records of a trace: peer address and port of each. -/
def close_records : List LEv → List (Nat × Nat)
  | [] => []
  | LEv.conn (Ev.send_audit_event_close a q) :: es => (a, q) :: close_records es
  | _ :: es => close_records es

/-- The records freed in a trace, in order. -/
def frees : List LEv → List Nat
  | [] => []
  | LEv.conn (Ev.free a) :: es => a :: frees es
  | _ :: es => frees es

/-- A listener on descriptor 3 that admits the source ports 1 to 1023. -/
def listener3 : Listener := { listen_socket := 3, min_port := 1, max_port := 1023, watcher := some 3 }

/-- An accepted connection on descriptor `fd` from port 1000 of peer 1, for
which `malloc` returns `a`. -/
def accept_at (fd : Int) (a : Nat) : AcceptEnv :=
  { afd := fd, addr := 1, port := 1000, tcpd_check := 0, malloc := some a }

/-- The registry without connections. -/
def registry0 : World := { client_chain := none, heap := fun _ => none }

/-- The registry after three accepted connections, at the addresses 7, 8 and
9 in the order of their arrival. -/
def registry3 : World :=
  (auditd_tcp_listen_handler listener3
    (auditd_tcp_listen_handler listener3
      (auditd_tcp_listen_handler listener3 registry0 (accept_at 10 7)).1 (accept_at 11 8)).1
    (accept_at 12 9)).1

/-! ## The reads of one invocation -/

theorem int32_of_lt (n : Nat) (h : n < 2 ^ 31) : int32 n = (n : Int) := by
  unfold int32
  have h1 : n % 2 ^ 32 = n := Nat.mod_eq_of_lt (by omega)
  rw [h1, if_pos h]

theorem uint32_of_nonneg (i : Int) (h0 : 0 ≤ i) (h1 : i < 2 ^ 32) : uint32 i = i.toNat := by
  unfold uint32
  rw [Int.emod_eq_of_lt h0 h1]

theorem size_t_of_nonneg (i : Int) (h0 : 0 ≤ i) (h1 : i < 2 ^ 64) : size_t i = i.toNat := by
  unfold size_t
  rw [Int.emod_eq_of_lt h0 h1]

/-! ## Buffer memory -/

theorem bytes_at_eq_iff (buf : Nat → Nat) (off : Nat) (l : List Nat) :
    bytes_at buf off l.length = l ↔ ∀ k, k < l.length → buf (off + k) = l.getD k 0 := by
  constructor
  · intro h k hk
    have h2 : (bytes_at buf off l.length).getD k 0 = l.getD k 0 := by rw [h]
    rw [← h2]
    simp [bytes_at, List.getD_eq_getElem?_getD, hk]
  · intro h
    apply List.ext_getElem
    · simp [bytes_at]
    · intro k h1 h2
      simp only [bytes_at, List.getElem_map, List.getElem_range]
      rw [h k h2]
      simp [List.getD_eq_getElem?_getD, h2]

theorem scan_lf_bounds (buf : Nat → Nat) (n : Nat) :
    ∀ i, i ≤ scan_lf buf i n ∧ scan_lf buf i n ≤ i + n := by
  induction n with
  | zero => intro i; simp [scan_lf]
  | succ n ih =>
    intro i
    unfold scan_lf
    split
    · omega
    · have := ih (i + 1)
      omega

theorem map_range'_eq_bytes_at (buf : Nat → Nat) (off n : Nat) :
    (List.range' off n).map buf = bytes_at buf off n := by
  unfold bytes_at
  rw [List.range'_eq_map_range, List.map_map]
  rfl

theorem cstr_eq (p : Proto) (buf : Nat → Nat) (off : Nat) (l : List Nat)
    (hlen : off + l.length < cap p) (hb : bytes_at buf off l.length = l)
    (h0 : 0 ∉ l) (hz : buf (off + l.length) = 0) : cstr p buf off = l := by
  unfold cstr
  obtain ⟨m, hm⟩ : ∃ m, cap p - off = (m + 1) + l.length := ⟨cap p - off - l.length - 1, by omega⟩
  rw [hm, ← List.range'_append, List.map_append, map_range'_eq_bytes_at, hb]
  rw [List.takeWhile_append_of_pos]
  · simp [List.range'_succ, hz]
  · intro a ha
    have : a ≠ 0 := fun h => h0 (h ▸ ha)
    simpa using this

/-! ## Traces -/

theorem deliveries_append (a b : List Ev) : deliveries (a ++ b) = deliveries a ++ deliveries b := by
  induction a with
  | nil => rfl
  | cons e a ih => cases e <;> simp [deliveries, ih]

theorem writes_append (a b : List Ev) : writes (a ++ b) = writes a ++ writes b := by
  induction a with
  | nil => rfl
  | cons e a ih => cases e <;> simp [writes, ih]

theorem ar_write_loop_events (ws : List WriteRes) :
    ∀ (sock : Int) (buf : List Nat) (len rc : Int),
      ∀ e ∈ (ar_write_loop ws sock buf len rc).2.1, ∃ b, e = Ev.write sock b := by
  induction ws with
  | nil =>
    intro sock buf len rc e he
    unfold ar_write_loop at he
    split at he
    · simp at he; exact ⟨_, he⟩
    · simp at he
  | cons w ws ih =>
    intro sock buf len rc e he
    unfold ar_write_loop at he
    split at he
    · split at he
      · simp only [List.mem_cons] at he
        rcases he with he | he
        · exact ⟨_, he⟩
        · exact ih _ _ _ _ e he
      · simp at he; exact ⟨_, he⟩
      · split at he
        · simp at he; exact ⟨_, he⟩
        · simp only [List.mem_cons] at he
          rcases he with he | he
          · exact ⟨_, he⟩
          · exact ih _ _ _ _ e he
    · simp at he

theorem deliveries_of_writes (l : List Ev) (sock : Int) (h : ∀ e ∈ l, ∃ b, e = Ev.write sock b) :
    deliveries l = [] := by
  induction l with
  | nil => rfl
  | cons e l ih =>
    obtain ⟨b, hb⟩ := h e (List.mem_cons_self _ _)
    subst hb
    simp only [deliveries]
    exact ih (fun e he => h e (List.mem_cons_of_mem _ he))

theorem writes_of_writes (l : List Ev) (sock : Int) (h : ∀ e ∈ l, ∃ b, e = Ev.write sock b) :
    writes l = l := by
  induction l with
  | nil => rfl
  | cons e l ih =>
    obtain ⟨b, hb⟩ := h e (List.mem_cons_self _ _)
    subst hb
    simp only [writes]
    rw [ih (fun e he => h e (List.mem_cons_of_mem _ he))]

theorem ar_write_head (ws : List WriteRes) (sock : Int) (buf : List Nat) (len rc : Int)
    (h : 0 < len) :
    (ar_write_loop ws sock buf len rc).2.1.head? = some (Ev.write sock (buf.take len.toNat)) := by
  cases ws with
  | nil => unfold ar_write_loop; simp [h]
  | cons w ws =>
    unfold ar_write_loop
    rw [if_pos h]
    split
    · rfl
    · rfl
    · split <;> rfl

/-! ## Invariants of the handler -/

theorem client_message_fields (p : Proto) (io : ev_tcp) (length : Nat) (ws : List WriteRes) :
    (client_message p io length ws).1.bufptr = io.bufptr
      ∧ (client_message p io length ws).1.fd = io.fd
      ∧ (client_message p io length ws).1.addr = io.addr
      ∧ (client_message p io length ws).1.port = io.port
      ∧ (client_message p io length ws).1.next = io.next
      ∧ (client_message p io length ws).1.prev = io.prev := by
  unfold client_message
  simp only []
  split
  · split <;> simp
  · simp

theorem evok_of_write (p : Proto) (l : List Ev) (sock : Int)
    (h : ∀ e ∈ l, ∃ b, e = Ev.write sock b) : ∀ e ∈ l, EvOK p e := by
  intro e he
  obtain ⟨b, hb⟩ := h e he
  subst hb
  trivial

theorem client_message_evok (p : Proto) (io : ev_tcp) (length : Nat) (ws : List WriteRes)
    (hl : length ≤ p.MAX_AUDIT_MESSAGE_LENGTH) :
    ∀ e ∈ (client_message p io length ws).2.1, EvOK p e := by
  have hs : ∀ (c : Bool), ∀ e ∈ (if c = true then [Ev.store length, Ev.store (length - 1)]
      else [Ev.store length]), EvOK p e := by
    intro c e he
    cases c <;> simp at he
    · subst he; exact hl
    · rcases he with he | he <;> subst he
      · exact hl
      · show length - 1 ≤ p.MAX_AUDIT_MESSAGE_LENGTH
        omega
  intro e he
  unfold client_message at he
  simp only [] at he
  split at he
  · split at he
    · simp only [List.mem_append, List.mem_singleton] at he
      rcases he with (he | he) | he
      · exact hs _ e he
      · exact evok_of_write p _ io.fd (ar_write_loop_events _ _ _ _ _) e he
      · subst he; exact hl
    · simp only [List.mem_append, List.mem_cons, List.mem_singleton, List.not_mem_nil,
        or_false] at he
      rcases he with he | he | he
      · exact hs _ e he
      · subst he; trivial
      · subst he; exact hl
  · simp only [List.mem_append, List.mem_singleton] at he
    rcases he with he | he
    · exact hs _ e he
    · subst he; trivial

theorem boundary_bounds (p : Proto) (hs : Sane p) (hf : LenFits p) (io : ev_tcp) (r i : Int)
    (h0 : 0 ≤ io.bufptr) (hr : 0 < r) (hb : boundary p io r = some i) :
    1 ≤ i ∧ i ≤ io.bufptr + r := by
  unfold boundary at hb
  split at hb
  · split at hb
    · simp at hb
    · simp only [] at hb
      split at hb
      · simp at hb
      · rename_i h1 h2
        simp only [Option.some.injEq] at hb
        rw [int32_of_lt _ (hf _)] at hb h2
        have := hs.1
        constructor
        · rw [← hb]; push_cast; omega
        · rw [← hb]; omega
  · simp only [] at hb
    split at hb
    · simp at hb
    · rename_i h1 h2
      simp only [Option.some.injEq] at hb
      have hb2 := scan_lf_bounds io.buffer r.toNat io.bufptr.toNat
      omega

theorem more_messages_inv (p : Proto) (hs : Sane p) (hf : LenFits p) :
    ∀ (fuel : Nat) (io : ev_tcp) (r : Int) (ws : List WriteRes),
      0 ≤ io.bufptr → 0 < r → io.bufptr + r ≤ p.MAX_AUDIT_MESSAGE_LENGTH →
      io.bufptr + r ≤ fuel →
      ∃ t, more_messages p fuel io r ws = some t
        ∧ 0 ≤ t.io.bufptr ∧ t.io.bufptr ≤ p.MAX_AUDIT_MESSAGE_LENGTH
        ∧ (t.again = true → t.io.bufptr = 0)
        ∧ (∀ e ∈ t.evs, EvOK p e)
        ∧ t.io.fd = io.fd ∧ t.io.addr = io.addr ∧ t.io.port = io.port := by
  intro fuel
  induction fuel with
  | zero => intro io r ws h0 hr _ hfu; exfalso; push_cast at hfu; omega
  | succ fuel ih =>
    intro io r ws h0 hr hmax hfu
    unfold more_messages
    simp only []
    cases hb : boundary p io r with
    | none => simp; omega
    | some i =>
      simp only []
      obtain ⟨hi1, hi2⟩ := boundary_bounds p hs hf io r i h0 hr hb
      have hu : uint32 i = i.toNat := uint32_of_nonneg i (by omega) (by have := hs.2.2; omega)
      have hfld := client_message_fields p { io with bufptr := io.bufptr + r } (uint32 i) ws
      have hev := client_message_evok p { io with bufptr := io.bufptr + r } (uint32 i) ws
        (by rw [hu]; omega)
      simp only [] at hfld
      split
      · rename_i hpos
        obtain ⟨t, ht, ht0, htm, hta, hte, htf, hta2, htp⟩ := ih
          { fd := (client_message p { io with bufptr := io.bufptr + r } (uint32 i) ws).1.fd,
            addr := (client_message p { io with bufptr := io.bufptr + r } (uint32 i) ws).1.addr,
            port := (client_message p { io with bufptr := io.bufptr + r } (uint32 i) ws).1.port,
            next := (client_message p { io with bufptr := io.bufptr + r } (uint32 i) ws).1.next,
            prev := (client_message p { io with bufptr := io.bufptr + r } (uint32 i) ws).1.prev,
            bufptr := 0,
            client_active :=
              (client_message p { io with bufptr := io.bufptr + r } (uint32 i) ws).1.client_active,
            buffer := memmove
              (client_message p { io with bufptr := io.bufptr + r } (uint32 i) ws).1.buffer
              i.toNat (size_t (io.bufptr + r)) }
          (io.bufptr + r - i)
          (client_message p { io with bufptr := io.bufptr + r } (uint32 i) ws).2.2
          (le_refl _) (by simpa using hpos) (by simp only []; omega)
          (by simp only []; push_cast at hfu; omega)
        rw [ht]
        refine ⟨_, rfl, ht0, htm, hta, ?_, ?_, ?_, ?_⟩
        · intro e he
          simp only [List.mem_append, List.mem_singleton] at he
          rcases he with (he | he) | he
          · exact hev e he
          · subst he
            exact ⟨by omega, by omega⟩
          · exact hte e he
        · simp only [] at htf ⊢; rw [htf]; exact hfld.2.1
        · simp only [] at hta2 ⊢; rw [hta2]; exact hfld.2.2.1
        · simp only [] at htp ⊢; rw [htp]; exact hfld.2.2.2.1
      · rename_i hpos
        simp only [not_lt] at hpos
        refine ⟨_, rfl, ?_, ?_, ?_, ?_, ?_, ?_, ?_⟩
        · simp only []; omega
        · simp only []; omega
        · intro _; simp only []; omega
        · intro e he
          simp only [List.mem_append, List.mem_singleton] at he
          rcases he with he | he
          · exact hev e he
          · subst he
            exact ⟨by omega, by omega⟩
        · exact hfld.2.1
        · exact hfld.2.2.1
        · exact hfld.2.2.2.1

theorem count_eq (p : Proto) (hs : Sane p) (b : Int) (h0 : 0 ≤ b)
    (hm : b ≤ p.MAX_AUDIT_MESSAGE_LENGTH) :
    ((size_t (p.MAX_AUDIT_MESSAGE_LENGTH - b) : Nat) : Int) = p.MAX_AUDIT_MESSAGE_LENGTH - b := by
  have := hs.2.2
  rw [size_t_of_nonneg _ (by omega) (by omega)]
  omega

theorem close_path_inv (p : Proto) (io : ev_tcp) (evs : List Ev) (reads : List ReadRes)
    (ws : List WriteRes) (h0 : 0 ≤ io.bufptr) (hm : io.bufptr ≤ p.MAX_AUDIT_MESSAGE_LENGTH)
    (hs : Sane p) (hev : ∀ e ∈ evs, EvOK p e) :
    (close_path p io evs reads ws).closed = true
      ∧ (close_path p io evs reads ws).io.bufptr = io.bufptr
      ∧ (∀ e ∈ (close_path p io evs reads ws).evs, EvOK p e)
      ∧ (close_path p io evs reads ws).reads = reads := by
  unfold close_path
  split
  · have hu : uint32 io.bufptr = io.bufptr.toNat :=
      uint32_of_nonneg _ h0 (by have := hs.2.2; omega)
    refine ⟨rfl, (client_message_fields p io _ ws).1, ?_, rfl⟩
    intro e he
    simp only [List.mem_append] at he
    rcases he with he | he
    · exact hev e he
    · exact client_message_evok p io _ ws (by rw [hu]; omega) e he
  · exact ⟨rfl, rfl, hev, rfl⟩

theorem read_more_inv (p : Proto) (hs : Sane p) (hf : LenFits p) (fuel : Nat)
    (hfu : p.MAX_AUDIT_MESSAGE_LENGTH ≤ fuel) :
    ∀ (reads : List ReadRes) (io : ev_tcp) (total : Int) (ws : List WriteRes),
      0 ≤ io.bufptr → io.bufptr ≤ p.MAX_AUDIT_MESSAGE_LENGTH →
      ∃ res, read_more p fuel reads io total ws = some res
        ∧ 0 ≤ res.io.bufptr ∧ res.io.bufptr ≤ p.MAX_AUDIT_MESSAGE_LENGTH
        ∧ (∀ e ∈ res.evs, EvOK p e)
        ∧ (reads ≠ [] → res.reads.length < reads.length) := by
  intro reads
  induction reads with
  | nil =>
    intro io total ws h0 hm
    have hc := count_eq p hs io.bufptr h0 hm
    have hrd : ∀ e ∈ [Ev.read io.fd io.bufptr
        (size_t (p.MAX_AUDIT_MESSAGE_LENGTH - io.bufptr)) 0], EvOK p e := by
      intro e he
      simp only [List.mem_singleton] at he
      subst he
      exact ⟨h0, hc, Nat.zero_le _⟩
    unfold read_more
    simp only []
    split
    · exact ⟨_, rfl, h0, hm, hrd, fun h => absurd rfl h⟩
    · obtain ⟨_, h2, h3, _⟩ := close_path_inv p io _ [] ws h0 hm hs hrd
      exact ⟨_, rfl, by rw [h2]; exact h0, by rw [h2]; exact hm, h3, fun h => absurd rfl h⟩
  | cons rd rest ih =>
    intro io total ws h0 hm
    have hc := count_eq p hs io.bufptr h0 hm
    cases rd with
    | err e =>
      have hrd : ∀ e ∈ [Ev.read io.fd io.bufptr
          (size_t (p.MAX_AUDIT_MESSAGE_LENGTH - io.bufptr)) 0], EvOK p e := by
        intro e he
        simp only [List.mem_singleton] at he
        subst he
        exact ⟨h0, hc, Nat.zero_le _⟩
      have hrd2 : ∀ e ∈ [Ev.read io.fd io.bufptr
          (size_t (p.MAX_AUDIT_MESSAGE_LENGTH - io.bufptr)) 0, Ev.audit_msg io.addr io.port],
          EvOK p e := by
        intro e he
        simp only [List.mem_cons, List.mem_singleton, List.not_mem_nil, or_false] at he
        rcases he with he | he
        · subst he; exact ⟨h0, hc, Nat.zero_le _⟩
        · subst he; trivial
      unfold read_more
      simp only []
      by_cases hea : e = Errno.EAGAIN
      · by_cases ht : total > 0
        · simp only [hea, if_true, ht, and_self]
          exact ⟨_, rfl, h0, hm, hrd, fun _ => by simp⟩
        · simp only [hea, if_true, ht, and_false, if_false, lt_self_iff_false]
          obtain ⟨_, h2, h3, h4⟩ := close_path_inv p io _ rest ws h0 hm hs hrd
          exact ⟨_, rfl, by rw [h2]; exact h0, by rw [h2]; exact hm, h3,
            fun _ => by rw [h4]; simp⟩
      · simp only [hea, if_false, show ¬ ((-1 : Int) = 0 ∧ total > 0) by omega,
          show ((-1 : Int) < 0) by omega, if_true]
        obtain ⟨_, h2, h3, h4⟩ := close_path_inv p io _ rest ws h0 hm hs hrd2
        exact ⟨_, rfl, by rw [h2]; exact h0, by rw [h2]; exact hm, h3,
          fun _ => by rw [h4]; simp⟩
    | data bytes =>
      have hgot : ((bytes.take (size_t (p.MAX_AUDIT_MESSAGE_LENGTH - io.bufptr))).length : Int)
          ≤ p.MAX_AUDIT_MESSAGE_LENGTH - io.bufptr := by
        have := List.length_take_le (size_t (p.MAX_AUDIT_MESSAGE_LENGTH - io.bufptr)) bytes
        omega
      have hgot2 : (bytes.take (size_t (p.MAX_AUDIT_MESSAGE_LENGTH - io.bufptr))).length
          ≤ size_t (p.MAX_AUDIT_MESSAGE_LENGTH - io.bufptr) := List.length_take_le _ _
      unfold read_more
      simp only []
      generalize bytes.take (size_t (p.MAX_AUDIT_MESSAGE_LENGTH - io.bufptr)) = got at hgot hgot2 ⊢
      have hrd : ∀ e ∈ [Ev.read io.fd io.bufptr (size_t (p.MAX_AUDIT_MESSAGE_LENGTH - io.bufptr))
          got.length], EvOK p e := by
        intro e he
        simp only [List.mem_singleton] at he
        subst he
        exact ⟨h0, hc, hgot2⟩
      split
      · exact ⟨_, rfl, h0, hm, hrd, fun _ => by simp⟩
      · split
        · obtain ⟨_, h2, h3, h4⟩ := close_path_inv p
            { io with buffer := bwrite io.buffer io.bufptr.toNat got } _ rest ws h0 hm hs hrd
          exact ⟨_, rfl, by rw [h2]; exact h0, by rw [h2]; exact hm, h3,
            fun _ => by rw [h4]; simp⟩
        · rename_i hn1 hn2
          simp only [not_le] at hn2
          obtain ⟨t, ht, ht0, htm, hta, hte, _⟩ := more_messages_inv p hs hf fuel
            { io with buffer := bwrite io.buffer io.bufptr.toNat got } (got.length : Int) ws
            h0 hn2 (by simp only []; omega) (by simp only []; omega)
          rw [ht]
          simp only []
          split
          · obtain ⟨res, hres, hr0, hrm, hre, hlt⟩ := ih t.io (total + (got.length : Int))
              t.ws ht0 htm
            rw [hres]
            refine ⟨_, rfl, hr0, hrm, ?_, ?_⟩
            · intro e he
              simp only [List.mem_cons, List.mem_append] at he
              rcases he with (he | he) | he
              · exact hrd e (by simp [he])
              · exact hte e he
              · exact hre e he
            · intro _
              simp only [List.length_cons]
              cases hrest : rest with
              | nil =>
                subst hrest
                unfold read_more at hres
                simp only [] at hres
                have hrd3 : ∀ e ∈ [Ev.read t.io.fd t.io.bufptr
                    (size_t (p.MAX_AUDIT_MESSAGE_LENGTH - t.io.bufptr)) 0], EvOK p e := by
                  intro e he
                  simp only [List.mem_singleton] at he
                  subst he
                  exact ⟨ht0, count_eq p hs _ ht0 htm, Nat.zero_le _⟩
                split at hres
                · simp only [Option.some.injEq] at hres
                  rw [← hres]; simp
                · simp only [Option.some.injEq] at hres
                  rw [← hres, (close_path_inv p t.io _ [] t.ws ht0 htm hs hrd3).2.2.2]
                  simp
              | cons x xs =>
                have := hlt (by rw [hrest]; simp)
                rw [hrest] at this
                simp only [List.length_cons] at this ⊢
                omega
          · exact ⟨_, rfl, ht0, htm, fun e he => by
              simp only [List.mem_cons] at he
              rcases he with he | he
              · exact hrd e (by simp [he])
              · exact hte e he, fun _ => by simp⟩

theorem client_handler_inv (p : Proto) (hs : Sane p) (hf : LenFits p) (fuel : Nat)
    (hfu : p.MAX_AUDIT_MESSAGE_LENGTH ≤ fuel) (io : ev_tcp) (reads : List ReadRes)
    (ws : List WriteRes) (h0 : 0 ≤ io.bufptr) (hm : io.bufptr ≤ p.MAX_AUDIT_MESSAGE_LENGTH) :
    ∃ res, client_handler p fuel io reads ws = some res
      ∧ 0 ≤ res.io.bufptr ∧ res.io.bufptr ≤ p.MAX_AUDIT_MESSAGE_LENGTH
      ∧ (∀ e ∈ res.evs, EvOK p e)
      ∧ (reads ≠ [] → res.reads.length < reads.length) :=
  read_more_inv p hs hf fuel hfu reads { io with client_active := 1 } 0 ws h0 hm

theorem callbacks_inv (p : Proto) (hs : Sane p) (hf : LenFits p) (fuel : Nat)
    (hfu : p.MAX_AUDIT_MESSAGE_LENGTH ≤ fuel) :
    ∀ (n : Nat) (reads : List ReadRes) (io : ev_tcp) (ws : List WriteRes),
      reads.length < n → 0 ≤ io.bufptr → io.bufptr ≤ p.MAX_AUDIT_MESSAGE_LENGTH →
      ∃ res, callbacks p fuel n io reads ws = some res
        ∧ 0 ≤ res.io.bufptr ∧ res.io.bufptr ≤ p.MAX_AUDIT_MESSAGE_LENGTH
        ∧ (∀ e ∈ res.evs, EvOK p e) := by
  intro n
  induction n with
  | zero => intro reads io ws h; omega
  | succ n ih =>
    intro reads io ws hn h0 hm
    unfold callbacks
    split
    · exact ⟨_, rfl, h0, hm, fun e he => by simp at he⟩
    · rename_i hne
      obtain ⟨res, hres, hr0, hrm, hre, hlt⟩ := client_handler_inv p hs hf fuel hfu io reads ws h0 hm
      rw [hres]
      simp only []
      split
      · exact ⟨_, rfl, hr0, hrm, hre⟩
      · have hl := hlt (by intro h; rw [h] at hne; simp at hne)
        obtain ⟨t, ht, ht0, htm, hte⟩ := ih res.reads res.io res.ws (by omega) hr0 hrm
        rw [ht]
        refine ⟨_, rfl, ht0, htm, ?_⟩
        intro e he
        simp only [List.mem_append] at he
        rcases he with he | he
        · exact hre e he
        · exact hte e he

theorem writes_below_of_evok (p : Proto) (e : Ev) (h : EvOK p e) : WritesBelowCap p e := by
  cases e with
  | read fd off count got =>
    obtain ⟨h1, h2, h3⟩ := h
    right
    refine ⟨h1, ?_⟩
    unfold cap
    omega
  | store idx =>
    show idx < cap p
    have : idx ≤ p.MAX_AUDIT_MESSAGE_LENGTH := h
    unfold cap
    omega
  | memmove src n =>
    obtain ⟨h1, h2⟩ := h
    refine ⟨h1, ?_⟩
    unfold cap
    push_cast
    omega
  | write _ _ => trivial
  | enqueue _ _ _ => trivial
  | audit_msg _ _ => trivial
  | ev_io_stop _ => trivial
  | send_audit_event_close _ _ => trivial
  | close _ => trivial
  | free _ => trivial

/-! ## Buffer contents -/

theorem bytes_at_take (buf : Nat → Nat) (l : List Nat) (k : Nat)
    (h : bytes_at buf 0 l.length = l) (hk : k ≤ l.length) : bytes_at buf 0 k = l.take k := by
  have h1 := (bytes_at_eq_iff buf 0 l).mp h
  have h2 : (l.take k).length = k := by simp [hk]
  have h3 : bytes_at buf 0 (l.take k).length = l.take k := by
    rw [bytes_at_eq_iff]
    intro j hj
    rw [h2] at hj
    rw [h1 j (by omega)]
    simp [List.getD_eq_getElem?_getD, List.getElem?_take, hj]
  rw [h2] at h3
  exact h3

theorem bytes_at_get (buf : Nat → Nat) (l : List Nat) (k : Nat)
    (h : bytes_at buf 0 l.length = l) (hk : k < l.length) : buf k = l.getD k 0 := by
  have := (bytes_at_eq_iff buf 0 l).mp h k hk
  simpa using this

theorem is_magic_true (p : Proto) (buf : Nat → Nat) (len : Int) (l : List Nat)
    (hl : bytes_at buf 0 l.length = l)
    (hm : l.take p.AUDIT_RMW_MAGIC.length = p.AUDIT_RMW_MAGIC)
    (h1 : p.AUDIT_RMW_MAGIC.length ≤ l.length) (h2 : (p.AUDIT_RMW_MAGIC.length : Int) ≤ len) :
    AUDIT_RMW_IS_MAGIC p buf len = true := by
  unfold AUDIT_RMW_IS_MAGIC
  rw [bytes_at_take buf l _ hl h1, hm]
  simp [h2]

theorem envelope_magic (p : Proto) (hs : Sane p) (e : Envelope) (hc : e.Complete p)
    (rest : List Nat) :
    (e.bytes ++ rest).take p.AUDIT_RMW_MAGIC.length = p.AUDIT_RMW_MAGIC := by
  unfold Envelope.bytes
  rw [List.append_assoc, List.take_append_of_le_length (by rw [hc.1]; exact hs.2.1)]
  exact hc.2.1

theorem envelope_hdr (p : Proto) (e : Envelope) (hc : e.Complete p) (rest : List Nat) :
    (e.bytes ++ rest).take p.AUDIT_RMW_HEADER_SIZE = e.hdr := by
  unfold Envelope.bytes
  rw [List.append_assoc, ← hc.1]
  simp

theorem envelope_length (p : Proto) (e : Envelope) (hc : e.Complete p) :
    e.bytes.length = p.AUDIT_RMW_HEADER_SIZE + e.payload.length := by
  unfold Envelope.bytes
  rw [List.length_append, hc.1]

/-- The buffer after `client_message`: bytes beyond index `length` are kept. -/
theorem client_message_buffer (p : Proto) (io : ev_tcp) (length : Nat) (ws : List WriteRes)
    (k : Nat) (hk : length < k) : (client_message p io length ws).1.buffer k = io.buffer k := by
  have h1 : k ≠ length := by omega
  have h2 : k ≠ length - 1 := by omega
  unfold client_message
  simp only []
  split
  · split
    · split <;> simp [bset, h1, h2]
    · split <;> simp [bset, h1, h2]
  · split <;> simp [bset, h1, h2]

/-- In the binary branch the byte at index `length` itself is restored. -/
theorem client_message_buffer_magic (p : Proto) (io : ev_tcp) (length : Nat)
    (ws : List WriteRes) (hm : AUDIT_RMW_IS_MAGIC p io.buffer length = true)
    (k : Nat) (hk : length ≤ k) : (client_message p io length ws).1.buffer k = io.buffer k := by
  rcases Nat.lt_or_eq_of_le hk with h | h
  · exact client_message_buffer p io length ws k h
  · subst h
    unfold client_message
    simp only [hm, if_true]
    split <;> simp [bset]

/-- The C string handed downstream after the two stores of `client_message`:
a payload without NUL and without a final line-feed is read back whole. -/
theorem cstr_payload (p : Proto) (buf : Nat → Nat) (off : Nat) (pl : List Nat) (strip : Bool)
    (hL : off + pl.length < cap p) (hb : bytes_at buf off pl.length = pl) (h0 : 0 ∉ pl)
    (hlast : pl.getLast? ≠ some 10)
    (hstrip : strip = true → bset buf (off + pl.length) 0 (off + pl.length - 1) = 10) :
    cstr p (if strip = true then bset (bset buf (off + pl.length) 0) (off + pl.length - 1) 0
      else bset buf (off + pl.length) 0) off = pl := by
  have hpt := (bytes_at_eq_iff buf off pl).mp hb
  have hns : ∀ k, k < pl.length → strip = true → off + k ≠ off + pl.length - 1 := by
    intro k hk hst heq
    have h1 := hstrip hst
    have h2 : off + pl.length - 1 ≠ off + pl.length := by omega
    simp only [bset, if_neg h2] at h1
    rw [← heq, hpt k hk] at h1
    apply hlast
    rw [List.getLast?_eq_getElem?]
    have hk2 : pl.length - 1 = k := by omega
    rw [hk2]
    simp [List.getD_eq_getElem?_getD, hk] at h1
    simp [hk, h1]
  apply cstr_eq p _ off pl hL _ h0
  · cases strip with
    | false => simp [bset]
    | true =>
      simp only [if_true, bset]
      split
      · rfl
      · simp
  · rw [bytes_at_eq_iff]
    intro k hk
    have h1 : off + k ≠ off + pl.length := by omega
    cases hst : strip with
    | false => simp [bset, h1, hpt k hk]
    | true =>
      have h2 := hns k hk hst
      simp [bset, h1, h2, hpt k hk]

theorem deliveries_stores (c : Bool) (length : Nat) :
    deliveries (if c = true then [Ev.store length, Ev.store (length - 1)]
      else [Ev.store length]) = [] := by
  cases c <;> rfl

theorem writes_stores (c : Bool) (length : Nat) :
    writes (if c = true then [Ev.store length, Ev.store (length - 1)]
      else [Ev.store length]) = [] := by
  cases c <;> rfl

theorem payload_bytes_at (buf : Nat → Nat) (a b : List Nat)
    (h : bytes_at buf 0 (a ++ b).length = a ++ b) : bytes_at buf a.length b.length = b := by
  rw [bytes_at_eq_iff]
  intro k hk
  have := bytes_at_get buf (a ++ b) (a.length + k) h (by simp; omega)
  rw [this]
  simp [List.getD_eq_getElem?_getD, List.getElem?_append_right]

/-- Dispatch of a complete binary envelope that is not a heartbeat: one
delivery of the payload with the socket and the sequence number, no write. -/
theorem client_message_binary (p : Proto) (hs : Sane p) (io : ev_tcp) (ws : List WriteRes)
    (e : Envelope) (hc : e.Complete p) (ht : e.Text)
    (hty : e.type p ≠ p.AUDIT_RMW_TYPE_HEARTBEAT)
    (hb : bytes_at io.buffer 0 e.bytes.length = e.bytes)
    (hmax : e.bytes.length ≤ p.MAX_AUDIT_MESSAGE_LENGTH) :
    deliveries (client_message p io e.bytes.length ws).2.1 = [(e.payload, io.fd, e.seq p)]
      ∧ writes (client_message p io e.bytes.length ws).2.1 = []
      ∧ (client_message p io e.bytes.length ws).2.2 = ws := by
  have hlen := envelope_length p e hc
  have hmg : AUDIT_RMW_IS_MAGIC p io.buffer (e.bytes.length : Int) = true :=
    is_magic_true p io.buffer _ e.bytes hb (by simpa using envelope_magic p hs e hc [])
      (by have := hs.2.1; omega) (by have := hs.2.1; omega)
  have hhdr : bytes_at io.buffer 0 p.AUDIT_RMW_HEADER_SIZE = e.hdr := by
    rw [bytes_at_take io.buffer e.bytes _ hb (by omega)]
    simpa using envelope_hdr p e hc []
  have hty2 : ¬ (p.AUDIT_RMW_UNPACK_HEADER e.hdr).type % 2 ^ 32 = p.AUDIT_RMW_TYPE_HEARTBEAT := hty
  have hpl : bytes_at io.buffer p.AUDIT_RMW_HEADER_SIZE e.payload.length = e.payload := by
    rw [← hc.1]
    exact payload_bytes_at io.buffer e.hdr e.payload hb
  have hcs := cstr_payload p io.buffer p.AUDIT_RMW_HEADER_SIZE e.payload
    (decide (e.bytes.length > 1) && (bset io.buffer e.bytes.length 0 (e.bytes.length - 1) == 10))
    (by unfold cap; omega) hpl ht.1 ht.2
    (by
      intro h
      simp only [Bool.and_eq_true, beq_iff_eq] at h
      rw [← hlen]; exact h.2)
  rw [← hlen] at hcs
  unfold client_message
  simp only [hmg, if_true, hhdr, hty2, if_false]
  refine ⟨?_, ?_, trivial⟩
  · rw [deliveries_append, deliveries_stores]
    simp only [deliveries, List.nil_append]
    rw [hcs]
    rfl
  · rw [writes_append, writes_stores]
    rfl

/-- Boundary detection on a buffer that starts with a complete envelope. -/
theorem boundary_envelope (p : Proto) (hs : Sane p) (io : ev_tcp) (r : Int) (e : Envelope)
    (hc : e.Complete p) (rest : List Nat)
    (hn : io.bufptr + r = ((e.bytes ++ rest).length : Int))
    (hb : bytes_at io.buffer 0 (e.bytes ++ rest).length = e.bytes ++ rest)
    (hmax : (e.bytes ++ rest).length ≤ p.MAX_AUDIT_MESSAGE_LENGTH) :
    boundary p io r = some (e.bytes.length : Int) := by
  have hlen := envelope_length p e hc
  have hl2 : (e.bytes ++ rest).length = e.bytes.length + rest.length := List.length_append _ _
  have hmg : AUDIT_RMW_IS_MAGIC p io.buffer (io.bufptr + r) = true :=
    is_magic_true p io.buffer _ (e.bytes ++ rest) hb (envelope_magic p hs e hc rest)
      (by have := hs.2.1; omega) (by have := hs.2.1; omega)
  have hhdr : bytes_at io.buffer 0 p.AUDIT_RMW_HEADER_SIZE = e.hdr := by
    rw [bytes_at_take io.buffer (e.bytes ++ rest) _ hb (by omega)]
    exact envelope_hdr p e hc rest
  have hi : int32 ((p.AUDIT_RMW_UNPACK_HEADER e.hdr).len % 2 ^ 32 + p.AUDIT_RMW_HEADER_SIZE)
      = (e.bytes.length : Int) := by
    rw [hc.2.2, int32_of_lt _ (by have := hs.2.2; omega)]
    congr 1
    omega
  unfold boundary
  simp only [hmg, if_true, hhdr, hi]
  rw [if_neg (by omega), if_neg (by omega)]

/-- One pass of `more_messages` over a buffer that starts with a complete
envelope followed by `rest`: the envelope is dispatched, the buffer is
compacted, and the loop goes on with `rest` as a fresh pass. -/
theorem more_messages_envelope (p : Proto) (hs : Sane p) (io : ev_tcp) (r : Int)
    (ws : List WriteRes) (e : Envelope) (hc : e.Complete p) (rest : List Nat)
    (hn : io.bufptr + r = ((e.bytes ++ rest).length : Int))
    (hb : bytes_at io.buffer 0 (e.bytes ++ rest).length = e.bytes ++ rest)
    (hmax : (e.bytes ++ rest).length ≤ p.MAX_AUDIT_MESSAGE_LENGTH) (fuel : Nat) :
    ∃ io2 : ev_tcp, io2.bufptr = 0 ∧ io2.fd = io.fd
      ∧ bytes_at io2.buffer 0 rest.length = rest
      ∧ more_messages p (fuel + 1) io r ws =
        if rest = [] then
          some { io := io2,
                 evs := (client_message p { io with bufptr := io.bufptr + r } e.bytes.length ws).2.1
                   ++ [Ev.memmove e.bytes.length (e.bytes ++ rest).length],
                 ws := (client_message p { io with bufptr := io.bufptr + r } e.bytes.length ws).2.2,
                 again := true }
        else
          match more_messages p fuel io2 rest.length
            (client_message p { io with bufptr := io.bufptr + r } e.bytes.length ws).2.2 with
          | none => none
          | some t => some { t with evs :=
              ((client_message p { io with bufptr := io.bufptr + r } e.bytes.length ws).2.1
                ++ [Ev.memmove e.bytes.length (e.bytes ++ rest).length]) ++ t.evs } := by
  have hl2 : (e.bytes ++ rest).length = e.bytes.length + rest.length := List.length_append _ _
  have hbd := boundary_envelope p hs io r e hc rest hn hb hmax
  have hu : uint32 (e.bytes.length : Int) = e.bytes.length := by
    rw [uint32_of_nonneg _ (by omega) (by have := hs.2.2; omega)]
    simp
  have hsz : size_t (((e.bytes ++ rest).length : Nat) : Int) = (e.bytes ++ rest).length := by
    rw [size_t_of_nonneg _ (by omega) (by have := hs.2.2; omega)]
    omega
  have hmg : AUDIT_RMW_IS_MAGIC p io.buffer (e.bytes.length : Int) = true :=
    is_magic_true p io.buffer _ (e.bytes ++ rest) hb (envelope_magic p hs e hc rest)
      (by have := hs.2.1; have := envelope_length p e hc; omega)
      (by have := hs.2.1; have := envelope_length p e hc; omega)
  have hfld := client_message_fields p { io with bufptr := io.bufptr + r } e.bytes.length ws
  refine ⟨{ (client_message p { io with bufptr := io.bufptr + r } e.bytes.length ws).1 with
      buffer := memmove
        (client_message p { io with bufptr := io.bufptr + r } e.bytes.length ws).1.buffer
        e.bytes.length (e.bytes ++ rest).length,
      bufptr := 0 }, rfl, hfld.2.1, ?_, ?_⟩
  · rw [bytes_at_eq_iff]
    intro k hk
    simp only [memmove, Nat.zero_add]
    rw [if_pos (by omega)]
    rw [client_message_buffer_magic p { io with bufptr := io.bufptr + r } _ ws hmg _ (by omega)]
    have := bytes_at_get io.buffer (e.bytes ++ rest) (e.bytes.length + k) hb (by omega)
    simp only [] at this ⊢
    rw [this]
    simp [List.getD_eq_getElem?_getD, List.getElem?_append_right]
  · conv_lhs => unfold more_messages
    clear hfld
    simp only [hbd, hu, hn, hsz, Int.toNat_ofNat]
    by_cases hrest : rest = []
    · subst hrest
      simp
    · have hpos : 0 < rest.length := List.length_pos.mpr hrest
      rw [if_neg hrest, if_pos (by rw [hl2]; push_cast; omega)]
      have hsub : ((e.bytes ++ rest).length : Int) - (e.bytes.length : Int) = (rest.length : Int) := by
        rw [hl2]; push_cast; omega
      simp only [hsub]

theorem stream_eq_nil (p : Proto) (hs : Sane p) (es : List Envelope)
    (hc : ∀ e ∈ es, e.Complete p) (h : stream es = []) : es = [] := by
  cases es with
  | nil => rfl
  | cons e es =>
    exfalso
    have h1 := envelope_length p e (hc e (List.mem_cons_self _ _))
    have h2 : (stream (e :: es)).length = 0 := by rw [h]; rfl
    simp only [stream, List.length_append] at h2
    have := hs.1
    omega

/-- The `more_messages` loop over a buffer holding envelopes back-to-back. -/
theorem more_messages_stream (p : Proto) (hs : Sane p) :
    ∀ (es : List Envelope) (io : ev_tcp) (ws : List WriteRes) (fuel : Nat),
      es ≠ [] →
      (∀ e ∈ es, e.Complete p ∧ e.Text ∧ e.type p ≠ p.AUDIT_RMW_TYPE_HEARTBEAT) →
      io.bufptr = 0 → bytes_at io.buffer 0 (stream es).length = stream es →
      (stream es).length ≤ p.MAX_AUDIT_MESSAGE_LENGTH → es.length ≤ fuel →
      ∃ t, more_messages p fuel io (stream es).length ws = some t
        ∧ t.again = true ∧ t.io.bufptr = 0 ∧ t.ws = ws ∧ t.io.fd = io.fd
        ∧ deliveries t.evs = es.map (fun e => (e.payload, io.fd, e.seq p))
        ∧ writes t.evs = [] := by
  intro es
  induction es with
  | nil => intro io ws fuel h; exact absurd rfl h
  | cons e es ih =>
    intro io ws fuel _ hall h0 hb hmax hfu
    obtain ⟨f, rfl⟩ : ∃ f, fuel = f + 1 := ⟨fuel - 1, by simp at hfu; omega⟩
    obtain ⟨hc, ht, hty⟩ := hall e (List.mem_cons_self _ _)
    have hst : stream (e :: es) = e.bytes ++ stream es := rfl
    rw [hst] at hb hmax ⊢
    have hl2 : (e.bytes ++ stream es).length = e.bytes.length + (stream es).length :=
      List.length_append _ _
    have hbe : bytes_at io.buffer 0 e.bytes.length = e.bytes := by
      rw [bytes_at_take io.buffer _ _ hb (by omega)]
      simp
    obtain ⟨hd, hw, hws⟩ := client_message_binary p hs
      { io with bufptr := io.bufptr + ((e.bytes ++ stream es).length : Int) } ws e hc ht hty hbe
      (by omega)
    obtain ⟨io2, h20, h2f, h2b, heq⟩ := more_messages_envelope p hs io
      ((e.bytes ++ stream es).length : Int) ws e hc (stream es) (by rw [h0]; simp) hb hmax f
    rw [heq]
    by_cases hrest : stream es = []
    · have hes : es = [] := stream_eq_nil p hs es (fun x hx => (hall x (List.mem_cons_of_mem _ hx)).1)
        hrest
      rw [if_pos hrest]
      refine ⟨_, rfl, rfl, h20, hws, h2f, ?_, ?_⟩
      · simp only []
        rw [deliveries_append, hd, hes]
        rfl
      · simp only []
        rw [writes_append, hw]
        rfl
    · have hes : es ≠ [] := by
        intro h
        apply hrest
        rw [h]
        rfl
      rw [if_neg hrest, hws]
      obtain ⟨t, hteq, hta, ht0, htw, htf, htd, htwr⟩ := ih io2 ws f hes
        (fun x hx => hall x (List.mem_cons_of_mem _ hx)) h20 h2b (by omega)
        (by simp at hfu; omega)
      rw [hteq]
      refine ⟨_, rfl, hta, ht0, htw, by simp only []; rw [htf, h2f], ?_, ?_⟩
      · simp only []
        rw [deliveries_append, deliveries_append, hd, htd, h2f]
        rfl
      · simp only []
        rw [writes_append, writes_append, hw, htwr]
        rfl

theorem bwrite_bytes_at (buf : Nat → Nat) (l : List Nat) :
    bytes_at (bwrite buf 0 l) 0 l.length = l := by
  rw [bytes_at_eq_iff]
  intro k hk
  simp [bwrite, hk]

/-- Dispatch of a complete heartbeat envelope: no delivery, and the writes of
one `ar_write` call for the acknowledgement header. -/
theorem client_message_heartbeat (p : Proto) (hs : Sane p) (io : ev_tcp) (ws : List WriteRes)
    (e : Envelope) (hc : e.Complete p) (hty : e.type p = p.AUDIT_RMW_TYPE_HEARTBEAT)
    (hb : bytes_at io.buffer 0 e.bytes.length = e.bytes) :
    deliveries (client_message p io e.bytes.length ws).2.1 = []
      ∧ writes (client_message p io e.bytes.length ws).2.1
          = (ar_write ws io.fd (p.AUDIT_RMW_PACK_HEADER 0 p.AUDIT_RMW_TYPE_ACK 0 (e.seq p))
              p.AUDIT_RMW_HEADER_SIZE).2.1
      ∧ (client_message p io e.bytes.length ws).2.2
          = (ar_write ws io.fd (p.AUDIT_RMW_PACK_HEADER 0 p.AUDIT_RMW_TYPE_ACK 0 (e.seq p))
              p.AUDIT_RMW_HEADER_SIZE).2.2 := by
  have hlen := envelope_length p e hc
  have hmg : AUDIT_RMW_IS_MAGIC p io.buffer (e.bytes.length : Int) = true :=
    is_magic_true p io.buffer _ e.bytes hb (by simpa using envelope_magic p hs e hc [])
      (by have := hs.2.1; omega) (by have := hs.2.1; omega)
  have hhdr : bytes_at io.buffer 0 p.AUDIT_RMW_HEADER_SIZE = e.hdr := by
    rw [bytes_at_take io.buffer e.bytes _ hb (by omega)]
    simpa using envelope_hdr p e hc []
  have hty2 : (p.AUDIT_RMW_UNPACK_HEADER e.hdr).type % 2 ^ 32 = p.AUDIT_RMW_TYPE_HEARTBEAT := hty
  have hwr := ar_write_loop_events ws io.fd
    (p.AUDIT_RMW_PACK_HEADER 0 p.AUDIT_RMW_TYPE_ACK 0 (e.seq p)) p.AUDIT_RMW_HEADER_SIZE 0
  unfold client_message
  simp only [hmg, if_true, hhdr, hty2]
  refine ⟨?_, ?_, rfl⟩
  · rw [deliveries_append, deliveries_append, deliveries_stores]
    simp only [List.nil_append]
    unfold ar_write Envelope.seq at *
    rw [deliveries_of_writes _ io.fd hwr]
    rfl
  · rw [writes_append, writes_append, writes_stores]
    simp only [List.nil_append]
    unfold ar_write Envelope.seq at *
    rw [writes_of_writes _ io.fd hwr]
    simp [writes]

theorem bwrite_nil (buf : Nat → Nat) (off : Nat) : bwrite buf off [] = buf := by
  funext k
  simp [bwrite]

/-- Dispatch of buffered legacy text without line-feed and without NUL. -/
theorem client_message_legacy (p : Proto) (io : ev_tcp) (ws : List WriteRes) (l : List Nat)
    (hb : bytes_at io.buffer 0 l.length = l)
    (hmg : AUDIT_RMW_IS_MAGIC p io.buffer (l.length : Int) = false)
    (h0 : 0 ∉ l) (h10 : 10 ∉ l) (hmax : l.length ≤ p.MAX_AUDIT_MESSAGE_LENGTH) :
    deliveries (client_message p io l.length ws).2.1 = [(l, 0, 0)]
      ∧ writes (client_message p io l.length ws).2.1 = []
      ∧ (client_message p io l.length ws).2.2 = ws := by
  have hcs := cstr_payload p io.buffer 0 l
    (decide (l.length > 1) && (bset io.buffer l.length 0 (l.length - 1) == 10))
    (by unfold cap; omega) hb h0
    (fun h => h10 (List.mem_of_getLast?_eq_some h))
    (by
      intro h
      simp only [Bool.and_eq_true, beq_iff_eq] at h
      simpa using h.2)
  simp only [Nat.zero_add] at hcs
  unfold client_message
  simp only [hmg, Bool.false_eq_true, if_false]
  refine ⟨?_, ?_, trivial⟩
  · rw [deliveries_append, deliveries_stores, hcs]
    rfl
  · rw [writes_append, writes_stores]
    rfl

/-- The effects of `close_client` on an allocated connection record. -/
theorem close_client_of (w : World) (a : Nat) (c : ev_tcp) (h : w.heap a = some c) :
    (close_client w a).2 = [Ev.send_audit_event_close c.addr c.port, Ev.close c.fd, Ev.free a]
      ∧ (close_client w a).1.heap a = none
      ∧ (close_client w a).1.client_chain
          = (if w.client_chain = some a then c.next else w.client_chain) := by
  unfold close_client
  simp only [h]
  refine ⟨trivial, ?_, trivial⟩
  simp [hset]

/-- The handler on the global state when the callback took the close path. -/
theorem handler_closed (p : Proto) (fuel : Nat) (w : World) (a : Nat) (io : ev_tcp)
    (reads : List ReadRes) (ws : List WriteRes) (res : Result) (hw : w.heap a = some io)
    (hres : client_handler p fuel io reads ws = some res) (hcl : res.closed = true) :
    ∃ w2 : World,
      auditd_tcp_client_handler p fuel w a reads ws
          = some (w2, res.evs ++ [Ev.ev_io_stop res.io.fd,
              Ev.send_audit_event_close res.io.addr res.io.port, Ev.close res.io.fd, Ev.free a],
            res.reads, res.ws)
        ∧ w2.heap a = none
        ∧ w2.client_chain = (if w.client_chain = some a then res.io.next else w.client_chain) := by
  obtain ⟨h1, h2, h3⟩ := close_client_of { w with heap := hset w.heap a (some res.io) } a res.io
    (by simp [hset])
  unfold auditd_tcp_client_handler
  simp only [hw, hres, hcl, if_true]
  refine ⟨_, ?_, h2, h3⟩
  rw [h1]
  simp

/-- A first read that returns zero bytes takes the close path. -/
theorem client_handler_eof (p : Proto) (fuel : Nat) (io : ev_tcp) (rest : List ReadRes)
    (ws : List WriteRes) :
    client_handler p fuel io (ReadRes.data [] :: rest) ws
      = some (close_path p { io with client_active := 1 }
          [Ev.read io.fd io.bufptr (size_t (p.MAX_AUDIT_MESSAGE_LENGTH - io.bufptr)) 0] rest ws) := by
  unfold client_handler read_more
  simp [bwrite_nil]

theorem new_client_bufptr (fd : Int) (addr port : Nat) : (new_client fd addr port).bufptr = 0 := rfl

theorem reachable_inv (p : Proto) (hs : Sane p) (hf : LenFits p) (fuel : Nat)
    (hfu : p.MAX_AUDIT_MESSAGE_LENGTH ≤ fuel) (io : ev_tcp) (hr : Reachable p fuel io) :
    0 ≤ io.bufptr ∧ io.bufptr ≤ p.MAX_AUDIT_MESSAGE_LENGTH := by
  induction hr with
  | fresh fd addr port =>
    rw [new_client_bufptr]
    exact ⟨le_refl _, by omega⟩
  | step io reads ws res _ hres _ ih =>
    obtain ⟨res2, h2, h0, hm, _⟩ := client_handler_inv p hs hf fuel hfu io reads ws ih.1 ih.2
    rw [hres] at h2
    cases h2
    exact ⟨h0, hm⟩

/-- Boundary detection on a header that declares more than the buffer holds. -/
theorem boundary_oversized (p : Proto) (hs : Sane p) (hf : LenFits p) (io : ev_tcp) (r : Int)
    (hdr part : List Nat) (hh : hdr.length = p.AUDIT_RMW_HEADER_SIZE)
    (hm : hdr.take p.AUDIT_RMW_MAGIC.length = p.AUDIT_RMW_MAGIC)
    (hbig : cap p < p.AUDIT_RMW_HEADER_SIZE + (p.AUDIT_RMW_UNPACK_HEADER hdr).len % 2 ^ 32)
    (hbuf : bytes_at io.buffer 0 (hdr ++ part).length = hdr ++ part)
    (hlen : io.bufptr + r = ((hdr ++ part).length : Int))
    (hmax : io.bufptr + r ≤ p.MAX_AUDIT_MESSAGE_LENGTH) :
    boundary p io r = none := by
  have hl2 : (hdr ++ part).length = hdr.length + part.length := List.length_append _ _
  have hmg : AUDIT_RMW_IS_MAGIC p io.buffer (io.bufptr + r) = true :=
    is_magic_true p io.buffer _ (hdr ++ part) hbuf
      (by rw [List.take_append_of_le_length (by rw [hh]; exact hs.2.1)]; exact hm)
      (by have := hs.2.1; omega) (by have := hs.2.1; omega)
  have hhdr : bytes_at io.buffer 0 p.AUDIT_RMW_HEADER_SIZE = hdr := by
    rw [bytes_at_take io.buffer (hdr ++ part) _ hbuf (by omega), ← hh]
    simp
  unfold boundary
  simp only [hmg, if_true, hhdr]
  rw [if_neg (by omega), int32_of_lt _ (hf _), if_pos (by unfold cap at hbig; push_cast; omega)]

theorem bwrite_append (buf : Nat → Nat) (old bytes : List Nat)
    (h : bytes_at buf 0 old.length = old) :
    bytes_at (bwrite buf old.length bytes) 0 (old ++ bytes).length = old ++ bytes := by
  rw [bytes_at_eq_iff]
  intro k hk
  simp only [Nat.zero_add, bwrite]
  simp only [List.length_append] at hk
  by_cases hko : k < old.length
  · rw [if_neg (by omega), bytes_at_get buf old k h hko]
    simp [List.getD_eq_getElem?_getD, List.getElem?_append_left hko]
  · rw [if_pos (by omega)]
    simp [List.getD_eq_getElem?_getD, List.getElem?_append_right (not_lt.mp hko)]

theorem rmw_sane : Sane rmw := by
  refine ⟨by decide, by decide, by decide⟩

theorem rmw_len_fits : LenFits rmw := by
  intro h
  show getn16 h 12 % 2 ^ 32 + 16 < 2 ^ 31
  unfold getn16
  norm_num
  omega

/-! ## One pass of the handler -/

/-- One pass of `more_messages` that finds a message is `consume` followed by
the test of `bufptr`. -/
theorem more_messages_eq_consume (p : Proto) (fuel : Nat) (io : ev_tcp) (r i : Int)
    (ws : List WriteRes) (hb : boundary p io r = some i) :
    more_messages p (fuel + 1) io r ws =
      if (consume p { io with bufptr := io.bufptr + r } i ws).1.bufptr > 0 then
        match more_messages p fuel
          { (consume p { io with bufptr := io.bufptr + r } i ws).1 with bufptr := 0 }
          (consume p { io with bufptr := io.bufptr + r } i ws).1.bufptr
          (consume p { io with bufptr := io.bufptr + r } i ws).2.2 with
        | none => none
        | some t => some { t with evs := (consume p { io with bufptr := io.bufptr + r } i ws).2.1
            ++ t.evs }
      else
        some { io := (consume p { io with bufptr := io.bufptr + r } i ws).1,
               evs := (consume p { io with bufptr := io.bufptr + r } i ws).2.1,
               ws := (consume p { io with bufptr := io.bufptr + r } i ws).2.2,
               again := true } := by
  conv_lhs => unfold more_messages
  simp only [hb]
  rfl

/-! ## The record outside its buffer -/

theorem same_record_refl (a : ev_tcp) : same_record a a := ⟨rfl, rfl, rfl, rfl, rfl, rfl⟩

theorem same_record_trans {a b c : ev_tcp} (h1 : same_record a b) (h2 : same_record b c) :
    same_record a c :=
  ⟨h1.1.trans h2.1, h1.2.1.trans h2.2.1, h1.2.2.1.trans h2.2.2.1, h1.2.2.2.1.trans h2.2.2.2.1,
    h1.2.2.2.2.1.trans h2.2.2.2.2.1, h1.2.2.2.2.2.trans h2.2.2.2.2.2⟩

theorem client_message_record (p : Proto) (io : ev_tcp) (length : Nat) (ws : List WriteRes) :
    same_record (client_message p io length ws).1 io := by
  unfold client_message same_record
  simp only []
  split
  · split <;> simp
  · simp

theorem consume_record (p : Proto) (io : ev_tcp) (i : Int) (ws : List WriteRes) :
    same_record (consume p io i ws).1 io :=
  client_message_record p io (uint32 i) ws

theorem more_messages_record (p : Proto) :
    ∀ (fuel : Nat) (io : ev_tcp) (r : Int) (ws : List WriteRes) (t : Pass),
      more_messages p fuel io r ws = some t → same_record t.io io := by
  intro fuel
  induction fuel with
  | zero => intro io r ws t h; simp [more_messages] at h
  | succ fuel ih =>
    intro io r ws t h
    cases hb : boundary p io r with
    | none =>
      unfold more_messages at h
      simp only [hb, Option.some.injEq] at h
      subst h
      exact same_record_refl io
    | some i =>
      rw [more_messages_eq_consume p fuel io r i ws hb] at h
      have hm : same_record (consume p { io with bufptr := io.bufptr + r } i ws).1 io :=
        consume_record p { io with bufptr := io.bufptr + r } i ws
      generalize consume p { io with bufptr := io.bufptr + r } i ws = c at h hm
      split at h
      · cases hr : more_messages p fuel { c.1 with bufptr := 0 } c.1.bufptr c.2.2 with
        | none => simp [hr] at h
        | some t2 =>
          simp only [hr, Option.some.injEq] at h
          subst h
          exact same_record_trans (ih _ _ _ t2 hr) hm
      · simp only [Option.some.injEq] at h
        subst h
        exact hm

theorem close_path_closed (p : Proto) (io : ev_tcp) (evs : List Ev) (reads : List ReadRes)
    (ws : List WriteRes) : (close_path p io evs reads ws).closed = true := by
  unfold close_path
  split <;> rfl

theorem close_path_record (p : Proto) (io : ev_tcp) (evs : List Ev) (reads : List ReadRes)
    (ws : List WriteRes) : same_record (close_path p io evs reads ws).io io := by
  unfold close_path
  split
  · exact client_message_record p io _ ws
  · exact same_record_refl io

/-- A callback leaves the record as it was outside the buffer; when it
returns without closing, its reads stored at least one byte. -/
theorem read_more_record (p : Proto) (fuel : Nat) :
    ∀ (reads : List ReadRes) (io : ev_tcp) (total : Int) (ws : List WriteRes) (res : Result),
      read_more p fuel reads io total ws = some res →
      same_record res.io io
        ∧ (res.closed = false → 0 ≤ total → 0 < total ∨ 0 < bytes_read res.evs) := by
  intro reads
  induction reads with
  | nil =>
    intro io total ws res h
    unfold read_more at h
    simp only [] at h
    split at h
    · rename_i ht
      simp only [Option.some.injEq] at h
      subst h
      exact ⟨same_record_refl io, fun _ _ => Or.inl ht⟩
    · simp only [Option.some.injEq] at h
      subst h
      exact ⟨close_path_record p io _ _ ws, fun hc => by rw [close_path_closed] at hc; cases hc⟩
  | cons rd rest ih =>
    intro io total ws res h
    cases rd with
    | err e =>
      unfold read_more at h
      simp only [] at h
      by_cases hea : e = Errno.EAGAIN <;> by_cases ht : total > 0 <;>
        simp [hea, ht] at h <;> subst h <;>
        first
          | exact ⟨same_record_refl io, fun _ _ => Or.inl ht⟩
          | exact ⟨close_path_record p io _ _ ws,
              fun hc => by rw [close_path_closed] at hc; cases hc⟩
    | data bytes =>
      unfold read_more at h
      simp only [] at h
      generalize hgot : bytes.take (size_t (p.MAX_AUDIT_MESSAGE_LENGTH - io.bufptr)) = got at h
      have hio1 : same_record { io with buffer := bwrite io.buffer io.bufptr.toNat got } io :=
        same_record_refl io
      split at h
      · rename_i ht
        simp only [Option.some.injEq] at h
        subst h
        exact ⟨hio1, fun _ _ => Or.inl ht.2⟩
      · split at h
        · simp only [Option.some.injEq] at h
          subst h
          exact ⟨same_record_trans (close_path_record p _ _ _ ws) hio1,
            fun hc => by rw [close_path_closed] at hc; cases hc⟩
        · rename_i hpos
          cases hmm : more_messages p fuel
              { io with buffer := bwrite io.buffer io.bufptr.toNat got } got.length ws with
          | none => simp [hmm] at h
          | some t =>
            simp only [hmm] at h
            have ht := more_messages_record p fuel _ _ ws t hmm
            have hb : 0 < bytes_read (Ev.read io.fd io.bufptr
                (size_t (p.MAX_AUDIT_MESSAGE_LENGTH - io.bufptr)) got.length :: t.evs) := by
              simp only [bytes_read]
              omega
            split at h
            · cases hr : read_more p fuel rest t.io (total + got.length) t.ws with
              | none => simp [hr] at h
              | some res2 =>
                simp only [hr, Option.some.injEq] at h
                subst h
                refine ⟨same_record_trans (ih _ _ _ _ hr).1 (same_record_trans ht hio1), ?_⟩
                intro _ _
                right
                simp only [bytes_read]
                omega
            · simp only [Option.some.injEq] at h
              subst h
              exact ⟨same_record_trans ht hio1, fun _ _ => Or.inr hb⟩

/-- A callback sets `client_active` and keeps the links; when it returns
without closing, it has read at least one byte. -/
theorem client_handler_record (p : Proto) (fuel : Nat) (io : ev_tcp) (reads : List ReadRes)
    (ws : List WriteRes) (res : Result) (h : client_handler p fuel io reads ws = some res) :
    res.io.fd = io.fd ∧ res.io.addr = io.addr ∧ res.io.port = io.port ∧ res.io.next = io.next
      ∧ res.io.prev = io.prev ∧ res.io.client_active = 1
      ∧ (res.closed = false → 0 < bytes_read res.evs) := by
  unfold client_handler at h
  obtain ⟨⟨h1, h2, h3, h4, h5, h6⟩, h7⟩ := read_more_record p fuel reads _ 0 ws res h
  refine ⟨h1, h2, h3, h4, h5, h6, fun hc => ?_⟩
  rcases h7 hc (le_refl 0) with h | h
  · omega
  · exact h

/-! ## The registry -/

theorem hset_ne (heap : Nat → Option ev_tcp) (a : Nat) (v : Option ev_tcp) (k : Nat)
    (h : k ≠ a) : hset heap a v k = heap k := by
  simp [hset, h]

theorem hset_eq (heap : Nat → Option ev_tcp) (a : Nat) (v : Option ev_tcp) :
    hset heap a v a = v := by
  simp [hset]

theorem hset_prev_apply (heap : Nat → Option ev_tcp) (n : Option Nat) (v : Option Nat) (x : Nat) :
    (match n with
      | some n => (match heap n with
        | some cn => hset heap n (some { cn with prev := v })
        | none => heap)
      | none => heap) x
      = match heap x with
        | none => none
        | some cx => some { cx with prev := if n = some x then v else cx.prev } := by
  cases n with
  | none => cases hx : heap x <;> simp [hx]
  | some n =>
    simp only []
    by_cases hxn : x = n
    · subst hxn
      cases hx : heap x <;> simp [hx, hset]
    · have hnx : ¬ n = x := fun e => hxn e.symm
      cases hn : heap n <;> cases hx : heap x <;> simp [hset, hxn, hnx, hx]

theorem hset_next_apply (heap : Nat → Option ev_tcp) (q : Option Nat) (v : Option Nat) (x : Nat) :
    (match q with
      | some q => (match heap q with
        | some cp => hset heap q (some { cp with next := v })
        | none => heap)
      | none => heap) x
      = match heap x with
        | none => none
        | some cx => some { cx with next := if q = some x then v else cx.next } := by
  cases q with
  | none => cases hx : heap x <;> simp [hx]
  | some q =>
    simp only []
    by_cases hxq : x = q
    · subst hxq
      cases hx : heap x <;> simp [hx, hset]
    · have hqx : ¬ q = x := fun e => hxq e.symm
      cases hq : heap q <;> cases hx : heap x <;> simp [hset, hxq, hqx, hx]

/-- The heap after `close_client`: the record is freed, and every other
record keeps its contents but for the links that pointed at the freed one. -/
theorem close_client_heap (w : World) (c : Nat) (cc : ev_tcp) (h : w.heap c = some cc) (x : Nat) :
    (close_client w c).1.heap x =
      if x = c then none
      else match w.heap x with
        | none => none
        | some cx => some { cx with
            prev := if cc.next = some x then cc.prev else cx.prev,
            next := if cc.prev = some x then cc.next else cx.next } := by
  unfold close_client
  simp only [h]
  by_cases hxc : x = c
  · simp [hxc, hset]
  · simp only [hxc, if_false]
    rw [hset_ne _ _ _ _ hxc]
    refine Eq.trans (hset_next_apply _ cc.prev cc.next x) ?_
    have h1 := hset_prev_apply w.heap cc.next cc.prev x
    split
    · rename_i heq
      have h3 := h1.symm.trans heq
      cases hx : w.heap x with
      | none => rfl
      | some cx => rw [hx] at h3; cases h3
    · rename_i cx1 heq
      have h3 := h1.symm.trans heq
      cases hx : w.heap x with
      | none => rw [hx] at h3; cases h3
      | some cx =>
        rw [hx] at h3
        simp only [Option.some.injEq] at h3
        subst h3
        rfl

theorem erase_eq_eraseIdx_of_getElem? :
    ∀ (l : List Nat) (k c : Nat), l.Nodup → l[k]? = some c → l.erase c = l.eraseIdx k := by
  intro l
  induction l with
  | nil => intro k c _ h; simp at h
  | cons a t ih =>
    intro k c hnd h
    cases k with
    | zero =>
      simp only [List.getElem?_cons_zero, Option.some.injEq] at h
      subst h
      simp
    | succ k =>
      simp only [List.getElem?_cons_succ] at h
      have hct : c ∈ t := List.mem_iff_getElem?.mpr ⟨k, h⟩
      have hac : a ≠ c := by
        intro e
        subst e
        exact (List.nodup_cons.mp hnd).1 hct
      rw [List.erase_cons_tail (by simpa using hac), List.eraseIdx_cons_succ,
        ih k c (List.nodup_cons.mp hnd).2 h]

/-- In a list without repetition an element has one position. -/
theorem nodup_index_unique (l : List Nat) (hnd : l.Nodup) (i j a : Nat)
    (hi : l[i]? = some a) (hj : l[j]? = some a) : i = j := by
  have hlt : i < l.length := (List.getElem?_eq_some.mp hi).1
  exact List.getElem?_inj hlt hnd (hi.trans hj.symm)

/-- Members of a well-formed registry are allocated. -/
theorem WF_heap (w : World) (l : List Nat) (hwf : WF w l) (a : Nat) (ha : a ∈ l) :
    ∃ c, w.heap a = some c := by
  obtain ⟨i, hi⟩ := List.mem_iff_getElem?.mp ha
  obtain ⟨c, hc, _⟩ := hwf.2.2 i a hi
  exact ⟨c, hc⟩

/-- Removal by `close_client` keeps the registry well formed: the chain
becomes the list without the removed address. -/
theorem WF_close_client (w : World) (l : List Nat) (c : Nat) (hwf : WF w l) (hc : c ∈ l) :
    WF (close_client w c).1 (l.erase c) := by
  obtain ⟨hnd, hhead, hlinks⟩ := hwf
  obtain ⟨k, hk⟩ := List.mem_iff_getElem?.mp hc
  obtain ⟨cc, hcc, hnext, hprev⟩ := hlinks k c hk
  rw [erase_eq_eraseIdx_of_getElem? l k c hnd hk]
  refine ⟨List.Nodup.sublist (List.eraseIdx_sublist l k) hnd, ?_, ?_⟩
  · rw [(close_client_of w c cc hcc).2.2, hhead, List.head?_eq_getElem?, List.head?_eq_getElem?,
      List.getElem?_eraseIdx]
    by_cases h0 : l[0]? = some c
    · have hk0 : 0 = k := nodup_index_unique l hnd 0 k c h0 hk
      subst hk0
      simp [h0, hnext]
    · have hk0 : 0 < k := by
        rcases Nat.eq_zero_or_pos k with h | h
        · subst h; exact absurd hk h0
        · exact h
      simp [h0, hk0]
  · intro i a hi
    rw [List.getElem?_eraseIdx] at hi
    have hj : ∃ j, l[j]? = some a ∧ j ≠ k ∧ j = (if i < k then i else i + 1) := by
      by_cases hik : i < k
      · rw [if_pos hik] at hi
        exact ⟨i, hi, by omega, by rw [if_pos hik]⟩
      · rw [if_neg hik] at hi
        exact ⟨i + 1, hi, by omega, by rw [if_neg hik]⟩
    obtain ⟨j, hja, hjk, hji⟩ := hj
    obtain ⟨ca, hca, hanext, haprev⟩ := hlinks j a hja
    have hac : a ≠ c := by
      intro e
      subst e
      exact hjk (nodup_index_unique l hnd j k a hja hk)
    have hjlt : j < l.length := (List.getElem?_eq_some.mp hja).1
    have hklt : k < l.length := (List.getElem?_eq_some.mp hk).1
    rw [close_client_heap w c cc hcc a, if_neg hac, hca]
    refine ⟨_, rfl, ?_, ?_⟩
    · -- the successor
      simp only []
      rw [List.getElem?_eraseIdx]
      by_cases hp : cc.prev = some a
      · rw [if_pos hp, hnext]
        rw [hprev] at hp
        have hk0 : k ≠ 0 := by intro e; rw [if_pos e] at hp; cases hp
        rw [if_neg hk0] at hp
        have hjk1 : k - 1 = j := nodup_index_unique l hnd (k - 1) j a hp hja
        have hik : i < k := by
          by_contra hik; rw [if_neg hik] at hji; omega
        rw [if_pos hik] at hji
        rw [if_neg (by omega)]
        have : i + 1 + 1 = k + 1 := by omega
        rw [this]
      · rw [if_neg hp, hanext]
        by_cases hik : i < k
        · rw [if_pos hik] at hji
          subst hji
          have : j + 1 ≠ k := by
            intro e
            apply hp
            rw [hprev, if_neg (by omega)]
            have : k - 1 = j := by omega
            rw [this]; exact hja
          rw [if_pos (by omega)]
        · rw [if_neg hik] at hji
          subst hji
          rw [if_neg (by omega)]
    · -- the predecessor
      simp only []
      by_cases hn : cc.next = some a
      · rw [if_pos hn, hprev]
        rw [hnext] at hn
        have hjk1 : k + 1 = j := nodup_index_unique l hnd (k + 1) j a hn hja
        have hik : ¬ i < k := by
          intro hik; rw [if_pos hik] at hji; omega
        rw [if_neg hik] at hji
        have hik2 : i = k := by omega
        subst hik2
        by_cases h0 : i = 0
        · rw [if_pos h0, if_pos h0]
        · rw [if_neg h0, if_neg h0, List.getElem?_eraseIdx, if_pos (by omega)]
      · rw [if_neg hn, haprev]
        by_cases hik : i < k
        · rw [if_pos hik] at hji
          subst hji
          by_cases h0 : j = 0
          · rw [if_pos h0, if_pos h0]
          · rw [if_neg h0, if_neg h0, List.getElem?_eraseIdx, if_pos (by omega)]
        · rw [if_neg hik] at hji
          subst hji
          have hne : i ≠ k := by
            intro e
            apply hn
            rw [hnext, ← e]
            exact hja
          rw [if_neg (by omega)]
          by_cases h0 : i = 0
          · omega
          · rw [if_neg h0, List.getElem?_eraseIdx, if_neg (by omega)]
            have : i - 1 + 1 = i + 1 - 1 := by omega
            rw [this]

/-- The registry after an accepted connection: the new record is the head
and the former head points back at it. -/
theorem listen_handler_accepted (ls : Listener) (w : World) (env : AcceptEnv) (a : Nat)
    (hacc : env.afd ≠ -1) (hchk : env.tcpd_check = 0)
    (hrange : ¬ (ls.min_port > env.port ∨ (env.port : Int) > ls.max_port))
    (hm : env.malloc = some a) (hhead : w.client_chain ≠ some a) :
    (auditd_tcp_listen_handler ls w env).1.client_chain = some a
      ∧ ∀ x, (auditd_tcp_listen_handler ls w env).1.heap x =
          if x = a then some { new_client env.afd env.addr env.port with next := w.client_chain }
          else match w.heap x with
            | none => none
            | some cx => some { cx with
                prev := if w.client_chain = some x then some a else cx.prev } := by
  unfold auditd_tcp_listen_handler
  simp only [hacc, hchk, hrange, hm, if_false, ne_eq, not_true_eq_false]
  refine ⟨trivial, fun x => ?_⟩
  refine Eq.trans (hset_prev_apply _ w.client_chain (some a) x) ?_
  by_cases hxa : x = a
  · subst hxa
    rw [hset_eq, if_pos rfl]
    simp only [if_neg hhead]
  · rw [hset_ne _ _ _ _ hxa, if_neg hxa]

/-- A connection that is not accepted leaves the registry as it was. -/
theorem listen_handler_not_accepted (ls : Listener) (w : World) (env : AcceptEnv)
    (h : env.afd = -1 ∨ env.tcpd_check ≠ 0
      ∨ (ls.min_port > env.port ∨ (env.port : Int) > ls.max_port) ∨ env.malloc = none) :
    (auditd_tcp_listen_handler ls w env).1 = w := by
  unfold auditd_tcp_listen_handler
  split
  · rfl
  · split
    · rfl
    · split
      · rfl
      · rename_i h1 h2 h3
        rcases h with h | h | h | h
        · exact absurd h h1
        · exact absurd h h2
        · exact absurd h h3
        · simp only [h]

/-- Head insertion by the acceptor keeps the registry well formed: the chain
becomes the new address followed by the former chain. -/
theorem WF_accept (ls : Listener) (w : World) (l : List Nat) (env : AcceptEnv) (a : Nat)
    (hwf : WF w l) (hacc : env.afd ≠ -1) (hchk : env.tcpd_check = 0)
    (hrange : ¬ (ls.min_port > env.port ∨ (env.port : Int) > ls.max_port))
    (hm : env.malloc = some a) (hfresh : w.heap a = none) :
    WF (auditd_tcp_listen_handler ls w env).1 (a :: l) := by
  have hal : a ∉ l := by
    intro ha
    obtain ⟨c, hc⟩ := WF_heap w l hwf a ha
    rw [hfresh] at hc
    cases hc
  obtain ⟨hnd, hhead, hlinks⟩ := hwf
  have hne : w.client_chain ≠ some a := by
    intro e
    rw [hhead, List.head?_eq_getElem?] at e
    exact hal (List.mem_iff_getElem?.mpr ⟨0, e⟩)
  obtain ⟨h1, h2⟩ := listen_handler_accepted ls w env a hacc hchk hrange hm hne
  refine ⟨List.nodup_cons.mpr ⟨hal, hnd⟩, by rw [h1]; rfl, ?_⟩
  intro i b hi
  cases i with
  | zero =>
    simp only [List.getElem?_cons_zero, Option.some.injEq] at hi
    subst hi
    rw [h2 a, if_pos rfl]
    refine ⟨_, rfl, ?_, ?_⟩
    · simp only [List.getElem?_cons_succ]
      rw [hhead, List.head?_eq_getElem?]
    · rfl
  | succ j =>
    simp only [List.getElem?_cons_succ] at hi
    obtain ⟨cb, hcb, hbn, hbp⟩ := hlinks j b hi
    have hba : b ≠ a := by
      intro e
      subst e
      exact hal (List.mem_iff_getElem?.mpr ⟨j, hi⟩)
    rw [h2 b, if_neg hba, hcb]
    refine ⟨_, rfl, ?_, ?_⟩
    · simp only [List.getElem?_cons_succ]
      exact hbn
    · simp only [Nat.succ_ne_zero, if_false, Nat.add_sub_cancel]
      by_cases hj : j = 0
      · subst hj
        rw [hhead, List.head?_eq_getElem?, if_pos hi]
        simp
      · have hcne : ¬ w.client_chain = some b := by
          intro e
          rw [hhead, List.head?_eq_getElem?] at e
          exact hj (nodup_index_unique l hnd j 0 b hi e)
        rw [if_neg hcne, hbp, if_neg hj]
        obtain ⟨j2, rfl⟩ : ∃ j2, j = j2 + 1 := ⟨j - 1, by omega⟩
        simp

/-- The links of a well-formed registry: the head has no predecessor, and
the neighbours of every member point back at it. -/
theorem WF_links (w : World) (l : List Nat) (hwf : WF w l) :
    l.Nodup
      ∧ (∀ h, w.client_chain = some h → ∃ c, w.heap h = some c ∧ c.prev = none)
      ∧ ∀ x ∈ l, ∃ cx, w.heap x = some cx
          ∧ (∀ y, cx.next = some y → y ∈ l ∧ ∃ cy, w.heap y = some cy ∧ cy.prev = some x)
          ∧ (∀ y, cx.prev = some y → y ∈ l ∧ ∃ cy, w.heap y = some cy ∧ cy.next = some x) := by
  obtain ⟨hnd, hhead, hlinks⟩ := hwf
  refine ⟨hnd, ?_, ?_⟩
  · intro h hh
    rw [hhead, List.head?_eq_getElem?] at hh
    obtain ⟨c, hc, _, hp⟩ := hlinks 0 h hh
    exact ⟨c, hc, by rw [hp, if_pos rfl]⟩
  · intro x hx
    obtain ⟨i, hi⟩ := List.mem_iff_getElem?.mp hx
    obtain ⟨cx, hcx, hn, hp⟩ := hlinks i x hi
    refine ⟨cx, hcx, ?_, ?_⟩
    · intro y hy
      rw [hn] at hy
      obtain ⟨cy, hcy, _, hyp⟩ := hlinks (i + 1) y hy
      refine ⟨List.mem_iff_getElem?.mpr ⟨_, hy⟩, cy, hcy, ?_⟩
      rw [hyp, if_neg (by omega), Nat.add_sub_cancel]
      exact hi
    · intro y hy
      rw [hp] at hy
      by_cases h0 : i = 0
      · rw [if_pos h0] at hy; cases hy
      · rw [if_neg h0] at hy
        obtain ⟨cy, hcy, hyn, _⟩ := hlinks (i - 1) y hy
        refine ⟨List.mem_iff_getElem?.mpr ⟨_, hy⟩, cy, hcy, ?_⟩
        rw [hyn]
        have : i - 1 + 1 = i := by omega
        rw [this]
        exact hi

/-- A forward traversal of a well-formed registry from the member at
position `k` visits the members from that position on, in order. -/
theorem WF_traverse (w : World) (l : List Nat) (hwf : WF w l) :
    ∀ (n k : Nat), traverse w.heap n l[k]? = (l.drop k).take n := by
  intro n
  induction n with
  | zero => intro k; simp [traverse]
  | succ n ih =>
    intro k
    cases hk : l[k]? with
    | none =>
      have : l.length ≤ k := by
        by_contra hlt
        rw [List.getElem?_eq_getElem (by omega)] at hk
        cases hk
      simp [traverse, List.drop_eq_nil_of_le this]
    | some a =>
      obtain ⟨c, hc, hn, _⟩ := hwf.2.2 k a hk
      have hlt : k < l.length := (List.getElem?_eq_some.mp hk).1
      have hd : l.drop k = a :: l.drop (k + 1) := by
        rw [List.drop_eq_getElem_cons hlt]
        congr 1
        exact (List.getElem?_eq_some.mp hk).2
      simp only [traverse, hc]
      rw [hn, ih (k + 1), hd, List.take_succ_cons]

theorem drop_eraseIdx_self (l : List Nat) (k : Nat) : (l.eraseIdx k).drop k = l.drop (k + 1) := by
  apply List.ext_getElem?
  intro i
  rw [List.getElem?_drop, List.getElem?_drop, List.getElem?_eraseIdx, if_neg (by omega)]
  congr 1
  omega

/-- The contents of a record may change without harm to the registry as
long as its links stay. -/
theorem WF_hset (w : World) (l : List Nat) (b : Nat) (io io2 : ev_tcp) (hwf : WF w l)
    (hb : w.heap b = some io) (hn : io2.next = io.next) (hp : io2.prev = io.prev) :
    WF { w with heap := hset w.heap b (some io2) } l := by
  obtain ⟨hnd, hhead, hlinks⟩ := hwf
  refine ⟨hnd, hhead, ?_⟩
  intro i a hi
  obtain ⟨c, hc, hcn, hcp⟩ := hlinks i a hi
  by_cases hab : a = b
  · subst hab
    rw [hb] at hc
    simp only [Option.some.injEq] at hc
    subst hc
    exact ⟨io2, hset_eq _ _ _, hn.trans hcn, hp.trans hcp⟩
  · exact ⟨c, (hset_ne _ _ _ _ hab).trans hc, hcn, hcp⟩

/-- The registry without connections is well formed. -/
theorem WF_registry0 : WF registry0 [] :=
  ⟨List.nodup_nil, rfl, fun i a h => by simp at h⟩

/-- The sample registry is well formed, the latest connection first. -/
theorem WF_registry3 : WF registry3 [9, 8, 7] := by
  have h1 := WF_accept listener3 registry0 [] (accept_at 10 7) 7 WF_registry0
    (by decide) rfl (by decide) rfl rfl
  have h2 := WF_accept listener3 _ [7] (accept_at 11 8) 8 h1 (by decide) rfl (by decide) rfl rfl
  exact WF_accept listener3 _ [8, 7] (accept_at 12 9) 9 h2 (by decide) rfl (by decide) rfl rfl

theorem peer_close_client (w : World) (c x : Nat) (hx : x ≠ c) :
    peer (close_client w c).1 x = peer w x ∧ sock (close_client w c).1 x = sock w x
      ∧ flag (close_client w c).1 x = flag w x := by
  cases hc : w.heap c with
  | none =>
    have : close_client w c = (w, []) := by unfold close_client; simp only [hc]
    rw [this]
    exact ⟨rfl, rfl, rfl⟩
  | some cc =>
    unfold peer sock flag
    rw [close_client_heap w c cc hc x, if_neg hx]
    cases w.heap x <;> exact ⟨rfl, rfl, rfl⟩

theorem close_client_none (w : World) (c x : Nat) (hx : w.heap x = none) :
    (close_client w c).1.heap x = none := by
  cases hc : w.heap c with
  | none =>
    have : close_client w c = (w, []) := by unfold close_client; simp only [hc]
    rw [this]
    exact hx
  | some cc =>
    rw [close_client_heap w c cc hc x, hx]
    split <;> rfl

theorem close_events_congr (w w2 : World) :
    ∀ (l : List Nat), (∀ x ∈ l, peer w2 x = peer w x ∧ sock w2 x = sock w x) →
      close_events w2 l = close_events w l := by
  intro l
  induction l with
  | nil => intro _; rfl
  | cons a t ih =>
    intro h
    obtain ⟨h1, h2⟩ := h a (List.mem_cons_self a t)
    simp only [close_events, h1, h2, ih (fun x hx => h x (List.mem_cons_of_mem a hx))]

/-- The loop of `auditd_tcp_listen_uninit` on a well-formed registry closes
the members in chain order and ends with an empty chain. -/
theorem close_all_WF :
    ∀ (l : List Nat) (w : World) (fuel : Nat), WF w l → l.length ≤ fuel →
      ∃ t, close_all fuel w = some t ∧ t.1.client_chain = none
        ∧ (∀ x, x ∈ l ∨ w.heap x = none → t.1.heap x = none)
        ∧ t.2 = close_events w l := by
  intro l
  induction l with
  | nil =>
    intro w fuel hwf _
    have hc : w.client_chain = none := hwf.2.1
    refine ⟨(w, []), ?_, hc, ?_, rfl⟩
    · cases fuel <;> simp [close_all, hc]
    · intro x hx
      rcases hx with hx | hx
      · cases hx
      · exact hx
  | cons a t ih =>
    intro w fuel hwf hfu
    cases fuel with
    | zero => simp at hfu
    | succ fuel =>
      have hc : w.client_chain = some a := hwf.2.1
      have hmem : a ∈ a :: t := List.mem_cons_self a t
      obtain ⟨ca, hca⟩ := WF_heap w _ hwf a hmem
      have hwf2 := WF_close_client w (a :: t) a hwf hmem
      rw [List.erase_cons_head] at hwf2
      have hat : a ∉ t := (List.nodup_cons.mp hwf.1).1
      obtain ⟨t2, ht2, hchain, hnone, hev⟩ := ih (close_client w a).1 fuel hwf2
        (by simp only [List.length_cons] at hfu; omega)
      refine ⟨(t2.1, (close_client w a).2 ++ t2.2), ?_, hchain, ?_, ?_⟩
      · simp only [close_all, hc, ht2]
      · intro x hx
        rcases hx with hx | hx
        · rcases List.mem_cons.mp hx with hx | hx
          · subst hx
            exact hnone _ (Or.inr (close_client_of w x ca hca).2.1)
          · exact hnone x (Or.inl hx)
        · exact hnone x (Or.inr (close_client_none w a x hx))
      · simp only []
        rw [hev, (close_client_of w a ca hca).1]
        have hcong := close_events_congr w (close_client w a).1 t (fun x hx => by
          have hxa : x ≠ a := fun e => hat (e ▸ hx)
          exact ⟨(peer_close_client w a x hxa).1, (peer_close_client w a x hxa).2.1⟩)
        rw [hcong]
        simp only [close_events, peer, sock, hca, List.cons_append, List.nil_append]

theorem close_events_records (w : World) (l : List Nat) :
    close_records ((close_events w l).map LEv.conn) = l.map (peer w)
      ∧ closes ((close_events w l).map LEv.conn) = l.map (sock w)
      ∧ frees ((close_events w l).map LEv.conn) = l := by
  induction l with
  | nil => exact ⟨rfl, rfl, rfl⟩
  | cons a t ih =>
    obtain ⟨h1, h2, h3⟩ := ih
    simp [close_events, close_records, closes, frees, h1, h2, h3]

/-! ## The idle scan -/

theorem idle_reports_congr (w w2 : World) :
    ∀ (l : List Nat), (∀ x ∈ l, w2.heap x = w.heap x) → idle_reports w2 l = idle_reports w l := by
  intro l
  induction l with
  | nil => intro _; rfl
  | cons a t ih =>
    intro h
    simp only [idle_reports, h a (List.mem_cons_self a t),
      ih (fun x hx => h x (List.mem_cons_of_mem a hx))]

/-- The reports of a scan name the members whose flag is clear, with their
peers. -/
theorem mem_idle_reports (w : World) :
    ∀ (l : List Nat), (∀ x ∈ l, ∃ c, w.heap x = some c) →
      ∀ (e : LEv), e ∈ idle_reports w l ↔
        ∃ x, x ∈ l ∧ flag w x = 0 ∧ e = LEv.log (Log.idle x (peer w x).1 (peer w x).2) := by
  intro l
  induction l with
  | nil => intro _ e; simp [idle_reports]
  | cons a t ih =>
    intro h e
    obtain ⟨c, hc⟩ := h a (List.mem_cons_self a t)
    have iht := ih (fun x hx => h x (List.mem_cons_of_mem a hx)) e
    simp only [idle_reports, hc]
    by_cases hact : c.client_active ≠ 0
    · rw [if_pos hact, iht]
      constructor
      · rintro ⟨x, hx, hf, he⟩
        exact ⟨x, List.mem_cons_of_mem a hx, hf, he⟩
      · rintro ⟨x, hx, hf, he⟩
        rcases List.mem_cons.mp hx with hx | hx
        · subst hx
          simp only [flag, hc] at hf
          exact absurd hf hact
        · exact ⟨x, hx, hf, he⟩
    · rw [if_neg hact, List.mem_cons, iht]
      have h0 : c.client_active = 0 := not_not.mp hact
      constructor
      · rintro (he | ⟨x, hx, hf, he⟩)
        · refine ⟨a, List.mem_cons_self a t, ?_, ?_⟩
          · simp only [flag, hc, h0]
          · simp only [peer, hc]; exact he
        · exact ⟨x, List.mem_cons_of_mem a hx, hf, he⟩
      · rintro ⟨x, hx, hf, he⟩
        rcases List.mem_cons.mp hx with hx | hx
        · subst hx
          left
          simp only [peer, hc] at he
          exact he
        · exact Or.inr ⟨x, hx, hf, he⟩

/-- The loop of the scan along a chain of `next` links: every record of the
chain gets its flag cleared, the others are untouched, and the reports are
those of the records whose flag was clear. -/
theorem check_idle_loop_chain :
    ∀ (l : List Nat) (heap : Nat → Option ev_tcp) (start : Option Nat) (fuel : Nat),
      l.Nodup → start = l.head? →
      (∀ i a, l[i]? = some a → ∃ c, heap a = some c ∧ c.next = l[i + 1]?) →
      l.length ≤ fuel →
      ∃ t, check_idle_loop fuel heap start = some t
        ∧ (∀ x, t.1 x = if x ∈ l then (heap x).map (fun c => { c with client_active := 0 })
            else heap x)
        ∧ t.2 = idle_reports { client_chain := start, heap := heap } l := by
  intro l
  induction l with
  | nil =>
    intro heap start fuel _ hs _ _
    simp only [List.head?_nil] at hs
    subst hs
    refine ⟨(heap, []), ?_, fun x => by simp, rfl⟩
    cases fuel <;> rfl
  | cons a t ih =>
    intro heap start fuel hnd hs hl hfu
    simp only [List.head?_cons] at hs
    subst hs
    cases fuel with
    | zero => simp at hfu
    | succ fuel =>
      obtain ⟨c, hc, hcn⟩ := hl 0 a (by simp)
      have hat : a ∉ t := (List.nodup_cons.mp hnd).1
      obtain ⟨t2, ht2, hheap, hev⟩ := ih (hset heap a (some { c with client_active := 0 })) c.next
        fuel (List.nodup_cons.mp hnd).2
        (by rw [hcn, List.head?_eq_getElem?]; simp)
        (fun i b hb => by
          obtain ⟨cb, hcb, hbn⟩ := hl (i + 1) b (by simpa using hb)
          have hba : b ≠ a := fun e => hat (e ▸ List.mem_iff_getElem?.mpr ⟨i, hb⟩)
          exact ⟨cb, (hset_ne _ _ _ _ hba).trans hcb, by simpa using hbn⟩)
        (by simp only [List.length_cons] at hfu; omega)
      have hev2 : t2.2 = idle_reports { client_chain := some a, heap := heap } t := by
        rw [hev]
        exact idle_reports_congr _ _ t (fun x hx => hset_ne _ _ _ _ (fun e => hat (e ▸ hx)))
      have hheap2 : ∀ x, t2.1 x = if x ∈ a :: t then
          (heap x).map (fun c => { c with client_active := 0 }) else heap x := by
        intro x
        rw [hheap x]
        by_cases hxa : x = a
        · subst hxa
          rw [if_neg hat, if_pos (List.mem_cons_self x t), hset_eq, hc]
          rfl
        · rw [hset_ne _ _ _ _ hxa]
          simp only [List.mem_cons, hxa, false_or]
      by_cases hact : c.client_active ≠ 0
      · refine ⟨t2, ?_, hheap2, ?_⟩
        · simp only [check_idle_loop, hc, ht2, if_pos hact]
        · simp only [idle_reports, hc, if_pos hact]
          exact hev2
      · refine ⟨(t2.1, LEv.log (Log.idle a c.addr c.port) :: t2.2), ?_, hheap2, ?_⟩
        · simp only [check_idle_loop, hc, ht2, if_neg hact]
        · simp only [idle_reports, hc, if_neg hact, hev2]

/-- One scan of a well-formed registry. -/
theorem check_idle_WF (w : World) (l : List Nat) (fuel : Nat) (hwf : WF w l)
    (hfuel : l.length ≤ fuel) :
    ∃ w1, auditd_tcp_listen_check_idle fuel w = some (w1, idle_reports w l)
      ∧ WF w1 l ∧ (∀ x ∈ l, flag w1 x = 0)
      ∧ (∀ x, (w1.heap x).isSome = (w.heap x).isSome) := by
  obtain ⟨t, ht, hheap, hev⟩ := check_idle_loop_chain l w.heap w.client_chain fuel hwf.1 hwf.2.1
    (fun i a hi => by
      obtain ⟨c, hc, hn, _⟩ := hwf.2.2 i a hi
      exact ⟨c, hc, hn⟩) hfuel
  refine ⟨{ w with heap := t.1 }, ?_, ⟨hwf.1, hwf.2.1, ?_⟩, ?_, ?_⟩
  · unfold auditd_tcp_listen_check_idle
    simp only [ht, hev]
  · intro i a hi
    obtain ⟨c, hc, hn, hp⟩ := hwf.2.2 i a hi
    refine ⟨{ c with client_active := 0 }, ?_, hn, hp⟩
    simp only []
    rw [hheap a, if_pos (List.mem_iff_getElem?.mpr ⟨i, hi⟩), hc]
    rfl
  · intro x hx
    obtain ⟨c, hc⟩ := WF_heap w l hwf x hx
    simp only [flag]
    rw [hheap x, if_pos hx, hc]
    rfl
  · intro x
    simp only []
    rw [hheap x]
    split
    · cases w.heap x <;> rfl
    · rfl

/-! ## Between two scans -/

/-- The two outcomes of the handler on the global state. -/
theorem handler_world (p : Proto) (fuel : Nat) (w : World) (b : Nat) (reads : List ReadRes)
    (ws : List WriteRes) (r : World × List Ev × List ReadRes × List WriteRes)
    (h : auditd_tcp_client_handler p fuel w b reads ws = some r) :
    ∃ io res, w.heap b = some io ∧ client_handler p fuel io reads ws = some res
      ∧ ((res.closed = true
            ∧ r.1 = (close_client { w with heap := hset w.heap b (some res.io) } b).1)
          ∨ (res.closed = false ∧ r.1 = { w with heap := hset w.heap b (some res.io) }
            ∧ r.2.1 = res.evs)) := by
  unfold auditd_tcp_client_handler at h
  cases hb : w.heap b with
  | none => simp [hb] at h
  | some io =>
    simp only [hb] at h
    cases hres : client_handler p fuel io reads ws with
    | none => simp [hres] at h
    | some res =>
      simp only [hres] at h
      refine ⟨io, res, rfl, hres, ?_⟩
      cases hcl : res.closed with
      | true =>
        simp only [hcl, if_true, Option.some.injEq] at h
        subst h
        exact Or.inl ⟨rfl, rfl⟩
      | false =>
        simp only [hcl, Bool.false_eq_true, if_false, Option.some.injEq] at h
        subst h
        exact Or.inr ⟨rfl, rfl, rfl⟩

theorem close_client_some (w : World) (c : Nat) (cc : ev_tcp) (h : w.heap c = some cc)
    (x : Nat) (cx : ev_tcp) (hx : (close_client w c).1.heap x = some cx) :
    x ≠ c ∧ ∃ c0, w.heap x = some c0 := by
  rw [close_client_heap w c cc h x] at hx
  by_cases hxc : x = c
  · rw [if_pos hxc] at hx; cases hx
  · rw [if_neg hxc] at hx
    cases hwx : w.heap x with
    | none => rw [hwx] at hx; cases hx
    | some c0 => exact ⟨hxc, c0, rfl⟩

/-- A run keeps the registry well formed with every allocated record
registered; a member that no callback closes stays a member, and its flag is
set exactly when bytes were received on it. -/
theorem run_inv (p : Proto) (fuel : Nat) (ls : Listener) :
    ∀ (ops : List Op) (w : World) (l : List Nat) (w2 : World) (tr : List (Nat × Bool × List Ev)),
      WF w l → (∀ x c, w.heap x = some c → x ∈ l) → run p fuel ls w ops = some (w2, tr) →
      ∃ l2, WF w2 l2 ∧ (∀ x c, w2.heap x = some c → x ∈ l2)
        ∧ ∀ a ∈ l, (∀ e ∈ tr, e.1 = a → e.2.1 = false) →
            a ∈ l2 ∧ flag w2 a = (if received a tr = 0 then flag w a else 1) := by
  intro ops
  induction ops with
  | nil =>
    intro w l w2 tr hwf hreg hrun
    simp only [run, Option.some.injEq, Prod.mk.injEq] at hrun
    obtain ⟨h1, h2⟩ := hrun
    subst h1 h2
    exact ⟨l, hwf, hreg, fun a ha _ => ⟨ha, by simp [received]⟩⟩
  | cons op ops ih =>
    intro w l w2 tr hwf hreg hrun
    cases op with
    | callback b reads ws =>
      simp only [run] at hrun
      cases hh : auditd_tcp_client_handler p fuel w b reads ws with
      | none => simp [hh] at hrun
      | some r =>
        simp only [hh] at hrun
        cases hr : run p fuel ls r.1 ops with
        | none => simp [hr] at hrun
        | some t =>
          simp only [hr, Option.some.injEq, Prod.mk.injEq] at hrun
          obtain ⟨hw2, htr⟩ := hrun
          obtain ⟨io, res, hio, hres, hcase⟩ := handler_world p fuel w b reads ws r hh
          obtain ⟨_, _, _, hnext, hprev, hact, hbytes⟩ := client_handler_record p fuel io reads ws res hres
          have hbl : b ∈ l := hreg b io hio
          have hwf1 : WF { w with heap := hset w.heap b (some res.io) } l :=
            WF_hset w l b io res.io hwf hio hnext hprev
          rcases hcase with ⟨hcl, hr1⟩ | ⟨hcl, hr1, hevs⟩
          · -- the callback closed the connection
            have hwf2 : WF r.1 (l.erase b) := by
              rw [hr1]; exact WF_close_client _ l b hwf1 hbl
            have hb1 : ({ w with heap := hset w.heap b (some res.io) } : World).heap b
                = some res.io := hset_eq _ _ _
            have hreg2 : ∀ x c, r.1.heap x = some c → x ∈ l.erase b := by
              intro x c hx
              rw [hr1] at hx
              obtain ⟨hxb, c0, hc0⟩ := close_client_some _ b res.io hb1 x c hx
              simp only [hset_ne _ _ _ _ hxb] at hc0
              exact (List.Nodup.mem_erase_iff hwf.1).mpr ⟨hxb, hreg x c0 hc0⟩
            obtain ⟨l2, hwfl2, hregl2, hflag⟩ := ih r.1 (l.erase b) t.1 t.2 hwf2 hreg2
              (by rw [hr])
            refine ⟨l2, hw2 ▸ hwfl2, hw2 ▸ hregl2, ?_⟩
            intro a ha hno
            have hbnone : r.1.heap b = none := by
              rw [hr1]; exact (close_client_of _ b res.io hb1).2.1
            have hab : a ≠ b := by
              intro e
              have := hno (b, (r.1.heap b).isNone, r.2.1) (by rw [← htr]; exact List.mem_cons_self _ _)
                e.symm
              simp [hbnone] at this
            obtain ⟨h1, h2⟩ := hflag a ((List.Nodup.mem_erase_iff hwf.1).mpr ⟨hab, ha⟩)
              (fun e he => hno e (by rw [← htr]; exact List.mem_cons_of_mem _ he))
            have hfl : flag r.1 a = flag w a := by
              rw [hr1, (peer_close_client _ b a hab).2.2]
              simp only [flag, hset_ne _ _ _ _ hab]
            have hrec : received a tr = received a t.2 := by
              rw [← htr]
              simp only [received, if_neg (Ne.symm hab), Nat.zero_add]
            rw [← hw2, hrec, ← hfl]
            exact ⟨h1, h2⟩
          · -- the callback returned with the connection open
            have hreg2 : ∀ x c, r.1.heap x = some c → x ∈ l := by
              intro x c hx
              rw [hr1] at hx
              by_cases hxb : x = b
              · rw [hxb]; exact hbl
              · simp only [hset_ne _ _ _ _ hxb] at hx
                exact hreg x c hx
            obtain ⟨l2, hwfl2, hregl2, hflag⟩ := ih r.1 l t.1 t.2 (hr1 ▸ hwf1) hreg2 (by rw [hr])
            refine ⟨l2, hw2 ▸ hwfl2, hw2 ▸ hregl2, ?_⟩
            intro a ha hno
            obtain ⟨h1, h2⟩ := hflag a ha
              (fun e he => hno e (by rw [← htr]; exact List.mem_cons_of_mem _ he))
            rw [← hw2]
            refine ⟨h1, ?_⟩
            rw [h2, ← htr]
            by_cases hab : a = b
            · subst hab
              have hfl : flag r.1 a = 1 := by
                rw [hr1]
                simp only [flag, hset_eq, hact]
              have hpos : 0 < bytes_read r.2.1 := by rw [hevs]; exact hbytes hcl
              have hne : received a ((a, (r.1.heap a).isNone, r.2.1) :: t.2) ≠ 0 := by
                simp only [received, if_true]
                omega
              rw [hfl, if_neg hne]
              split <;> rfl
            · have hfl : flag r.1 a = flag w a := by
                rw [hr1]
                simp only [flag, hset_ne _ _ _ _ hab]
              have hrec : received a ((b, (r.1.heap b).isNone, r.2.1) :: t.2)
                  = received a t.2 := by
                simp only [received, if_neg (Ne.symm hab), Nat.zero_add]
              rw [hfl, hrec]
    | accept env =>
      have hrun2 : run p fuel ls (auditd_tcp_listen_handler ls w env).1 ops = some (w2, tr)
          ∧ ∀ a, env.malloc = some a → w.heap a = none := by
        simp only [run] at hrun
        cases hm : env.malloc with
        | none =>
          simp only [hm] at hrun
          exact ⟨hrun, fun a ha => by cases ha⟩
        | some a0 =>
          simp only [hm] at hrun
          cases hh : w.heap a0 with
          | some c => simp [hh] at hrun
          | none =>
            simp only [hh, Option.isSome_none, Bool.false_eq_true, if_false] at hrun
            refine ⟨hrun, fun a ha => ?_⟩
            simp only [Option.some.injEq] at ha
            subst ha
            exact hh
      obtain ⟨hrun3, hfresh⟩ := hrun2
      by_cases hacc : env.afd ≠ -1 ∧ env.tcpd_check = 0
          ∧ ¬ (ls.min_port > env.port ∨ (env.port : Int) > ls.max_port) ∧ env.malloc ≠ none
      · obtain ⟨h1, h2, h3, h4⟩ := hacc
        obtain ⟨a0, ha0⟩ := Option.ne_none_iff_exists'.mp h4
        have hf0 := hfresh a0 ha0
        have hwf2 := WF_accept ls w l env a0 hwf h1 h2 h3 ha0 hf0
        have hne : w.client_chain ≠ some a0 := by
          intro e
          obtain ⟨_, hhd, _⟩ := WF_links w l hwf
          obtain ⟨c, hc, _⟩ := hhd a0 e
          rw [hf0] at hc
          cases hc
        obtain ⟨_, hheap⟩ := listen_handler_accepted ls w env a0 h1 h2 h3 ha0 hne
        have hreg2 : ∀ x c, (auditd_tcp_listen_handler ls w env).1.heap x = some c →
            x ∈ a0 :: l := by
          intro x c hx
          by_cases hxa : x = a0
          · rw [hxa]; exact List.mem_cons_self _ _
          · rw [hheap x, if_neg hxa] at hx
            cases hwx : w.heap x with
            | none => rw [hwx] at hx; cases hx
            | some cx => exact List.mem_cons_of_mem _ (hreg x cx hwx)
        obtain ⟨l2, hwfl2, hregl2, hflag⟩ := ih _ (a0 :: l) w2 tr hwf2 hreg2 hrun3
        refine ⟨l2, hwfl2, hregl2, ?_⟩
        intro a ha hno
        obtain ⟨g1, g2⟩ := hflag a (List.mem_cons_of_mem _ ha) hno
        refine ⟨g1, ?_⟩
        rw [g2]
        have hxa : a ≠ a0 := by
          intro e
          obtain ⟨c, hc⟩ := WF_heap w l hwf a ha
          rw [e, hf0] at hc
          cases hc
        have hfl : flag (auditd_tcp_listen_handler ls w env).1 a = flag w a := by
          simp only [flag]
          rw [hheap a, if_neg hxa]
          cases w.heap a <;> rfl
        rw [hfl]
      · have hw : (auditd_tcp_listen_handler ls w env).1 = w := by
          apply listen_handler_not_accepted
          by_contra hcon
          apply hacc
          simp only [not_or] at hcon
          exact ⟨hcon.1, not_not.mp hcon.2.1, by simpa [not_or] using hcon.2.2.1, hcon.2.2.2⟩
        rw [hw] at hrun3
        exact ih w l w2 tr hwf hreg hrun3

/-! ## The reads of one invocation -/

/-- C1: the deliveries depend on how the stream is cut into reads. The four
bytes `a LF b LF` in one read are delivered as `a` and the empty string; the
same bytes in two reads `a LF` and `b LF` are delivered as `a` and `b`. -/
theorem C1_split_changes_deliveries :
    (callbacks rmw 2 3 (new_client 5 1 2) [ReadRes.data [97, 10, 98, 10]] []).map
        (fun r => deliveries r.evs) = some [([97], 0, 0), ([], 0, 0)]
      ∧ (callbacks rmw 2 3 (new_client 5 1 2) [ReadRes.data [97, 10], ReadRes.data [98, 10]] []).map
        (fun r => deliveries r.evs) = some [([97], 0, 0), ([98], 0, 0)] := by
  constructor <;> decide

/-! ## C2 -/

/-- C2: two legacy messages `a LF` and `b LF` in one read on a fresh connection
give two deliveries, but the second payload is empty rather than `b`: the
store `header[length] = 0` of the legacy branch of `client_message` has
overwritten the first byte of the second message before the compaction. -/
theorem C2_second_message_clobbered :
    (client_handler rmw 2 (new_client 5 1 2) [ReadRes.data [97, 10, 98, 10]] []).map
        (fun r => deliveries r.evs) = some [([97], 0, 0), ([], 0, 0)] := by
  decide

/-! ## C3 -/

/-- C3: complete binary non-heartbeat envelopes (payloads without NUL and not
ending in a line-feed) that arrive back-to-back in a single read on a fresh
connection are delivered one message per envelope, in stream order, each with
its payload (header stripped), the connection's socket and its sequence
number; nothing is written back and `bufptr` is 0 afterwards. -/
theorem C3_binary_envelopes_single_read (p : Proto) (hs : Sane p) (es : List Envelope)
    (hall : ∀ e ∈ es, e.Complete p ∧ e.Text ∧ e.type p ≠ p.AUDIT_RMW_TYPE_HEARTBEAT)
    (hmax : (stream es).length ≤ p.MAX_AUDIT_MESSAGE_LENGTH)
    (fd : Int) (addr port : Nat) (ws : List WriteRes) (fuel : Nat) (hfu : es.length ≤ fuel) :
    ∃ res, client_handler p fuel (new_client fd addr port) [ReadRes.data (stream es)] ws = some res
      ∧ deliveries res.evs = es.map (fun e => (e.payload, fd, e.seq p))
      ∧ writes res.evs = []
      ∧ res.io.bufptr = 0 := by
  have hcnt : size_t ((p.MAX_AUDIT_MESSAGE_LENGTH : Int) - 0) = p.MAX_AUDIT_MESSAGE_LENGTH := by
    rw [size_t_of_nonneg _ (by omega) (by have := hs.2.2; omega)]
    omega
  have htake : (stream es).take p.MAX_AUDIT_MESSAGE_LENGTH = stream es :=
    List.take_of_length_le hmax
  unfold client_handler read_more
  simp only [new_client, hcnt, htake, Int.toNat_zero]
  by_cases hes : es = []
  · subst hes
    simp [stream, close_path, deliveries, writes]
  · have hpos : 0 < (stream es).length := by
      apply List.length_pos.mpr
      intro h
      exact hes (stream_eq_nil p hs es (fun x hx => (hall x hx).1) h)
    rw [if_neg (by omega), if_neg (by omega)]
    obtain ⟨t, hteq, hta, ht0, htw, htf, htd, htwr⟩ := more_messages_stream p hs es
      { fd := fd, addr := addr, port := port, next := none, prev := none, bufptr := 0,
        client_active := 1, buffer := bwrite (fun _ => 0) 0 (stream es) }
      ws fuel hes hall rfl (bwrite_bytes_at _ _) hmax hfu
    rw [hteq]
    simp only [hta, if_true]
    unfold read_more
    simp only []
    rw [if_pos (by omega)]
    refine ⟨_, rfl, ?_, ?_, ht0⟩
    · simp only []
      rw [show ∀ (a : Ev) (l1 l2 : List Ev), a :: l1 ++ l2 = [a] ++ l1 ++ l2 from fun _ _ _ => rfl,
        deliveries_append, deliveries_append, htd]
      simp [deliveries]
    · simp only []
      rw [show ∀ (a : Ev) (l1 l2 : List Ev), a :: l1 ++ l2 = [a] ++ l1 ++ l2 from fun _ _ _ => rfl,
        writes_append, writes_append, htwr]
      simp [writes]

/-- C3 at a concrete input: the envelopes `env_a` and `env_b` in one read. -/
theorem C3_witness :
    ∃ res, client_handler rmw 2 (new_client 5 1 2) [ReadRes.data (stream [env_a, env_b])] []
        = some res
      ∧ deliveries res.evs = [env_a, env_b].map (fun e => (e.payload, (5 : Int), e.seq rmw))
      ∧ writes res.evs = [] ∧ res.io.bufptr = 0 :=
  C3_binary_envelopes_single_read rmw rmw_sane [env_a, env_b]
    (by
      intro e he
      simp only [List.mem_cons, List.mem_singleton, List.not_mem_nil, or_false] at he
      rcases he with rfl | rfl
      · exact ⟨⟨by decide, by decide, by decide⟩, ⟨by decide, by decide⟩, by decide⟩
      · exact ⟨⟨by decide, by decide, by decide⟩, ⟨by decide, by decide⟩, by decide⟩)
    (by decide) 5 1 2 [] 2 (by decide)

/-! ## C4 -/

/-- C4: a complete heartbeat envelope with sequence number `s` at the start of
the buffered bytes (`bufptr` old bytes and `r` new ones) is not handed to the
downstream consumer; its dispatch makes the writes of exactly one `ar_write`
call of the acknowledgement header (ack type, length 0, sequence `s`) on the
connection's socket, the first write offering the whole header and, on a
socket that accepts it, the only one; these events precede everything the
loop does with the bytes buffered after the envelope. -/
theorem C4_heartbeat_ack (p : Proto) (hs : Sane p) (io : ev_tcp) (ws : List WriteRes)
    (e : Envelope) (hc : e.Complete p) (hty : e.type p = p.AUDIT_RMW_TYPE_HEARTBEAT)
    (rest : List Nat) (r : Int) (hn : io.bufptr + r = ((e.bytes ++ rest).length : Int))
    (hb : bytes_at io.buffer 0 (e.bytes ++ rest).length = e.bytes ++ rest)
    (hmax : (e.bytes ++ rest).length ≤ p.MAX_AUDIT_MESSAGE_LENGTH) (fuel : Nat) :
    ∃ (pre : List Ev) (io2 : ev_tcp),
      deliveries pre = []
      ∧ writes pre = (ar_write ws io.fd
          (p.AUDIT_RMW_PACK_HEADER 0 p.AUDIT_RMW_TYPE_ACK 0 (e.seq p)) p.AUDIT_RMW_HEADER_SIZE).2.1
      ∧ (writes pre).head? = some (Ev.write io.fd
          ((p.AUDIT_RMW_PACK_HEADER 0 p.AUDIT_RMW_TYPE_ACK 0 (e.seq p)).take p.AUDIT_RMW_HEADER_SIZE))
      ∧ (ws = [] → writes pre = [Ev.write io.fd
          ((p.AUDIT_RMW_PACK_HEADER 0 p.AUDIT_RMW_TYPE_ACK 0 (e.seq p)).take p.AUDIT_RMW_HEADER_SIZE)])
      ∧ io2.bufptr = 0 ∧ io2.fd = io.fd ∧ bytes_at io2.buffer 0 rest.length = rest
      ∧ more_messages p (fuel + 1) io r ws =
        if rest = [] then
          some { io := io2, evs := pre,
                 ws := (ar_write ws io.fd (p.AUDIT_RMW_PACK_HEADER 0 p.AUDIT_RMW_TYPE_ACK 0 (e.seq p))
                   p.AUDIT_RMW_HEADER_SIZE).2.2,
                 again := true }
        else
          match more_messages p fuel io2 rest.length
            (ar_write ws io.fd (p.AUDIT_RMW_PACK_HEADER 0 p.AUDIT_RMW_TYPE_ACK 0 (e.seq p))
              p.AUDIT_RMW_HEADER_SIZE).2.2 with
          | none => none
          | some t => some { t with evs := pre ++ t.evs } := by
  have hl2 : (e.bytes ++ rest).length = e.bytes.length + rest.length := List.length_append _ _
  have hbe : bytes_at io.buffer 0 e.bytes.length = e.bytes := by
    rw [bytes_at_take io.buffer _ _ hb (by omega)]
    simp
  obtain ⟨hd, hw, hws⟩ := client_message_heartbeat p hs
    { io with bufptr := io.bufptr + r } ws e hc hty hbe
  obtain ⟨io2, h20, h2f, h2b, heq⟩ := more_messages_envelope p hs io r ws e hc rest hn hb hmax fuel
  simp only [] at hw hws
  have hpos : (0 : Int) < (p.AUDIT_RMW_HEADER_SIZE : Int) := by have := hs.1; omega
  have hhead := ar_write_head ws io.fd
    (p.AUDIT_RMW_PACK_HEADER 0 p.AUDIT_RMW_TYPE_ACK 0 (e.seq p)) p.AUDIT_RMW_HEADER_SIZE 0 hpos
  simp only [Int.toNat_ofNat] at hhead
  refine ⟨(client_message p { io with bufptr := io.bufptr + r }
      e.bytes.length ws).2.1 ++ [Ev.memmove e.bytes.length (e.bytes ++ rest).length], io2,
    ?_, ?_, ?_, ?_, h20, h2f, h2b, ?_⟩
  · rw [deliveries_append, hd]; rfl
  · rw [writes_append, hw]; simp [writes]
  · rw [writes_append, hw]
    simp only [writes, List.append_nil]
    exact hhead
  · intro hws0
    subst hws0
    rw [writes_append, hw]
    simp only [writes, List.append_nil, ar_write, ar_write_loop, if_pos hpos, Int.toNat_ofNat]
  · rw [heq, hws]

/-- C4 at a concrete input: the heartbeat `env_hb`, sequence 7, alone in the buffer,
on a socket that accepts the write. -/
theorem C4_witness :
    ∃ pre : List Ev, deliveries pre = []
      ∧ writes pre = [Ev.write 5 ((rmw.AUDIT_RMW_PACK_HEADER 0 rmw.AUDIT_RMW_TYPE_ACK 0 7).take 16)]
      ∧ (more_messages rmw 1 conn_hb 16 []).map (fun t => (t.evs, t.again)) = some (pre, true) := by
  obtain ⟨pre, io2, h1, _, _, h4, _, _, _, h8⟩ := C4_heartbeat_ack rmw rmw_sane conn_hb []
    env_hb ⟨by decide, by decide, by decide⟩ (by decide) [] 16 (by decide) (by decide)
    (by decide) 0
  refine ⟨pre, h1, h4 rfl, ?_⟩
  rw [h8]
  rfl

/-! ## C5 -/

/-- C5, as stated, fails: a header that declares 65535 payload bytes (more than
the buffer holds) followed by two payload bytes is not rejected; the handler
returns with the connection open and 18 bytes buffered, and when the peer then
closes, the two bytes are delivered downstream with the envelope's sequence
number. -/
theorem C5_counterexample :
    cap rmw < rmw.AUDIT_RMW_HEADER_SIZE + (rmw.AUDIT_RMW_UNPACK_HEADER hdr_big).len
      ∧ (client_handler rmw 2 (new_client 5 1 2) [ReadRes.data (hdr_big ++ [65, 66])] []).map
          (fun r => (r.closed, r.io.bufptr, deliveries r.evs)) = some (false, 18, [])
      ∧ (callbacks rmw 2 3 (new_client 5 1 2)
            [ReadRes.data (hdr_big ++ [65, 66]), ReadRes.data []] []).map
          (fun r => (r.closed, deliveries r.evs)) = some (true, [([65, 66], 5, 1)]) := by
  refine ⟨by decide, by decide, by decide⟩

/-- C5 (amended): a binary header whose declared payload length makes header
plus payload exceed the receive buffer capacity is not rejected. When the
read that completes the header returns, the handler returns with the
connection open, nothing delivered and nothing acknowledged (the trace holds
the read alone), awaiting the rest; and for every subsequent sequence of reads,
over any number of callbacks, every byte written into the buffer (by `read`,
by `client_message` and by `memmove`) has an index below the capacity. -/
theorem C5_oversized_header_awaits_data (p : Proto) (hs : Sane p) (hf : LenFits p)
    (io : ev_tcp) (old bytes hdr part : List Nat) (rest : List ReadRes) (ws : List WriteRes)
    (fuel n : Nat)
    (hbp : io.bufptr = (old.length : Int)) (hold : bytes_at io.buffer 0 old.length = old)
    (hne : bytes ≠ []) (heq : old ++ bytes = hdr ++ part)
    (hfit : (hdr ++ part).length ≤ p.MAX_AUDIT_MESSAGE_LENGTH)
    (hh : hdr.length = p.AUDIT_RMW_HEADER_SIZE)
    (hm : hdr.take p.AUDIT_RMW_MAGIC.length = p.AUDIT_RMW_MAGIC)
    (hbig : cap p < p.AUDIT_RMW_HEADER_SIZE + (p.AUDIT_RMW_UNPACK_HEADER hdr).len % 2 ^ 32)
    (hfu : p.MAX_AUDIT_MESSAGE_LENGTH ≤ fuel) (hn : rest.length < n) :
    ∃ res, client_handler p fuel io (ReadRes.data bytes :: rest) ws = some res
      ∧ res.closed = false ∧ res.reads = rest ∧ res.ws = ws
      ∧ res.evs = [Ev.read io.fd io.bufptr
          (size_t (p.MAX_AUDIT_MESSAGE_LENGTH - io.bufptr)) bytes.length]
      ∧ res.io.bufptr = ((hdr ++ part).length : Int)
      ∧ ∃ res2, callbacks p fuel n res.io rest ws = some res2
          ∧ ∀ e ∈ res.evs ++ res2.evs, WritesBelowCap p e := by
  have hlen : old.length + bytes.length = (hdr ++ part).length := by
    rw [← heq, List.length_append]
  have hpos : 0 < bytes.length := List.length_pos.mpr hne
  have hcnt : size_t ((p.MAX_AUDIT_MESSAGE_LENGTH : Int) - io.bufptr)
      = p.MAX_AUDIT_MESSAGE_LENGTH - old.length := by
    rw [hbp, size_t_of_nonneg _ (by omega) (by have := hs.2.2; omega)]
    omega
  have htake : bytes.take (p.MAX_AUDIT_MESSAGE_LENGTH - old.length) = bytes :=
    List.take_of_length_le (by omega)
  have hbuf : bytes_at (bwrite io.buffer old.length bytes) 0 (hdr ++ part).length = hdr ++ part := by
    rw [← heq]
    exact bwrite_append io.buffer old bytes hold
  have hbd := boundary_oversized p hs hf
    { io with client_active := 1, buffer := bwrite io.buffer old.length bytes } bytes.length
    hdr part hh hm hbig hbuf (by simp only []; rw [hbp]; omega) (by simp only []; rw [hbp]; omega)
  obtain ⟨f, rfl⟩ : ∃ f, fuel = f + 1 := ⟨fuel - 1, by have := hs.1; omega⟩
  have hres : client_handler p (f + 1) io (ReadRes.data bytes :: rest) ws
      = some { io := { io with client_active := 1, buffer := bwrite io.buffer old.length bytes,
                                bufptr := io.bufptr + bytes.length },
               closed := false,
               evs := [Ev.read io.fd io.bufptr
                 (size_t (p.MAX_AUDIT_MESSAGE_LENGTH - io.bufptr)) bytes.length],
               reads := rest, ws := ws } := by
    unfold client_handler read_more
    simp only [hcnt, htake]
    rw [if_neg (by omega), if_neg (by omega)]
    have hto : io.bufptr.toNat = old.length := by omega
    simp only [hto]
    unfold more_messages
    simp only [hbd]
    rfl
  refine ⟨_, hres, rfl, rfl, rfl, rfl, by simp only []; rw [hbp]; omega, ?_⟩
  obtain ⟨res2, h2, _, _, hev⟩ := callbacks_inv p hs hf (f + 1) hfu n rest
    { io with client_active := 1, buffer := bwrite io.buffer old.length bytes,
              bufptr := io.bufptr + bytes.length } ws hn
    (by simp only []; omega) (by simp only []; rw [hbp]; omega)
  refine ⟨res2, h2, ?_⟩
  intro e he
  simp only [List.singleton_append, List.mem_cons] at he
  rcases he with he | he
  · subst he
    right
    refine ⟨by omega, ?_⟩
    unfold cap
    omega
  · exact writes_below_of_evok p e (hev e he)

/-- C5 (amended) at a concrete input: the header `hdr_big` with two payload bytes,
then a peer close. -/
theorem C5_witness :
    ∃ res, client_handler rmw 8970 (new_client 5 1 2)
        [ReadRes.data (hdr_big ++ [65, 66]), ReadRes.data []] [] = some res
      ∧ res.closed = false ∧ deliveries res.evs = [] ∧ writes res.evs = []
      ∧ ∃ res2, callbacks rmw 8970 2 res.io [ReadRes.data []] [] = some res2
          ∧ ∀ e ∈ res.evs ++ res2.evs, WritesBelowCap rmw e := by
  obtain ⟨res, h1, h2, _, _, h5, _, h7⟩ := C5_oversized_header_awaits_data rmw rmw_sane
    rmw_len_fits (new_client 5 1 2) [] (hdr_big ++ [65, 66]) hdr_big [65, 66] [ReadRes.data []] []
    8970 2 rfl (by decide) (by decide) rfl (by decide) (by decide) (by decide) (by decide)
    (le_refl _) (by decide)
  exact ⟨res, h1, h2, by rw [h5]; rfl, by rw [h5]; rfl, h7⟩

/-! ## C6 -/

/-- C7, as stated, fails: with the residual bytes `a NUL b` buffered (no
line-feed, no magic), a graceful close delivers `a` only. -/
theorem C7_counterexample :
    (auditd_tcp_client_handler rmw 2 (world_with [97, 0, 98]) 7 [ReadRes.data []] []).map
        (fun r => deliveries r.2.1) = some [([97], 0, 0)] := by
  decide

/-- C7 (amended): when a legacy-scheme byte string without line-feed and
without NUL byte (and not starting with the binary magic) is buffered on a
registered connection, a graceful peer close (the first read of the callback
returns zero bytes) makes exactly one delivery, of exactly those bytes with
socket 0 and sequence 0, when the string is not empty and no delivery when
nothing is buffered; the handler then stops the watcher and `close_client`
unlinks and frees the connection. -/
theorem C7_close_flushes_residue (p : Proto) (hs : Sane p) (w : World) (a : Nat) (io : ev_tcp)
    (l : List Nat) (rest : List ReadRes) (ws : List WriteRes) (fuel : Nat)
    (hw : w.heap a = some io) (hbp : io.bufptr = (l.length : Int))
    (hb : bytes_at io.buffer 0 l.length = l)
    (hmax : l.length ≤ p.MAX_AUDIT_MESSAGE_LENGTH)
    (hmg : AUDIT_RMW_IS_MAGIC p io.buffer (l.length : Int) = false)
    (h0 : 0 ∉ l) (h10 : 10 ∉ l) :
    ∃ (w2 : World) (evs pre : List Ev),
      auditd_tcp_client_handler p fuel w a (ReadRes.data [] :: rest) ws = some (w2, evs, rest, ws)
        ∧ deliveries evs = (if l = [] then [] else [(l, 0, 0)])
        ∧ evs = pre ++ [Ev.ev_io_stop io.fd, Ev.send_audit_event_close io.addr io.port,
            Ev.close io.fd, Ev.free a]
        ∧ w2.heap a = none
        ∧ w2.client_chain = (if w.client_chain = some a then io.next else w.client_chain) := by
  have hu : uint32 io.bufptr = l.length := by
    rw [hbp, uint32_of_nonneg _ (by omega) (by have := hs.2.2; omega)]
    omega
  have heof := client_handler_eof p fuel io rest ws
  have hcp : (close_path p { io with client_active := 1 }
      [Ev.read io.fd io.bufptr (size_t (p.MAX_AUDIT_MESSAGE_LENGTH - io.bufptr)) 0] rest ws).closed
      = true := by
    unfold close_path
    split <;> rfl
  obtain ⟨w2, hw2, hheap, hchain⟩ := handler_closed p fuel w a io _ ws _ hw heof hcp
  have hfld := client_message_fields p { io with client_active := 1 } l.length ws
  have hio : (close_path p { io with client_active := 1 }
      [Ev.read io.fd io.bufptr (size_t (p.MAX_AUDIT_MESSAGE_LENGTH - io.bufptr)) 0] rest ws).io.fd
        = io.fd
      ∧ (close_path p { io with client_active := 1 }
      [Ev.read io.fd io.bufptr (size_t (p.MAX_AUDIT_MESSAGE_LENGTH - io.bufptr)) 0] rest ws).io.addr
        = io.addr
      ∧ (close_path p { io with client_active := 1 }
      [Ev.read io.fd io.bufptr (size_t (p.MAX_AUDIT_MESSAGE_LENGTH - io.bufptr)) 0] rest ws).io.port
        = io.port
      ∧ (close_path p { io with client_active := 1 }
      [Ev.read io.fd io.bufptr (size_t (p.MAX_AUDIT_MESSAGE_LENGTH - io.bufptr)) 0] rest ws).io.next
        = io.next := by
    unfold close_path
    split
    · rw [hu]; exact ⟨hfld.2.1, hfld.2.2.1, hfld.2.2.2.1, hfld.2.2.2.2.1⟩
    · exact ⟨rfl, rfl, rfl, rfl⟩
  have hrw : (close_path p { io with client_active := 1 }
      [Ev.read io.fd io.bufptr (size_t (p.MAX_AUDIT_MESSAGE_LENGTH - io.bufptr)) 0] rest ws).reads
        = rest
      ∧ (close_path p { io with client_active := 1 }
      [Ev.read io.fd io.bufptr (size_t (p.MAX_AUDIT_MESSAGE_LENGTH - io.bufptr)) 0] rest ws).ws
        = ws
      ∧ deliveries (close_path p { io with client_active := 1 }
      [Ev.read io.fd io.bufptr (size_t (p.MAX_AUDIT_MESSAGE_LENGTH - io.bufptr)) 0] rest ws).evs
        = (if l = [] then [] else [(l, 0, 0)]) := by
    unfold close_path
    by_cases hl : l = []
    · have hz : io.bufptr = 0 := by rw [hbp, hl]; rfl
      simp [hz, hl, deliveries]
    · have hpos : 0 < l.length := List.length_pos.mpr hl
      have hne : io.bufptr ≠ 0 := by omega
      obtain ⟨hd, _, hws⟩ := client_message_legacy p { io with client_active := 1 } ws l hb hmg
        h0 h10 hmax
      simp only [hne, ne_eq, not_false_eq_true, if_true, hu, hws, if_neg hl]
      refine ⟨trivial, trivial, ?_⟩
      rw [deliveries_append, hd]
      rfl
  rw [hio.1, hio.2.1, hio.2.2.1, hrw.1, hrw.2.1] at hw2
  rw [hio.2.2.2] at hchain
  refine ⟨w2, _, _, hw2, ?_, rfl, hheap, hchain⟩
  rw [deliveries_append, hrw.2.2]
  simp [deliveries]

/-- C7 (amended) at a concrete input: the residue `abc` buffered on the only
registered connection. -/
theorem C7_witness :
    ∃ (w2 : World) (evs : List Ev),
      auditd_tcp_client_handler rmw 1 (world_with [97, 98, 99]) 7 [ReadRes.data []] []
          = some (w2, evs, [], [])
        ∧ deliveries evs = [([97, 98, 99], 0, 0)] ∧ w2.heap 7 = none ∧ w2.client_chain = none := by
  obtain ⟨w2, evs, pre, h1, h2, _, h4, h5⟩ := C7_close_flushes_residue rmw rmw_sane
    (world_with [97, 98, 99]) 7 (conn_with [97, 98, 99]) [97, 98, 99] [] [] 1 rfl rfl
    (by decide) (by decide) (by decide) (by decide) (by decide)
  exact ⟨w2, evs, h1, h2, h4, h5⟩

/-! ## C8 -/

/-- C10: `bufptr` stays within the buffer. For every connection record
reachable from a freshly accepted connection (`bufptr = 0`) by callback
invocations with arbitrary read outcomes (a `read` stores at most the
requested number of bytes, whatever bytes and binary headers they are),
`0 ≤ bufptr ≤ capacity` holds, indeed `bufptr ≤ MAX_AUDIT_MESSAGE_LENGTH`;
every further callback returns, with `bufptr` again in these bounds, and each
of its read requests is made at an offset within them. -/
theorem C10_bufptr_within_buffer (p : Proto) (hs : Sane p) (hf : LenFits p) (fuel : Nat)
    (hfu : p.MAX_AUDIT_MESSAGE_LENGTH ≤ fuel) (io : ev_tcp) (hr : Reachable p fuel io) :
    0 ≤ io.bufptr ∧ io.bufptr ≤ p.MAX_AUDIT_MESSAGE_LENGTH ∧ io.bufptr ≤ cap p
      ∧ ∀ (reads : List ReadRes) (ws : List WriteRes),
          ∃ res, client_handler p fuel io reads ws = some res
            ∧ 0 ≤ res.io.bufptr ∧ res.io.bufptr ≤ p.MAX_AUDIT_MESSAGE_LENGTH
            ∧ res.io.bufptr ≤ cap p
            ∧ ∀ (fd off : Int) (count got : Nat), Ev.read fd off count got ∈ res.evs →
                0 ≤ off ∧ off ≤ cap p ∧ got ≤ count ∧ off + got ≤ cap p := by
  obtain ⟨h0, hm⟩ := reachable_inv p hs hf fuel hfu io hr
  have hcap : (cap p : Int) = p.MAX_AUDIT_MESSAGE_LENGTH + 17 := by unfold cap; push_cast; rfl
  refine ⟨h0, hm, by omega, ?_⟩
  intro reads ws
  obtain ⟨res, hres, hr0, hrm, hev, _⟩ := client_handler_inv p hs hf fuel hfu io reads ws h0 hm
  refine ⟨res, hres, hr0, hrm, by omega, ?_⟩
  intro fd off count got hmem
  obtain ⟨h1, h2, h3⟩ := hev _ hmem
  refine ⟨h1, by omega, h3, by omega⟩

/-- C10 at a concrete input: a fresh connection and one callback on it. -/
theorem C10_witness :
    0 ≤ (new_client 5 1 2).bufptr ∧ (new_client 5 1 2).bufptr ≤ cap rmw
      ∧ ∃ res, client_handler rmw 8970 (new_client 5 1 2) [ReadRes.data [97, 10, 98]] [] = some res
          ∧ 0 ≤ res.io.bufptr ∧ res.io.bufptr ≤ cap rmw := by
  obtain ⟨h1, _, h3, h4⟩ := C10_bufptr_within_buffer rmw rmw_sane rmw_len_fits 8970 (le_refl _)
    (new_client 5 1 2) (Reachable.fresh 5 1 2)
  obtain ⟨res, h5, h6, _, h8, _⟩ := h4 [ReadRes.data [97, 10, 98]] []
  exact ⟨h1, h3, res, h5, h6, h8⟩

/-! ## C11 -/

/-- C11: for every configured range and every accepted peer whose source port
lies outside it, the acceptor rejects the connection whatever
`auditd_tcpd_check` answers: the accepted socket is closed (once), exactly one
accept audit record is emitted and it is a failure record, no watcher is
started and the registry is unchanged. Conversely, for a peer whose port is in
the range and that passes the host check, no rejection is logged: with memory
available the connection is registered at the head of the chain and one
success record is emitted. -/
theorem C11_port_gate (ls : Listener) (w : World) (env : AcceptEnv) (hacc : env.afd ≠ -1) :
    (((env.port : Int) < ls.min_port ∨ ls.max_port < (env.port : Int)) →
        (auditd_tcp_listen_handler ls w env).1 = w
          ∧ accept_records (auditd_tcp_listen_handler ls w env).2 = [(env.addr, env.port, false)]
          ∧ closes (auditd_tcp_listen_handler ls w env).2 = [env.afd]
          ∧ LEv.ev_io_start env.afd ∉ (auditd_tcp_listen_handler ls w env).2)
      ∧ ((ls.min_port ≤ (env.port : Int) ∧ (env.port : Int) ≤ ls.max_port) → env.tcpd_check = 0 →
          LEv.log (Log.rejected env.addr env.port) ∉ (auditd_tcp_listen_handler ls w env).2
            ∧ ∀ a, env.malloc = some a →
                (auditd_tcp_listen_handler ls w env).1.client_chain = some a
                  ∧ (∃ c, (auditd_tcp_listen_handler ls w env).1.heap a = some c
                      ∧ c.fd = env.afd ∧ c.bufptr = 0 ∧ c.client_active = 1)
                  ∧ accept_records (auditd_tcp_listen_handler ls w env).2
                      = [(env.addr, env.port, true)]
                  ∧ closes (auditd_tcp_listen_handler ls w env).2 = []) := by
  constructor
  · intro hout
    unfold auditd_tcp_listen_handler
    rw [if_neg hacc]
    by_cases ht : env.tcpd_check ≠ 0
    · rw [if_pos ht]
      simp [accept_records, closes]
    · rw [if_neg ht, if_pos (by omega)]
      simp [accept_records, closes]
  · intro hin ht
    unfold auditd_tcp_listen_handler
    rw [if_neg hacc, if_neg (by omega), if_neg (by omega)]
    constructor
    · cases env.malloc <;> simp
    · intro a ha
      simp only [ha]
      refine ⟨trivial, ?_, by simp [accept_records], by simp [closes]⟩
      cases hch : w.client_chain with
      | none => simp [hset, new_client]
      | some n =>
        by_cases hna : n = a
        · subst hna
          simp [hset, new_client]
        · simp only [hset, if_neg hna]
          cases w.heap n with
          | none => simp [hset, new_client]
          | some cn => simp [hset, Ne.symm hna, new_client]

/-- C11 at a concrete input: range 1 to 1023, a peer on port 2000. -/
theorem C11_witness :
    (auditd_tcp_listen_handler ⟨3, 1, 1023, some 3⟩ (world_with []) ⟨9, 1, 2000, 0, some 8⟩).1
        = world_with []
      ∧ accept_records
          (auditd_tcp_listen_handler ⟨3, 1, 1023, some 3⟩ (world_with []) ⟨9, 1, 2000, 0, some 8⟩).2
        = [(1, 2000, false)] :=
  let h := (C11_port_gate ⟨3, 1, 1023, some 3⟩ (world_with []) ⟨9, 1, 2000, 0, some 8⟩
    (by decide)).1 (by decide)
  ⟨h.1, h.2.1⟩

/-! ## C12 -/

/-- C12: on a well-formed registry whose chain is the list `l` of `n`
connections (any `n`, any buffered data), `auditd_tcp_listen_uninit` returns
once its loop is given `n` iterations. It leaves `client_chain` empty and
every member freed. Its actions are: stop the listen watcher, close the
listening socket, then for each connection in chain order the close audit
record with `res=success`, the `close` of its descriptor and the `free` of its
record; nothing buffered is dispatched. Hence the trace holds exactly one
close audit record per connection (with its peer), one `close` per
connection's descriptor after that of the listening socket, and one `free`
per record. -/
theorem C12_uninit_closes_every_connection (ls : Listener) (w : World) (l : List Nat)
    (fuel : Nat) (hwf : WF w l) (hfuel : l.length ≤ fuel) :
    ∃ (w2 : World) (evs : List LEv),
      auditd_tcp_listen_uninit ls fuel w = some (w2, evs)
        ∧ w2.client_chain = none
        ∧ (∀ a ∈ l, w2.heap a = none)
        ∧ evs = [LEv.ev_io_stop_listen ls.watcher, LEv.conn (Ev.close ls.listen_socket)]
            ++ (close_events w l).map LEv.conn
        ∧ close_records evs = l.map (peer w)
        ∧ (close_records evs).length = l.length
        ∧ closes evs = ls.listen_socket :: l.map (sock w)
        ∧ frees evs = l := by
  obtain ⟨t, ht, hchain, hnone, hev⟩ := close_all_WF l w fuel hwf hfuel
  obtain ⟨h1, h2, h3⟩ := close_events_records w l
  refine ⟨t.1, _, ?_, hchain, fun a ha => hnone a (Or.inl ha), rfl, ?_, ?_, ?_, ?_⟩
  · unfold auditd_tcp_listen_uninit
    simp only [ht, hev]
  · simpa [close_records] using h1
  · have : close_records ([LEv.ev_io_stop_listen ls.watcher, LEv.conn (Ev.close ls.listen_socket)]
        ++ (close_events w l).map LEv.conn) = l.map (peer w) := by
      simpa [close_records] using h1
    rw [this, List.length_map]
  · simpa [closes] using h2
  · simpa [frees] using h3

/-- C12 on the sample registry of three connections: the three descriptors
are closed after the listening socket, and three close records are emitted. -/
theorem C12_witness :
    ∃ (w2 : World) (evs : List LEv),
      auditd_tcp_listen_uninit listener3 3 registry3 = some (w2, evs)
        ∧ w2.client_chain = none
        ∧ closes evs = [3, 12, 11, 10]
        ∧ (close_records evs).length = 3 := by
  obtain ⟨w2, evs, h1, h2, _, _, _, h6, h7, _⟩ :=
    C12_uninit_closes_every_connection listener3 registry3 [9, 8, 7] 3 WF_registry3 (by decide)
  exact ⟨w2, evs, h1, h2, h7, h6⟩

/-! ## C13 -/

/-- Every record of the sample registry is one of its three members. -/
theorem registry3_members (x : Nat) (c : ev_tcp) (h : registry3.heap x = some c) :
    x ∈ [9, 8, 7] := by
  by_cases h9 : x = 9
  · simp [h9]
  by_cases h8 : x = 8
  · simp [h8]
  by_cases h7 : x = 7
  · simp [h7]
  exfalso
  have hn : registry3.heap x = none := by
    simp [registry3, auditd_tcp_listen_handler, accept_at, listener3, registry0, hset, h9, h8, h7]
  rw [hn] at h
  cases h

/-- C13: let the registry be well formed with chain `l`, every allocated
record being registered. One scan, given `l.length` iterations, returns
with the reports `idle_reports w l`: a report for the record at `x` with
peer `(ad, pt)` is among them exactly when `x` is a member whose
`client_active` was 0 at the start of the scan and `(ad, pt)` is its peer;
after the scan the flag of every member is 0 and the registry is well formed
with the same chain. Let then callbacks of the client handler and calls of
the acceptor run (`malloc` returning addresses that are not allocated), and
let `a` be a member that none of these callbacks closes. Then `a` is a
member of the registry the second scan meets, that scan returns, and it
reports `a` if and only if the reads of the callbacks on `a` in between
stored no byte. -/
theorem C13_idle_scan (p : Proto) (fuel : Nat) (ls : Listener) (w : World) (l : List Nat)
    (hwf : WF w l) (hreg : ∀ x c, w.heap x = some c → x ∈ l) :
    ∃ w1, auditd_tcp_listen_check_idle l.length w = some (w1, idle_reports w l)
      ∧ (∀ x ad pt, LEv.log (Log.idle x ad pt) ∈ idle_reports w l
          ↔ x ∈ l ∧ flag w x = 0 ∧ peer w x = (ad, pt))
      ∧ (∀ x ∈ l, flag w1 x = 0)
      ∧ WF w1 l
      ∧ ∀ (ops : List Op) (a : Nat) (w2 : World) (tr : List (Nat × Bool × List Ev)),
          run p fuel ls w1 ops = some (w2, tr) → a ∈ l →
          (∀ e ∈ tr, e.1 = a → e.2.1 = false) →
          ∃ (l2 : List Nat) (w3 : World) (evs2 : List LEv),
            WF w2 l2 ∧ a ∈ l2
              ∧ auditd_tcp_listen_check_idle l2.length w2 = some (w3, evs2)
              ∧ ((∃ ad pt, LEv.log (Log.idle a ad pt) ∈ evs2) ↔ received a tr = 0) := by
  obtain ⟨w1, h1, hwf1, hfl1, hsome⟩ := check_idle_WF w l l.length hwf (le_refl _)
  have hmem : ∀ (v : World) (k : List Nat), WF v k → ∀ x ad pt,
      LEv.log (Log.idle x ad pt) ∈ idle_reports v k
        ↔ x ∈ k ∧ flag v x = 0 ∧ peer v x = (ad, pt) := by
    intro v k hv x ad pt
    rw [mem_idle_reports v k (fun y hy => WF_heap v k hv y hy)]
    constructor
    · rintro ⟨y, hy, hf, he⟩
      simp only [LEv.log.injEq, Log.idle.injEq] at he
      obtain ⟨e1, e2, e3⟩ := he
      subst e1
      exact ⟨hy, hf, by rw [e2, e3]⟩
    · rintro ⟨hx, hf, hp⟩
      exact ⟨x, hx, hf, by rw [hp]⟩
  refine ⟨w1, h1, hmem w l hwf, hfl1, hwf1, ?_⟩
  intro ops a w2 tr hrun ha hno
  have hreg1 : ∀ x c, w1.heap x = some c → x ∈ l := by
    intro x c hx
    have hs := hsome x
    rw [hx] at hs
    cases hwx : w.heap x with
    | none => rw [hwx] at hs; cases hs
    | some c0 => exact hreg x c0 hwx
  obtain ⟨l2, hwf2, _, hflag⟩ := run_inv p fuel ls ops w1 l w2 tr hwf1 hreg1 hrun
  obtain ⟨ha2, hf2⟩ := hflag a ha hno
  obtain ⟨w3, h3, _, _, _⟩ := check_idle_WF w2 l2 l2.length hwf2 (le_refl _)
  refine ⟨l2, w3, _, hwf2, ha2, h3, ?_⟩
  rw [hfl1 a ha] at hf2
  constructor
  · rintro ⟨ad, pt, hin⟩
    have hz := ((hmem w2 l2 hwf2 a ad pt).mp hin).2.1
    by_contra hne
    rw [hf2, if_neg hne] at hz
    cases hz
  · intro hz
    rw [if_pos hz] at hf2
    exact ⟨(peer w2 a).1, (peer w2 a).2, (hmem w2 l2 hwf2 a _ _).mpr ⟨ha2, hf2, rfl⟩⟩

/-- C13 on the sample registry: the three connections were just accepted, so
their flags are set and a first scan reports none of them; a second scan
with nothing received in between reports the connection at address 8. -/
theorem C13_witness :
    ∃ (w1 w3 : World) (l2 : List Nat) (evs2 : List LEv),
      auditd_tcp_listen_check_idle 3 registry3 = some (w1, [])
        ∧ auditd_tcp_listen_check_idle l2.length w1 = some (w3, evs2)
        ∧ ∃ ad pt, LEv.log (Log.idle 8 ad pt) ∈ evs2 := by
  obtain ⟨w1, h1, _, _, _, h5⟩ := C13_idle_scan rmw 8970 listener3 registry3 [9, 8, 7]
    WF_registry3 registry3_members
  obtain ⟨l2, w3, evs2, _, _, h8, h9⟩ := h5 [] 8 w1 [] rfl (by decide)
    (fun e he => by cases he)
  exact ⟨w1, w3, l2, evs2, h1, h8, h9.mpr rfl⟩

/-! ## C14 -/

/-- C14: with the configured port 0, `auditd_tcp_listen_init` returns 0 without
any system call and with the statics unchanged; for a non-zero port it returns
a non-zero value whenever `socket` fails or `bind` fails, and returns 0 only
when `socket` returned a descriptor and `bind` returned 0. (`bind` on the
invalid descriptor left by a failed `socket` fails: the test of line 367
compares with 0, so that case is caught by the `bind` test.) -/
theorem C14_listen_init_result (ls : Listener) (config : daemon_conf) (env : InitEnv)
    (hbadf : env.socket_ret < 0 → env.bind_ret ≠ 0) :
    (config.tcp_listen_port = 0 → auditd_tcp_listen_init ls config env = (0, ls, []))
      ∧ (config.tcp_listen_port ≠ 0 → (env.socket_ret < 0 ∨ env.bind_ret ≠ 0) →
          (auditd_tcp_listen_init ls config env).1 = 1)
      ∧ (config.tcp_listen_port ≠ 0 → (auditd_tcp_listen_init ls config env).1 = 0 →
          0 < env.socket_ret ∧ env.bind_ret = 0
            ∧ (auditd_tcp_listen_init ls config env).2.1.listen_socket = env.socket_ret) := by
  refine ⟨?_, ?_, ?_⟩
  · intro h
    unfold auditd_tcp_listen_init
    rw [if_pos h]
  · intro h hfail
    unfold auditd_tcp_listen_init
    rw [if_neg h]
    simp only []
    by_cases h0 : env.socket_ret = 0
    · rw [if_pos h0]
    · rw [if_neg h0]
      have hb : env.bind_ret ≠ 0 := by
        rcases hfail with hf | hf
        · exact hbadf hf
        · exact hf
      rw [if_pos hb]
  · intro h hret
    unfold auditd_tcp_listen_init at hret ⊢
    rw [if_neg h] at hret ⊢
    simp only [] at hret ⊢
    by_cases h0 : env.socket_ret = 0
    · rw [if_pos h0] at hret
      simp at hret
    · rw [if_neg h0] at hret ⊢
      by_cases hb : env.bind_ret ≠ 0
      · rw [if_pos hb] at hret
        simp at hret
      · rw [if_neg hb]
        have hb0 : env.bind_ret = 0 := by omega
        refine ⟨?_, hb0, rfl⟩
        by_contra hneg
        exact hbadf (by omega) hb0

/-- C14 at a concrete input: port 60, `socket` fails. -/
theorem C14_witness :
    (auditd_tcp_listen_init ⟨0, 0, 0, none⟩ ⟨60, 5, 1, 1023⟩ ⟨-1, -1⟩).1 = 1 :=
  (C14_listen_init_result ⟨0, 0, 0, none⟩ ⟨60, 5, 1, 1023⟩ ⟨-1, -1⟩ (by decide)).2.1
    (by decide) (by decide)

/-! ## C15 -/

/-- C15: with the four bytes `a LF b LF` buffered (`bufptr = 4`) and the
complete legacy message of length 2 found, dispatch and compaction leave
`bufptr = 2`, but the first two buffer bytes are NUL and LF, whereas the
bytes at indices 2 and 3 before the dispatch were `b` and LF: the store
`header[length] = 0` of the legacy branch is not undone before the move. -/
theorem C15_tail_first_byte_lost :
    boundary rmw { conn_with [97, 10, 98, 10] with bufptr := 0 } 4 = some 2
      ∧ (consume rmw (conn_with [97, 10, 98, 10]) 2 []).1.bufptr = 2
      ∧ bytes_at (consume rmw (conn_with [97, 10, 98, 10]) 2 []).1.buffer 0 2 = [0, 10]
      ∧ bytes_at (conn_with [97, 10, 98, 10]).buffer 2 2 = [98, 10] := by
  refine ⟨by decide, by decide, by decide, by decide⟩

/-! ## C16 -/

/-- C16: the first 18 bytes of a 21-byte binary envelope (header declaring 5
payload bytes, then `AB`) are buffered without any delivery or write; when the
peer then closes, the close path hands the two payload bytes downstream with
the envelope's socket and sequence number, although the binary scheme is in
effect and the envelope is incomplete. -/
theorem C16_truncated_envelope_flushed :
    (client_handler rmw 2 (new_client 5 1 2) [ReadRes.data truncated_envelope] []).map
        (fun r => (r.closed, r.io.bufptr, deliveries r.evs)) = some (false, 18, [])
      ∧ (client_handler rmw 2 (new_client 5 1 2) [ReadRes.data truncated_envelope] []).map
        (fun r => writes r.evs) = some []
      ∧ (callbacks rmw 2 3 (new_client 5 1 2)
            [ReadRes.data truncated_envelope, ReadRes.data []] []).map
          (fun r => (r.closed, deliveries r.evs)) = some (true, [([65, 66], 5, 1)]) := by
  refine ⟨by decide, by decide, by decide⟩

/-! ## C17 -/

/-- C17: one callback invocation terminates. For every connection record with
`0 ≤ bufptr ≤ MAX_AUDIT_MESSAGE_LENGTH` (every reachable one, by C10) and
every finite script of read outcomes the handler returns a result, with one
unit of fuel per pass and `MAX_AUDIT_MESSAGE_LENGTH` units available. Every
boundary-detection pass that finds a complete message finds one of at least
one and at most `bufptr + r` bytes (the buffered bytes), so the
`more_messages` loop, entered with `bufptr + r` buffered bytes, returns
within `bufptr + r` passes. -/
theorem C17_callback_terminates (p : Proto) (hs : Sane p) (hf : LenFits p) (io : ev_tcp)
    (reads : List ReadRes) (ws : List WriteRes) (fuel : Nat)
    (h0 : 0 ≤ io.bufptr) (hm : io.bufptr ≤ p.MAX_AUDIT_MESSAGE_LENGTH)
    (hfu : p.MAX_AUDIT_MESSAGE_LENGTH ≤ fuel) :
    (∃ res, client_handler p fuel io reads ws = some res)
      ∧ (∀ (s : ev_tcp) (r i : Int), 0 ≤ s.bufptr → 0 < r → boundary p s r = some i →
          1 ≤ i ∧ i ≤ s.bufptr + r)
      ∧ (∀ (s : ev_tcp) (r : Int) (ws1 : List WriteRes), 0 ≤ s.bufptr → 0 < r →
          s.bufptr + r ≤ p.MAX_AUDIT_MESSAGE_LENGTH →
          ∃ t, more_messages p (s.bufptr + r).toNat s r ws1 = some t) := by
  refine ⟨?_, ?_, ?_⟩
  · obtain ⟨res, hres, _⟩ := client_handler_inv p hs hf fuel hfu io reads ws h0 hm
    exact ⟨res, hres⟩
  · intro s r i hs0 hr hb
    exact boundary_bounds p hs hf s r i hs0 hr hb
  · intro s r ws1 hs0 hr hmax
    obtain ⟨t, ht, _⟩ := more_messages_inv p hs hf (s.bufptr + r).toNat s r ws1 hs0 hr hmax
      (by omega)
    exact ⟨t, ht⟩

/-- C17 at a concrete input: a fresh connection and a read of three bytes. -/
theorem C17_witness :
    ∃ res, client_handler rmw 8970 (new_client 5 1 2) [ReadRes.data [97, 10, 98]] [] = some res :=
  (C17_callback_terminates rmw rmw_sane rmw_len_fits (new_client 5 1 2) [ReadRes.data [97, 10, 98]]
    [] 8970 (by decide) (by decide) (le_refl _)).1

/-! ## C18 -/

/-- C18: let the registry be well formed with chain `l` (head first). Then
no address occurs twice in `l`, the head has no predecessor, and the
neighbours of every member are members that point back at it
(`x.next.prev = x`, `x.prev.next = x`). The acceptor keeps it well formed
when `malloc` returns an address that is not allocated: the chain stays `l`
when the connection is not accepted and becomes `a :: l` when the record at
`a` is inserted. `close_client (c)` for any member `c` (head, middle, tail
or only element) keeps it well formed with chain `l.erase c`: the record of
`c` is freed, the members are those of `l` other than `c` and they keep
their order, and a forward traversal that starts at the successor of `c`
visits the same records after the removal as before it. A callback of the
client handler on a member keeps it well formed too: the chain stays `l`
when the connection stays open and becomes `l.erase a` when the callback
closes it. -/
theorem C18_registry_stays_well_formed (ls : Listener) (w : World) (l : List Nat)
    (env : AcceptEnv) (hwf : WF w l) (hfresh : ∀ a, env.malloc = some a → w.heap a = none) :
    (l.Nodup
      ∧ (∀ h, w.client_chain = some h → ∃ c, w.heap h = some c ∧ c.prev = none)
      ∧ ∀ x ∈ l, ∃ cx, w.heap x = some cx
          ∧ (∀ y, cx.next = some y → y ∈ l ∧ ∃ cy, w.heap y = some cy ∧ cy.prev = some x)
          ∧ (∀ y, cx.prev = some y → y ∈ l ∧ ∃ cy, w.heap y = some cy ∧ cy.next = some x))
    ∧ (∃ l2, WF (auditd_tcp_listen_handler ls w env).1 l2
        ∧ ((auditd_tcp_listen_handler ls w env).1 = w ∧ l2 = l
          ∨ ∃ a, env.malloc = some a ∧ l2 = a :: l))
    ∧ (∀ c ∈ l,
        WF (close_client w c).1 (l.erase c)
          ∧ (close_client w c).1.heap c = none
          ∧ (∀ x, x ∈ l.erase c ↔ x ∈ l ∧ x ≠ c)
          ∧ List.Sublist (l.erase c) l
          ∧ ∀ cc, w.heap c = some cc →
              ∀ n, traverse (close_client w c).1.heap n cc.next = traverse w.heap n cc.next)
    ∧ ∀ (p : Proto) (fuel a : Nat) (reads : List ReadRes) (ws : List WriteRes)
        (r : World × List Ev × List ReadRes × List WriteRes), a ∈ l →
        auditd_tcp_client_handler p fuel w a reads ws = some r →
        (WF r.1 l ∧ r.1.heap a ≠ none) ∨ (WF r.1 (l.erase a) ∧ r.1.heap a = none) := by
  refine ⟨WF_links w l hwf, ?_, ?_, ?_⟩
  · by_cases hacc : env.afd ≠ -1 ∧ env.tcpd_check = 0
        ∧ ¬ (ls.min_port > env.port ∨ (env.port : Int) > ls.max_port) ∧ env.malloc ≠ none
    · obtain ⟨h1, h2, h3, h4⟩ := hacc
      obtain ⟨a, ha⟩ := Option.ne_none_iff_exists'.mp h4
      exact ⟨a :: l, WF_accept ls w l env a hwf h1 h2 h3 ha (hfresh a ha), Or.inr ⟨a, ha, rfl⟩⟩
    · have hw : (auditd_tcp_listen_handler ls w env).1 = w := by
        apply listen_handler_not_accepted
        by_contra hcon
        apply hacc
        simp only [not_or] at hcon
        exact ⟨hcon.1, not_not.mp hcon.2.1, by simpa [not_or] using hcon.2.2.1, hcon.2.2.2⟩
      exact ⟨l, by rw [hw]; exact hwf, Or.inl ⟨hw, rfl⟩⟩
  · intro c hc
    obtain ⟨cc, hcc⟩ := WF_heap w l hwf c hc
    have hwf2 := WF_close_client w l c hwf hc
    refine ⟨hwf2, (close_client_of w c cc hcc).2.1, ?_, List.erase_sublist c l, ?_⟩
    · intro x
      rw [List.Nodup.mem_erase_iff hwf.1]
      exact ⟨fun h => ⟨h.2, h.1⟩, fun h => ⟨h.2, h.1⟩⟩
    · intro cc2 hcc2 n
      obtain ⟨k, hk⟩ := List.mem_iff_getElem?.mp hc
      obtain ⟨c3, hc3, hn3, _⟩ := hwf.2.2 k c hk
      rw [hcc2] at hc3
      simp only [Option.some.injEq] at hc3
      subst hc3
      have he := erase_eq_eraseIdx_of_getElem? l k c hwf.1 hk
      rw [he] at hwf2
      have h1 := WF_traverse w l hwf n (k + 1)
      have h2 := WF_traverse (close_client w c).1 (l.eraseIdx k) hwf2 n k
      rw [List.getElem?_eraseIdx, if_neg (by omega), drop_eraseIdx_self] at h2
      rw [hn3, h1, h2]
  · intro p fuel a reads ws r ha hh
    obtain ⟨io, res, hio, hres, hcase⟩ := handler_world p fuel w a reads ws r hh
    obtain ⟨_, _, _, hnext, hprev, _, _⟩ := client_handler_record p fuel io reads ws res hres
    have hwf1 : WF { w with heap := hset w.heap a (some res.io) } l :=
      WF_hset w l a io res.io hwf hio hnext hprev
    have hb1 : ({ w with heap := hset w.heap a (some res.io) } : World).heap a
        = some res.io := hset_eq _ _ _
    rcases hcase with ⟨_, hr1⟩ | ⟨_, hr1, _⟩
    · right
      rw [hr1]
      exact ⟨WF_close_client _ l a hwf1 ha, (close_client_of _ a res.io hb1).2.1⟩
    · left
      rw [hr1]
      exact ⟨hwf1, by rw [hb1]; exact Option.some_ne_none _⟩

/-- C18 on the sample registry of three connections: removing the middle
one leaves the chain of the other two, in their order. -/
theorem C18_witness : WF (close_client registry3 8).1 [9, 7] :=
  ((C18_registry_stays_well_formed listener3 registry3 [9, 8, 7] (accept_at 13 6) WF_registry3
    (fun a ha => by
      have : a = 6 := by
        simp only [accept_at, Option.some.injEq] at ha
        exact ha.symm
      subst this
      rfl)).2.2.1 8 (by decide)).1

/-! ## C19 -/

/-- Partial writes that all make progress: the loop returns the whole length,
and its `write` calls are offered the consecutive parts of the buffer, each
followed by what remains. -/
theorem ar_write_loop_good :
    ∀ (ws : List WriteRes) (buf : List Nat) (sock rc : Int), GoodWrites ws buf.length →
      ∃ parts : List (List Nat), joined parts = buf ∧ (∀ q ∈ parts, q ≠ [])
        ∧ (ar_write_loop ws sock buf buf.length rc).1 = rc + buf.length
        ∧ (ar_write_loop ws sock buf buf.length rc).2.1 = slices sock parts := by
  intro ws
  induction ws with
  | nil =>
    intro buf sock rc _
    cases buf with
    | nil => exact ⟨[], rfl, by simp, by simp [ar_write_loop], by simp [ar_write_loop, slices]⟩
    | cons b bs =>
      refine ⟨[b :: bs], by simp [joined], by simp, ?_, ?_⟩
      · unfold ar_write_loop
        rw [if_pos (by simp only [List.length_cons]; omega)]
      · unfold ar_write_loop
        rw [if_pos (by simp only [List.length_cons]; omega)]
        simp [slices, joined]
  | cons w ws ih =>
    intro buf sock rc hg
    cases buf with
    | nil => exact ⟨[], rfl, by simp, by simp [ar_write_loop], by simp [ar_write_loop, slices]⟩
    | cons b bs =>
      cases w with
      | err e => simp [GoodWrites] at hg
      | ok n =>
        simp only [List.length_cons, GoodWrites] at hg
        obtain ⟨hn, hle, hg2⟩ := hg
        have hlen : ((b :: bs).drop n).length = bs.length + 1 - n := by simp
        obtain ⟨parts, hj, hne, hrc, hev⟩ := ih ((b :: bs).drop n) sock (rc + n) (by rw [hlen]; exact hg2)
        have hcast : (((b :: bs).length : Nat) : Int) - (n : Int)
            = (((b :: bs).drop n).length : Nat) := by
          rw [hlen]; simp only [List.length_cons]; omega
        refine ⟨(b :: bs).take n :: parts, ?_, ?_, ?_, ?_⟩
        · simp only [joined, hj]
          exact List.take_append_drop _ _
        · intro q hq
          simp only [List.mem_cons] at hq
          rcases hq with hq | hq
          · subst hq
            intro h
            have : ((b :: bs).take n).length = 0 := by rw [h]; rfl
            simp only [List.length_take, List.length_cons] at this
            omega
          · exact hne q hq
        · unfold ar_write_loop
          rw [if_pos (by simp only [List.length_cons]; omega)]
          simp only []
          rw [if_neg (by omega), hcast, hrc, hlen]
          simp only [List.length_cons]
          omega
        · unfold ar_write_loop
          rw [if_pos (by simp only [List.length_cons]; omega)]
          simp only []
          rw [if_neg (by omega), hcast, hev]
          simp only [slices, hj, Int.toNat_ofNat, List.take_length, List.take_append_drop]

/-- A write that fails with an error other than an interrupt, after results
that made progress without exhausting the buffer: the loop returns `-1`, the
failed call is its last one and the rest of the script is not consumed. -/
theorem ar_write_loop_error (e : Errno) (he : e ≠ Errno.EINTR) (rest : List WriteRes) :
    ∀ (pre : List WriteRes) (buf : List Nat) (sock rc : Int), Progress pre →
      accepted_count pre < buf.length →
      (ar_write_loop (pre ++ WriteRes.err e :: rest) sock buf buf.length rc).1 = -1
        ∧ (ar_write_loop (pre ++ WriteRes.err e :: rest) sock buf buf.length rc).2.2 = rest
        ∧ (ar_write_loop (pre ++ WriteRes.err e :: rest) sock buf buf.length rc).2.1.length
            = pre.length + 1 := by
  intro pre
  induction pre with
  | nil =>
    intro buf sock rc _ hacc
    simp only [accepted_count] at hacc
    simp only [List.nil_append]
    unfold ar_write_loop
    rw [if_pos (by omega)]
    cases e with
    | EINTR => exact absurd rfl he
    | EAGAIN => simp
    | other k => simp
  | cons w pre ih =>
    intro buf sock rc hp hacc
    cases w with
    | err e2 =>
      obtain ⟨he2, hp2⟩ := hp
      subst he2
      simp only [accepted_count] at hacc
      obtain ⟨h1, h2, h3⟩ := ih buf sock rc hp2 hacc
      simp only [List.cons_append]
      unfold ar_write_loop
      rw [if_pos (by omega)]
      exact ⟨h1, h2, by simp only [List.length_cons, h3]⟩
    | ok n =>
      obtain ⟨hn, hp2⟩ := hp
      simp only [accepted_count] at hacc
      have hlen : (buf.drop n).length = buf.length - n := by simp
      have hcast : ((buf.length : Nat) : Int) - (n : Int) = ((buf.drop n).length : Nat) := by
        rw [hlen]; omega
      obtain ⟨h1, h2, h3⟩ := ih (buf.drop n) sock (rc + n) hp2 (by rw [hlen]; omega)
      simp only [List.cons_append]
      unfold ar_write_loop
      rw [if_pos (by omega)]
      simp only []
      rw [if_neg (by omega), hcast]
      exact ⟨h1, h2, by simp only [List.length_cons, h3]⟩

/-- C19: `ar_write` handles partial writes. For a buffer and a script of write
results in which every result consumed is a positive count no larger than
what remains, `ar_write` returns `len`, and its `write`
calls send the consecutive non-empty parts `parts` of the buffer: each call
is offered its own part followed by everything after it, and the parts
concatenate to exactly the buffer. When, after results that made progress
without exhausting the buffer, a write fails with an error other than an
interrupt, `ar_write` returns the negative result `-1`; the failed call is
its last one and the rest of the script is left unconsumed. -/
theorem C19_ar_write_short_writes (ws pre rest : List WriteRes) (buf : List Nat) (sock : Int)
    (e : Errno) (hg : GoodWrites ws buf.length)
    (hp : Progress pre) (hacc : accepted_count pre < buf.length) (he : e ≠ Errno.EINTR) :
    (∃ parts : List (List Nat), joined parts = buf ∧ (∀ q ∈ parts, q ≠ [])
        ∧ (ar_write ws sock buf buf.length).1 = buf.length
        ∧ (ar_write ws sock buf buf.length).2.1 = slices sock parts)
      ∧ (ar_write (pre ++ WriteRes.err e :: rest) sock buf buf.length).1 = -1
      ∧ (ar_write (pre ++ WriteRes.err e :: rest) sock buf buf.length).2.2 = rest
      ∧ (ar_write (pre ++ WriteRes.err e :: rest) sock buf buf.length).2.1.length
          = pre.length + 1 := by
  constructor
  · obtain ⟨parts, h1, h2, h3, h4⟩ := ar_write_loop_good ws buf sock 0 hg
    exact ⟨parts, h1, h2, by unfold ar_write; rw [h3]; omega, h4⟩
  · exact ar_write_loop_error e he rest pre buf sock 0 hp hacc

/-- C19 at a concrete input: seven bytes written in parts of 3, 2 and 2, and a
failure after the first part. -/
theorem C19_witness :
    (ar_write [WriteRes.ok 3, WriteRes.ok 2, WriteRes.ok 2] 5 [1, 2, 3, 4, 5, 6, 7] 7).1 = 7
      ∧ (ar_write ([WriteRes.ok 3] ++ WriteRes.err (Errno.other 32) :: [WriteRes.ok 4]) 5
          [1, 2, 3, 4, 5, 6, 7] 7).1 = -1 := by
  obtain ⟨⟨_, _, _, h3, _⟩, h4, _⟩ := C19_ar_write_short_writes
    [WriteRes.ok 3, WriteRes.ok 2, WriteRes.ok 2] [WriteRes.ok 3] [WriteRes.ok 4]
    [1, 2, 3, 4, 5, 6, 7] 5 (Errno.other 32)
    (by simp [GoodWrites]) (by simp [Progress]) (by decide) (by decide)
  exact ⟨h3, h4⟩

/-! ## C20 -/

/-- A complete envelope that arrives alone in one read on a fresh connection is
compacted by `memmove (buffer, buffer + L, L)` with `L` its length. -/
theorem client_handler_memmove (p : Proto) (hs : Sane p) (e : Envelope) (hc : e.Complete p)
    (hmax : e.bytes.length ≤ p.MAX_AUDIT_MESSAGE_LENGTH) (fd : Int) (addr port : Nat)
    (ws : List WriteRes) (fuel : Nat) :
    ∃ res, client_handler p (fuel + 1) (new_client fd addr port) [ReadRes.data e.bytes] ws = some res
      ∧ Ev.memmove e.bytes.length e.bytes.length ∈ res.evs := by
  have hel := envelope_length p e hc
  have hpos : 0 < e.bytes.length := by have := hs.1; omega
  have hcnt : size_t ((p.MAX_AUDIT_MESSAGE_LENGTH : Int) - 0) = p.MAX_AUDIT_MESSAGE_LENGTH := by
    rw [size_t_of_nonneg _ (by omega) (by have := hs.2.2; omega)]
    omega
  have htake : e.bytes.take p.MAX_AUDIT_MESSAGE_LENGTH = e.bytes := List.take_of_length_le hmax
  have hbuf : bytes_at (bwrite (fun _ => 0) 0 e.bytes) 0 (e.bytes ++ []).length = e.bytes ++ [] := by
    rw [List.append_nil]
    exact bwrite_bytes_at _ _
  obtain ⟨io2, _, _, _, heq2⟩ := more_messages_envelope p hs
    { fd := fd, addr := addr, port := port, next := none, prev := none, bufptr := 0,
      client_active := 1, buffer := bwrite (fun _ => 0) 0 e.bytes }
    e.bytes.length ws e hc [] (by simp) hbuf (by rw [List.append_nil]; exact hmax) fuel
  rw [if_pos rfl] at heq2
  unfold client_handler read_more
  simp only [new_client, hcnt, htake, Int.toNat_zero]
  rw [if_neg (by omega), if_neg (by omega)]
  simp only [heq2, if_true]
  unfold read_more
  simp only []
  rw [if_pos (by omega)]
  refine ⟨_, rfl, ?_⟩
  simp

theorem env_long_length : env_long.bytes.length = 4516 := by
  show (rmw.AUDIT_RMW_PACK_HEADER 0 0 4500 1 ++ List.replicate 4500 65).length = 4516
  rw [List.length_append, List.length_replicate]
  decide

theorem env_long_complete : env_long.Complete rmw := by
  refine ⟨by decide, by decide, ?_⟩
  show _ = (List.replicate 4500 65).length
  rw [List.length_replicate]
  decide

/-- C20: a complete envelope of 4516 bytes (payload 4500 bytes `A`) arrives in
one read on a fresh connection; its compaction is the call
`memmove (buffer, buffer + 4516, 4516)`, whose source range ends at index
9032, beyond the 8987 bytes of the buffer: the count passed is `bufptr`, not
the number of bytes that remain after the message. -/
theorem C20_memmove_source_past_buffer :
    ∃ res, client_handler rmw 1 (new_client 5 1 2) [ReadRes.data env_long.bytes] [] = some res
      ∧ Ev.memmove 4516 4516 ∈ res.evs ∧ (4516 : Int) + 4516 > cap rmw := by
  obtain ⟨res, h1, h2⟩ := client_handler_memmove rmw rmw_sane env_long env_long_complete
    (by rw [env_long_length]; decide) 5 1 2 [] 0
  rw [env_long_length] at h2
  exact ⟨res, h1, h2, by decide⟩

end AuditdListen
